import Mathlib

/-!
# simple_image_recon : ApproxReconstructor

A shallow embedding of `include/simple_image_recon/approx_reconstructor.hpp`
and theorems about its frame scheduling.

Conventions of the embedding.

* `int64_t` values are Lean integers and signed `+` and `*` are exact: signed
  overflow is undefined behaviour in C++, so the embedding describes the
  executions in which no signed operation overflows.  The conversion
  `(int64_t)t` of a `uint64_t` is defined behaviour and is embedded as `toInt64`.
* Signed division truncates toward zero, `Int.tdiv`.  Division by zero is undefined in
  the source; the theorems about `setFirstTime` in periodic mode assume a positive
  interval.
* The two `while` loops have no bound in the source.  They are embedded with a
  fuel argument that bounds the number of iterations; `none` means that the
  fuel ran out before the loop condition failed.
* The decoder library, the brightness accumulator and the frame handler are
  not part of this header.  Decoders and decoder factories are parameters, the
  accumulator is the log of the calls it received, and the frame handler is the
  log of the frames handed to it.
-/

namespace simple_image_recon

/-- The value of `(int64_t)t` for a `uint64_t` `t`: two's complement. -/
def toInt64 (t : Nat) : Int :=
  if t % 2 ^ 64 < 2 ^ 63 then ((t % 2 ^ 64 : Nat) : Int)
  else ((t % 2 ^ 64 : Nat) : Int) - 2 ^ 64

/-- The bit pattern of a `double` that is only passed through (`fillRatio`). -/
structure Double where
  bits : Nat
deriving DecidableEq, Repr

/-- The arguments of one `eventCD(t, ex, ey, polarity)` call. -/
structure Event where
  t : Nat
  ex : Nat
  ey : Nat
  polarity : Nat
deriving DecidableEq, Repr

/-- The calls a decoder makes on its `EventProcessor`. -/
inductive Callback where
  | eventCD (t ex ey polarity : Nat)
  | eventExtTrigger (t edge id : Nat)
  | finished
  | rawData (bytes : List Nat)
deriving DecidableEq, Repr

/-- The `eventCD` calls among a list of callbacks, in order. -/
def cdEvents : List Callback → List Event
  | [] => []
  | .eventCD t ex ey polarity :: cbs => ⟨t, ex, ey, polarity⟩ :: cdEvents cbs
  | _ :: cbs => cdEvents cbs

/-- The arguments of `SimpleImageReconstructor::initialize`. -/
structure InitArgs where
  width : Nat
  height : Nat
  cutoffNumEvents : Nat
  tileSize : Int
  fillRatio : Double
deriving DecidableEq, Repr

/-- The accumulator `simple_image_recon_lib::SimpleImageReconstructor`, as the
log of the `initialize` and `event` calls it received, oldest first. -/
structure SimpleImageReconstructor where
  inits : List InitArgs
  events : List Event
deriving DecidableEq, Repr

/-- The call `simpleReconstructor_.initialize(width, height, cutoff, tileSize, fillRatio)`. -/
def SimpleImageReconstructor.initCall (r : SimpleImageReconstructor) (a : InitArgs) :
    SimpleImageReconstructor :=
  { r with inits := r.inits ++ [a] }

/-- The call `simpleReconstructor_.event(t, ex, ey, polarity)`. -/
def SimpleImageReconstructor.event (r : SimpleImageReconstructor)
    (t ex ey polarity : Nat) : SimpleImageReconstructor :=
  { r with events := r.events ++ [⟨t, ex, ey, polarity⟩] }

/-- A message header: frame id and time stamp in nanoseconds. -/
structure Header where
  frame_id : String
  stamp : Int
deriving DecidableEq, Repr

/-- The fields of `imageMsgTemplate_` that the class sets; its `data` stays empty. -/
structure ImageMsg where
  header : Header
  height : Nat
  width : Nat
  encoding : String
  is_bigendian : Bool
  step : Nat
deriving DecidableEq, Repr

/-- One call `frameHandler_->frame(std::move(msg), topic_)`: the image message,
the size its `data` was resized to, the accumulator state and stride that
`getImage` read the pixels out of, and the topic. -/
structure Frame where
  msg : ImageMsg
  dataSize : Nat
  image : SimpleImageReconstructor
  stride : Nat
  topic : String
deriving DecidableEq, Repr

/-- The time stamp a frame carries, `msg->header.stamp`. -/
def Frame.stamp (f : Frame) : Int := f.msg.header.stamp

/-- An incoming event array message. -/
structure EventArray where
  header : Header
  width : Nat
  height : Nat
  encoding : String
  events : List Nat
deriving DecidableEq, Repr

/-- A decoder of the external codec library.  A decoder instance keeps state
between buffers, so the calls it makes for a buffer may depend on the buffers
it decoded before (`history`, oldest first). -/
structure Decoder where
  decode : (history : List (List Nat)) → (buffer : List Nat) → List Callback

/-- A decoder instance together with the buffers it has decoded so far. -/
structure DecoderInst where
  codec : Decoder
  history : List (List Nat)

/-- What the header takes from outside: the two decoder factories
(`getInstance(encoding, width, height)`, `none` for a null pointer) and
`check_endian::isBigEndian()`. -/
structure Externals where
  firstFactory : String → Nat → Nat → Option Decoder
  decoderFactory : String → Nat → Nat → Option Decoder
  isBigEndian : Bool

/-- The member variables of `ApproxReconstructor`.  `frameHandler_` is the list
of frames handed to the frame handler so far, oldest first. -/
structure ApproxReconstructor where
  frameHandler_ : List Frame
  topic_ : String
  imageMsgTemplate_ : ImageMsg
  cutoffNumEvents_ : Int
  sliceInterval_ : Int
  sliceTimes_ : List Int
  useSliceInterval_ : Bool
  nextFrameTime_ : Int
  t0_ : Int
  fillRatio_ : Double
  tileSize_ : Int
  timeOffset_ : Int
  decoder_ : Option DecoderInst
  simpleReconstructor_ : SimpleImageReconstructor

namespace ApproxReconstructor

/-- The method `addFrameTime`: `sliceTimes_.push(t)`. -/
def addFrameTime (s : ApproxReconstructor) (t : Int) : ApproxReconstructor :=
  { s with sliceTimes_ := s.sliceTimes_ ++ [t] }

/-- The method `addFrameTimes`: push every element, in the given order. -/
def addFrameTimes (s : ApproxReconstructor) (ts : List Int) : ApproxReconstructor :=
  ts.foldl addFrameTime s

/-- The method `hasFrameTimes`. -/
def hasFrameTimes (s : ApproxReconstructor) : Bool :=
  !s.sliceTimes_.isEmpty

/-- The constructor.  `fpsInterval` is the value of
`static_cast<int64_t>(SEC_TO_NSEC(1) / std::abs(fps))`, a floating-point
computation that is taken as given here. -/
def construct (topic : String) (cutoffNumEvents : Int) (fpsInterval : Int)
    (fillRatio : Double) (tileSize : Int) (offset : Int) (frameTimes : List Int) :
    ApproxReconstructor :=
  let s0 : ApproxReconstructor :=
    { frameHandler_ := []
      topic_ := topic
      imageMsgTemplate_ := ⟨⟨"", 0⟩, 0, 0, "", false, 0⟩
      cutoffNumEvents_ := cutoffNumEvents
      sliceInterval_ := 0
      sliceTimes_ := []
      useSliceInterval_ := true
      nextFrameTime_ := 0
      t0_ := 0
      fillRatio_ := fillRatio
      tileSize_ := tileSize
      timeOffset_ := 0
      decoder_ := none
      simpleReconstructor_ := ⟨[], []⟩ }
  let s1 : ApproxReconstructor :=
    if frameTimes.length > 0 then
      addFrameTimes { s0 with useSliceInterval_ := false } frameTimes
    else s0
  let s2 : ApproxReconstructor := { s1 with timeOffset_ := offset }
  let s3 : ApproxReconstructor := { s2 with sliceInterval_ := fpsInterval }
  { s3 with imageMsgTemplate_ := { s3.imageMsgTemplate_ with height := 0 } }

/-- The method `getT0`. -/
def getT0 (s : ApproxReconstructor) : Int := s.t0_

/-- The method `setNextTime`. -/
def setNextTime (s : ApproxReconstructor) : ApproxReconstructor :=
  if s.useSliceInterval_ then
    { s with nextFrameTime_ := s.nextFrameTime_ + s.sliceInterval_ }
  else
    match s.sliceTimes_ with
    | [] => { s with nextFrameTime_ := s.nextFrameTime_ + s.sliceInterval_ }
    | front :: rest => { s with nextFrameTime_ := front, sliceTimes_ := rest }

/-- The loop `while (nextFrameTime_ < t0_) { setNextTime(); }` of `setFirstTime`. -/
def setFirstTimeLoop : Nat → ApproxReconstructor → Option ApproxReconstructor
  | 0, s => if s.nextFrameTime_ < s.t0_ then none else some s
  | fuel + 1, s =>
    if s.nextFrameTime_ < s.t0_ then setFirstTimeLoop fuel (setNextTime s) else some s

/-- The method `setFirstTime`. -/
def setFirstTime (fuel : Nat) (s : ApproxReconstructor) : Option ApproxReconstructor :=
  if s.useSliceInterval_ then
    some { s with nextFrameTime_ := Int.tdiv s.t0_ s.sliceInterval_ * s.sliceInterval_ }
  else
    setFirstTimeLoop fuel (setNextTime s)

/-- The frame that `emitFrame` builds: a copy of the template with `data`
resized to `height * step`, filled by `getImage(&data[0], step)` and stamped
with `nextFrameTime_`. -/
def makeFrame (s : ApproxReconstructor) : Frame :=
  { msg := { s.imageMsgTemplate_ with
             header := { s.imageMsgTemplate_.header with stamp := s.nextFrameTime_ } }
    dataSize := s.imageMsgTemplate_.height * s.imageMsgTemplate_.step
    image := s.simpleReconstructor_
    stride := s.imageMsgTemplate_.step
    topic := s.topic_ }

/-- The method `emitFrame`. -/
def emitFrame (s : ApproxReconstructor) : ApproxReconstructor :=
  { s with frameHandler_ := s.frameHandler_ ++ [makeFrame s] }

/-- The loop of `eventCD`:
`while ((int64_t)t + timeOffset_ > nextFrameTime_) { emitFrame(); setNextTime(); }`. -/
def eventCDLoop : Nat → Nat → ApproxReconstructor → Option ApproxReconstructor
  | 0, t, s => if toInt64 t + s.timeOffset_ > s.nextFrameTime_ then none else some s
  | fuel + 1, t, s =>
    if toInt64 t + s.timeOffset_ > s.nextFrameTime_ then
      eventCDLoop fuel t (setNextTime (emitFrame s))
    else some s

/-- The method `eventCD`. -/
def eventCD (fuel : Nat) (t ex ey polarity : Nat) (s : ApproxReconstructor) :
    Option ApproxReconstructor :=
  eventCDLoop fuel t
    { s with simpleReconstructor_ := s.simpleReconstructor_.event t ex ey polarity }

/-- One iteration of the loop body of `eventCD`: `emitFrame(); setNextTime();`. -/
def frameStep (s : ApproxReconstructor) : ApproxReconstructor :=
  setNextTime (emitFrame s)

/-- The loop condition of `eventCD`: `(int64_t)t + timeOffset_ > nextFrameTime_`. -/
def due (t : Nat) (s : ApproxReconstructor) : Prop :=
  toInt64 t + s.timeOffset_ > s.nextFrameTime_

instance (t : Nat) (s : ApproxReconstructor) : Decidable (due t s) := by
  unfold due; infer_instance

/-- Two objects agree on the member variables that `setNextTime` reads or writes. -/
def SameSchedule (a b : ApproxReconstructor) : Prop :=
  a.useSliceInterval_ = b.useSliceInterval_ ∧ a.sliceInterval_ = b.sliceInterval_ ∧
    a.sliceTimes_ = b.sliceTimes_ ∧ a.nextFrameTime_ = b.nextFrameTime_

/-- The time stamps of the frames handed to the frame handler so far, oldest first. -/
def stamps (s : ApproxReconstructor) : List Int :=
  s.frameHandler_.map Frame.stamp

/-- What a run of callbacks leaves behind, in terms of the schedule of the start state:
the schedule has advanced `M` times, the frames handed out carry the first `M` scheduled
times, the last advance went forward, and the accumulator received the events. -/
structure RunsTo (s s' : ApproxReconstructor) (evs : List Event) (M : Nat) : Prop where
  sched : SameSchedule s' (setNextTime^[M] s)
  stamps : s'.stamps =
    s.stamps ++ (List.range M).map (fun k => (setNextTime^[k] s).nextFrameTime_)
  last : M = 0 ∨
    (setNextTime^[M - 1] s).nextFrameTime_ < (setNextTime^[M] s).nextFrameTime_
  events : s'.simpleReconstructor_.events = s.simpleReconstructor_.events ++ evs
  inits : s'.simpleReconstructor_.inits = s.simpleReconstructor_.inits
  offset : s'.timeOffset_ = s.timeOffset_
  t0 : s'.t0_ = s.t0_
  template : s'.imageMsgTemplate_ = s.imageMsgTemplate_

/-- One decoder callback on the reconstructor: `eventCD`, or one of
`eventExtTrigger`, `finished`, `rawData`, whose bodies are empty. -/
def dispatch (fuel : Nat) (cb : Callback) (s : ApproxReconstructor) :
    Option ApproxReconstructor :=
  match cb with
  | .eventCD t ex ey polarity => eventCD fuel t ex ey polarity s
  | .eventExtTrigger _ _ _ => some s
  | .finished => some s
  | .rawData _ => some s

/-- The callbacks of one `decode` call, delivered in order. -/
def dispatchAll (fuel : Nat) : List Callback → ApproxReconstructor → Option ApproxReconstructor
  | [], s => some s
  | cb :: cbs, s =>
    match dispatch fuel cb s with
    | none => none
    | some s1 => dispatchAll fuel cbs s1

end ApproxReconstructor

/-- The nested class `FirstMsgProcessor`. -/
structure FirstMsgProcessor where
  firstTimeStamp_ : Int
deriving DecidableEq, Repr

namespace FirstMsgProcessor

/-- A default-constructed `FirstMsgProcessor`: `firstTimeStamp_{0}`. -/
def fresh : FirstMsgProcessor := ⟨0⟩

/-- The method `FirstMsgProcessor::eventCD`; assigning the `uint64_t` to the
`int64_t` member converts it. -/
def eventCD (p : FirstMsgProcessor) (t _ex _ey _polarity : Nat) : FirstMsgProcessor :=
  if p.firstTimeStamp_ = 0 then { p with firstTimeStamp_ := toInt64 t } else p

/-- One decoder callback on the first-message processor. -/
def dispatch (p : FirstMsgProcessor) (cb : Callback) : FirstMsgProcessor :=
  match cb with
  | .eventCD t ex ey polarity => p.eventCD t ex ey polarity
  | .eventExtTrigger _ _ _ => p
  | .finished => p
  | .rawData _ => p

/-- The callbacks of one `decode` call, delivered in order. -/
def dispatchAll (p : FirstMsgProcessor) (cbs : List Callback) : FirstMsgProcessor :=
  cbs.foldl dispatch p

/-- The method `getFirstTimeStamp`. -/
def getFirstTimeStamp (p : FirstMsgProcessor) : Int := p.firstTimeStamp_

end FirstMsgProcessor

/-- How a call of `processMsg` ends. -/
inductive Outcome where
  /-- normal return, with the object state -/
  | ok (s : ApproxReconstructor)
  /-- `throw std::runtime_error(what)`, with the object state at the throw -/
  | runtime_error (what : String) (s : ApproxReconstructor)
  /-- `decode` called through a null decoder pointer, with the object state at the call -/
  | nullDecoder (s : ApproxReconstructor)
  /-- a loop used up the fuel -/
  | outOfFuel

namespace ApproxReconstructor

/-- The statement `decoder_->decode(&(msg->events[0]), msg->events.size(), this)`. -/
def decodeMsg (fuel : Nat) (msg : EventArray) (s : ApproxReconstructor) : Outcome :=
  match s.decoder_ with
  | none => .nullDecoder s
  | some d =>
    let s1 : ApproxReconstructor :=
      { s with decoder_ := some { d with history := d.history ++ [msg.events] } }
    match dispatchAll fuel (d.codec.decode d.history msg.events) s1 with
    | none => .outOfFuel
    | some s2 => .ok s2

/-- The method `processMsg`. -/
def processMsg (ext : Externals) (fuel : Nat) (msg : EventArray) (s : ApproxReconstructor) :
    Outcome :=
  if s.imageMsgTemplate_.height = 0 then
    let s1 : ApproxReconstructor :=
      { s with imageMsgTemplate_ :=
          { header := msg.header
            width := msg.width
            height := msg.height
            encoding := "mono8"
            is_bigendian := ext.isBigEndian
            step := msg.width } }
    match ext.firstFactory msg.encoding msg.width msg.height with
    | none => .nullDecoder s1
    | some firstDecoder =>
      let firstMsgProcessor :=
        FirstMsgProcessor.fresh.dispatchAll (firstDecoder.decode [] msg.events)
      let s2 : ApproxReconstructor :=
        { s1 with t0_ := firstMsgProcessor.getFirstTimeStamp + s1.timeOffset_ }
      match setFirstTime fuel s2 with
      | none => .outOfFuel
      | some s3 =>
        let args : InitArgs :=
          ⟨msg.width, msg.height, s3.cutoffNumEvents_.natAbs % 2 ^ 32, s3.tileSize_,
            s3.fillRatio_⟩
        let s4 : ApproxReconstructor :=
          { s3 with simpleReconstructor_ := s3.simpleReconstructor_.initCall args }
        let decoder : Option DecoderInst :=
          (ext.decoderFactory msg.encoding msg.width msg.height).map (fun c => ⟨c, []⟩)
        let s5 : ApproxReconstructor := { s4 with decoder_ := decoder }
        match s5.decoder_ with
        | none => .runtime_error "invalid encoding!" s5
        | some _ => decodeMsg fuel msg s5
  else
    decodeMsg fuel msg s

end ApproxReconstructor

end simple_image_recon

namespace simple_image_recon

/-- The decoder callback that delivers an event. -/
def Event.callback (e : Event) : Callback :=
  .eventCD e.t e.ex e.ey e.polarity

/-- A decoder for the examples: every entry of the buffer is the timestamp of one event
at pixel (0, 0) with polarity 1, and `finished` is called at the end of the buffer. -/
def exampleDecoder : Decoder :=
  ⟨fun _ buffer => buffer.map (fun b => Callback.eventCD b 0 0 1) ++ [Callback.finished]⟩

/-- A decoder factory for the examples that knows the encoding "evt3" only. -/
def exampleFactory : String → Nat → Nat → Option Decoder :=
  fun encoding _ _ => if encoding = "evt3" then some exampleDecoder else none

/-- A decoder factory for the examples that returns a decoder for every encoding. -/
def lenientFactory : String → Nat → Nat → Option Decoder :=
  fun _ _ _ => some exampleDecoder

/-- An IEEE 754 binary64 value, unpacked: a NaN, an infinity, or the finite value
`± sig * 2 ^ exp`. -/
inductive Float64 where
  | nan
  | inf (neg : Bool)
  | finite (neg : Bool) (sig : Nat) (exp : Int)
deriving DecidableEq, Repr

/-- The value that the bit pattern of a `double` stands for: sign bit 63, exponent field
bits 52 to 62, fraction bits 0 to 51. -/
def Double.unpack (d : Double) : Float64 :=
  let neg : Bool := decide (d.bits / 2 ^ 63 % 2 = 1)
  let e : Nat := d.bits / 2 ^ 52 % 2 ^ 11
  let f : Nat := d.bits % 2 ^ 52
  if e = 2047 then (if f = 0 then .inf neg else .nan)
  else if e = 0 then .finite neg f (-1074)
  else .finite neg (2 ^ 52 + f) ((e : Int) - 1075)

/-- The bit pattern of `-d`: the sign bit flipped. -/
def Double.neg (d : Double) : Double :=
  ⟨if d.bits / 2 ^ 63 % 2 = 1 then d.bits - 2 ^ 63 else d.bits + 2 ^ 63⟩

namespace Float64

/-- The function `std::abs` on a `double`. -/
def abs : Float64 → Float64
  | .nan => .nan
  | .inf _ => .inf false
  | .finite _ sig exp => .finite false sig exp

/-- The conversion of an `int` to `double`; exact, since an `int` has fewer than 53 bits. -/
def ofInt (n : Int) : Float64 :=
  .finite (decide (n < 0)) n.natAbs 0

/-- The fraction `num / den` rounded to the nearest integer, ties to the even one. -/
def roundHalfEven (num den : Nat) : Nat :=
  let q : Nat := num / den
  let r : Nat := num % den
  if 2 * r < den then q
  else if den < 2 * r then q + 1
  else if q % 2 = 0 then q else q + 1

/-- The number of halvings that take `n` below 2, with at most `fuel` halvings. -/
def log2Fuel : Nat → Nat → Nat
  | 0, _ => 0
  | fuel + 1, n => if n < 2 then 0 else log2Fuel fuel (n / 2) + 1

/-- The position of the leading bit of `n`: `2 ^ ilog2 n ≤ n < 2 ^ (ilog2 n + 1)` for
positive `n`. -/
def ilog2 (n : Nat) : Nat := log2Fuel n n

/-- The exponent `E` with `2 ^ E ≤ num / den < 2 ^ (E + 1)`, for positive `num` and `den`. -/
def floorLog2 (num den : Nat) : Int :=
  let k : Int := (ilog2 num : Int) - (ilog2 den : Int)
  if 0 ≤ k then (if den * 2 ^ k.toNat ≤ num then k else k - 1)
  else (if den ≤ num * 2 ^ (-k).toNat then k else k - 1)

/-- The positive fraction `num / den` rounded to binary64, round to nearest, ties to even:
the result is `sig * 2 ^ exp` with `sig` of at most 53 bits and `exp ≥ -1074`. -/
def roundQuotient (num den : Nat) : Nat × Int :=
  let u : Int := max (floorLog2 num den - 52) (-1074)
  if u < 0 then (roundHalfEven (num * 2 ^ (-u).toNat) den, u)
  else (roundHalfEven num (den * 2 ^ u.toNat), u)

/-- The operator `/` on `double`, IEEE 754 division with the default rounding. -/
def div : Float64 → Float64 → Float64
  | .nan, _ => .nan
  | _, .nan => .nan
  | .inf _, .inf _ => .nan
  | .inf n1, .finite n2 _ _ => .inf (xor n1 n2)
  | .finite n1 _ _, .inf n2 => .finite (xor n1 n2) 0 0
  | .finite n1 s1 e1, .finite n2 s2 e2 =>
    if s2 = 0 then (if s1 = 0 then .nan else .inf (xor n1 n2))
    else if s1 = 0 then .finite (xor n1 n2) 0 0
    else
      let d : Int := e1 - e2
      let num : Nat := s1 * 2 ^ d.toNat
      let den : Nat := s2 * 2 ^ (-d).toNat
      let r := roundQuotient num den
      if 0 ≤ r.2 ∧ 2 ^ 1024 ≤ r.1 * 2 ^ r.2.toNat then .inf (xor n1 n2)
      else .finite (xor n1 n2) r.1 r.2

/-- The conversion `static_cast<int64_t>` of a `double`: the value truncated toward zero.
The conversion is undefined (`none`) for a NaN, an infinity and a value whose truncation
is outside the range of `int64_t`. -/
def toInt64 : Float64 → Option Int
  | .nan => none
  | .inf _ => none
  | .finite neg sig exp =>
    let mag : Nat := if 0 ≤ exp then sig * 2 ^ exp.toNat else sig / 2 ^ (-exp).toNat
    let v : Int := if neg then -(mag : Int) else (mag : Int)
    if -2 ^ 63 ≤ v ∧ v < 2 ^ 63 then some v else none

/-- The rational value of a finite `double`. -/
def toRat : Float64 → Option ℚ
  | .nan => none
  | .inf _ => none
  | .finite neg sig exp => some ((if neg then -1 else 1) * (sig : ℚ) * (2 : ℚ) ^ exp)

end Float64

/-- The constructor's expression
`static_cast<int64_t>(SEC_TO_NSEC(1) / std::abs(fps))`, where `SEC_TO_NSEC(1)` is the
`int` value `(1*1000000000)`. -/
def sliceIntervalOfFps (fps : Double) : Option Int :=
  ((Float64.ofInt (1 * 1000000000)).div fps.unpack.abs).toInt64

/-- The constructor called with a frame rate: `construct` with the interval that the
frame rate gives, `none` where the conversion of the quotient is undefined. -/
def ApproxReconstructor.constructFps (topic : String) (cutoffNumEvents : Int) (fps : Double)
    (fillRatio : Double) (tileSize : Int) (offset : Int) (frameTimes : List Int) :
    Option ApproxReconstructor :=
  (sliceIntervalOfFps fps).map
    (fun interval => construct topic cutoffNumEvents interval fillRatio tileSize offset frameTimes)

/-- Successive calls of `processMsg` on one object, one per buffer, in order; the
sequence ends at the first call that does not return normally. -/
def ApproxReconstructor.processMsgs (ext : Externals) (fuel : Nat) :
    List EventArray → ApproxReconstructor → Outcome
  | [], s => .ok s
  | msg :: msgs, s =>
    match processMsg ext fuel msg s with
    | .ok s1 => processMsgs ext fuel msgs s1
    | .runtime_error what s1 => .runtime_error what s1
    | .nullDecoder s1 => .nullDecoder s1
    | .outOfFuel => .outOfFuel

/-- The frame `f` with its time stamp replaced by `n`. -/
def Frame.withStamp (f : Frame) (n : Int) : Frame :=
  { f with msg := { f.msg with header := { f.msg.header with stamp := n } } }

/-- The schedule cannot go back: periodic mode, or the queue is in ascending order and
none of its elements is below `nextFrameTime_`. -/
def ScheduleAscending (s : ApproxReconstructor) : Prop :=
  s.useSliceInterval_ = true ∨
    (s.sliceTimes_.Sorted (· ≤ ·) ∧ ∀ x ∈ s.sliceTimes_, s.nextFrameTime_ ≤ x)

end simple_image_recon

/-! # Lemmas -/

namespace simple_image_recon
namespace ApproxReconstructor

/-! ## The schedule under `setNextTime` -/

theorem sameSchedule_refl (a : ApproxReconstructor) : SameSchedule a a :=
  ⟨rfl, rfl, rfl, rfl⟩

theorem sameSchedule_symm {a b : ApproxReconstructor} (h : SameSchedule a b) :
    SameSchedule b a :=
  ⟨h.1.symm, h.2.1.symm, h.2.2.1.symm, h.2.2.2.symm⟩

theorem sameSchedule_trans {a b c : ApproxReconstructor} (h : SameSchedule a b)
    (h' : SameSchedule b c) : SameSchedule a c :=
  ⟨h.1.trans h'.1, h.2.1.trans h'.2.1, h.2.2.1.trans h'.2.2.1, h.2.2.2.trans h'.2.2.2⟩

theorem sameSchedule_emitFrame (s : ApproxReconstructor) : SameSchedule (emitFrame s) s :=
  ⟨rfl, rfl, rfl, rfl⟩

theorem setNextTime_periodic {s : ApproxReconstructor} (h : s.useSliceInterval_ = true) :
    setNextTime s = { s with nextFrameTime_ := s.nextFrameTime_ + s.sliceInterval_ } := by
  simp [setNextTime, h]

theorem setNextTime_nil {s : ApproxReconstructor} (h : s.useSliceInterval_ = false)
    (hq : s.sliceTimes_ = []) :
    setNextTime s = { s with nextFrameTime_ := s.nextFrameTime_ + s.sliceInterval_ } := by
  simp [setNextTime, h, hq]

theorem setNextTime_cons {s : ApproxReconstructor} {front : Int} {rest : List Int}
    (h : s.useSliceInterval_ = false) (hq : s.sliceTimes_ = front :: rest) :
    setNextTime s = { s with nextFrameTime_ := front, sliceTimes_ := rest } := by
  simp [setNextTime, h, hq]

theorem sameSchedule_setNextTime {a b : ApproxReconstructor} (h : SameSchedule a b) :
    SameSchedule (setNextTime a) (setNextTime b) := by
  obtain ⟨h1, h2, h3, h4⟩ := h
  cases hb : b.useSliceInterval_ with
  | true =>
    rw [setNextTime_periodic hb, setNextTime_periodic (h1.trans hb)]
    exact ⟨h1, h2, h3, by simp [h2, h4]⟩
  | false =>
    cases hq : b.sliceTimes_ with
    | nil =>
      rw [setNextTime_nil hb hq, setNextTime_nil (h1.trans hb) (h3.trans hq)]
      exact ⟨h1, h2, h3, by simp [h2, h4]⟩
    | cons x xs =>
      rw [setNextTime_cons hb hq, setNextTime_cons (h1.trans hb) (h3.trans hq)]
      exact ⟨h1, h2, rfl, rfl⟩

theorem sameSchedule_iterate (k : Nat) (s : ApproxReconstructor) :
    SameSchedule (frameStep^[k] s) (setNextTime^[k] s) := by
  induction k with
  | zero => exact sameSchedule_refl s
  | succ k ih =>
    rw [Function.iterate_succ_apply', Function.iterate_succ_apply']
    exact sameSchedule_setNextTime (sameSchedule_trans (sameSchedule_emitFrame _) ih)

/-- The fields that `setNextTime` leaves alone. -/
theorem setNextTime_frame (s : ApproxReconstructor) :
    (setNextTime s).frameHandler_ = s.frameHandler_ ∧
    (setNextTime s).timeOffset_ = s.timeOffset_ ∧
    (setNextTime s).simpleReconstructor_ = s.simpleReconstructor_ ∧
    (setNextTime s).t0_ = s.t0_ ∧
    (setNextTime s).sliceInterval_ = s.sliceInterval_ ∧
    (setNextTime s).useSliceInterval_ = s.useSliceInterval_ ∧
    (setNextTime s).imageMsgTemplate_ = s.imageMsgTemplate_ := by
  cases hb : s.useSliceInterval_ with
  | true => rw [setNextTime_periodic hb]; simp [hb]
  | false =>
    cases hq : s.sliceTimes_ with
    | nil => rw [setNextTime_nil hb hq]; simp [hb]
    | cons x xs => rw [setNextTime_cons hb hq]; simp [hb]

theorem frameStep_frame (s : ApproxReconstructor) :
    (frameStep s).frameHandler_ = s.frameHandler_ ++ [makeFrame s] ∧
    (frameStep s).timeOffset_ = s.timeOffset_ ∧
    (frameStep s).simpleReconstructor_ = s.simpleReconstructor_ ∧
    (frameStep s).t0_ = s.t0_ ∧
    (frameStep s).sliceInterval_ = s.sliceInterval_ ∧
    (frameStep s).useSliceInterval_ = s.useSliceInterval_ ∧
    (frameStep s).imageMsgTemplate_ = s.imageMsgTemplate_ := by
  have h := setNextTime_frame (emitFrame s)
  simpa [frameStep, emitFrame] using h

theorem frameStep_iterate_frame (k : Nat) (s : ApproxReconstructor) :
    (frameStep^[k] s).timeOffset_ = s.timeOffset_ ∧
    (frameStep^[k] s).simpleReconstructor_ = s.simpleReconstructor_ ∧
    (frameStep^[k] s).t0_ = s.t0_ ∧
    (frameStep^[k] s).sliceInterval_ = s.sliceInterval_ ∧
    (frameStep^[k] s).useSliceInterval_ = s.useSliceInterval_ ∧
    (frameStep^[k] s).imageMsgTemplate_ = s.imageMsgTemplate_ := by
  induction k with
  | zero => simp
  | succ k ih =>
    rw [Function.iterate_succ_apply']
    obtain ⟨_, h2, h3, h4, h5, h6, h7⟩ := frameStep_frame (frameStep^[k] s)
    obtain ⟨i2, i3, i4, i5, i6, i7⟩ := ih
    exact ⟨h2.trans i2, h3.trans i3, h4.trans i4, h5.trans i5, h6.trans i6, h7.trans i7⟩

theorem frameStep_iterate_frames (k : Nat) (s : ApproxReconstructor) :
    (frameStep^[k] s).frameHandler_ =
      s.frameHandler_ ++ (List.range k).map (fun i => makeFrame (frameStep^[i] s)) := by
  induction k with
  | zero => simp
  | succ k ih =>
    rw [Function.iterate_succ_apply', (frameStep_frame _).1, ih, List.range_succ]
    simp

theorem stamp_makeFrame (s : ApproxReconstructor) : (makeFrame s).stamp = s.nextFrameTime_ :=
  rfl

theorem frameStep_iterate_stamps (k : Nat) (s : ApproxReconstructor) :
    (frameStep^[k] s).stamps =
      s.stamps ++ (List.range k).map (fun i => (setNextTime^[i] s).nextFrameTime_) := by
  unfold stamps
  rw [frameStep_iterate_frames, List.map_append, List.map_map]
  congr 1
  apply List.map_congr_left
  intro i _
  simp only [Function.comp, stamp_makeFrame]
  exact (sameSchedule_iterate i s).2.2.2

/-! ## The loop of `eventCD` -/

theorem due_iff (t : Nat) (k : Nat) (s : ApproxReconstructor) :
    due t (frameStep^[k] s) ↔
      toInt64 t + s.timeOffset_ > (setNextTime^[k] s).nextFrameTime_ := by
  unfold due
  rw [(frameStep_iterate_frame k s).1, (sameSchedule_iterate k s).2.2.2]

theorem eventCDLoop_iterate (t : Nat) (N : Nat) :
    ∀ (fuel : Nat) (s : ApproxReconstructor), N ≤ fuel →
      (∀ k, k < N → due t (frameStep^[k] s)) → ¬ due t (frameStep^[N] s) →
      eventCDLoop fuel t s = some (frameStep^[N] s) := by
  induction N with
  | zero =>
    intro fuel s _ _ hN
    have hN' : ¬ (toInt64 t + s.timeOffset_ > s.nextFrameTime_) := hN
    cases fuel <;> simp [eventCDLoop, hN']
  | succ N ih =>
    intro fuel s hle hlt hN
    cases fuel with
    | zero => omega
    | succ fuel =>
      have h0 : toInt64 t + s.timeOffset_ > s.nextFrameTime_ := hlt 0 (Nat.succ_pos N)
      rw [eventCDLoop, if_pos h0, Function.iterate_succ_apply]
      apply ih fuel _ (Nat.le_of_succ_le_succ hle)
      · intro k hk
        have := hlt (k + 1) (Nat.succ_lt_succ hk)
        rwa [Function.iterate_succ_apply] at this
      · rwa [Function.iterate_succ_apply] at hN

theorem eventCDLoop_some (t : Nat) :
    ∀ (fuel : Nat) (s s' : ApproxReconstructor), eventCDLoop fuel t s = some s' →
      ∃ N, N ≤ fuel ∧ s' = frameStep^[N] s ∧
        (∀ k, k < N → due t (frameStep^[k] s)) ∧ ¬ due t (frameStep^[N] s) := by
  intro fuel
  induction fuel with
  | zero =>
    intro s s' h
    by_cases hd : toInt64 t + s.timeOffset_ > s.nextFrameTime_
    · simp [eventCDLoop, hd] at h
    · simp only [eventCDLoop, if_neg hd, Option.some.injEq] at h
      exact ⟨0, le_refl 0, h.symm, fun k hk => absurd hk (Nat.not_lt_zero k), hd⟩
  | succ fuel ih =>
    intro s s' h
    by_cases hd : toInt64 t + s.timeOffset_ > s.nextFrameTime_
    · rw [eventCDLoop, if_pos hd] at h
      obtain ⟨N, hN, hs, hlt, hstop⟩ := ih _ _ h
      refine ⟨N + 1, Nat.succ_le_succ hN, ?_, ?_, ?_⟩
      · rw [Function.iterate_succ_apply]; exact hs
      · intro k hk
        cases k with
        | zero => exact hd
        | succ k =>
          rw [Function.iterate_succ_apply]
          exact hlt k (Nat.lt_of_succ_lt_succ hk)
      · rw [Function.iterate_succ_apply]; exact hstop
    · simp only [eventCDLoop, if_neg hd, Option.some.injEq] at h
      exact ⟨0, Nat.zero_le _, h.symm, fun k hk => absurd hk (Nat.not_lt_zero k), hd⟩


/-! ## Closed forms of the schedule -/

/-- The schedule advances by the interval: periodic mode, or the queue is empty. -/
theorem setNextTime_fallback {s : ApproxReconstructor}
    (h : s.useSliceInterval_ = true ∨ s.sliceTimes_ = []) :
    setNextTime s = { s with nextFrameTime_ := s.nextFrameTime_ + s.sliceInterval_ } := by
  rcases Bool.eq_false_or_eq_true s.useSliceInterval_ with hb | hb
  · exact setNextTime_periodic hb
  · rcases h with h | h
    · exact setNextTime_periodic h
    · exact setNextTime_nil hb h

theorem setNextTime_iterate_fallback (k : Nat) (s : ApproxReconstructor)
    (h : s.useSliceInterval_ = true ∨ s.sliceTimes_ = []) :
    setNextTime^[k] s =
      { s with nextFrameTime_ := s.nextFrameTime_ + (k : Int) * s.sliceInterval_ } := by
  induction k with
  | zero => simp
  | succ k ih =>
    rw [Function.iterate_succ_apply', ih, setNextTime_fallback (by simpa using h)]
    simp only [Nat.cast_succ, add_mul, one_mul, add_assoc]

theorem schedule_fallback (k : Nat) (s : ApproxReconstructor)
    (h : s.useSliceInterval_ = true ∨ s.sliceTimes_ = []) :
    (setNextTime^[k] s).nextFrameTime_ = s.nextFrameTime_ + (k : Int) * s.sliceInterval_ := by
  rw [setNextTime_iterate_fallback k s h]

/-- Popping through the queue: after `p.length + 1` steps the element behind `p` is scheduled. -/
theorem setNextTime_iterate_queue (p : List Int) (a : Int) (post : List Int) :
    ∀ s : ApproxReconstructor, s.useSliceInterval_ = false → s.sliceTimes_ = p ++ a :: post →
      setNextTime^[p.length + 1] s = { s with nextFrameTime_ := a, sliceTimes_ := post } := by
  induction p with
  | nil =>
    intro s hb hq
    simpa using setNextTime_cons hb (by simpa using hq)
  | cons b p ih =>
    intro s hb hq
    rw [List.length_cons, Function.iterate_succ_apply,
      setNextTime_cons hb (by simpa using hq)]
    exact ih _ hb rfl

/-! ## Termination of the loops when the interval is positive -/

/-- With a positive interval and an empty queue (or periodic mode) the schedule passes
every bound. -/
theorem exists_stop_fallback (tau : Int) :
    ∀ (d : Nat) (s : ApproxReconstructor), 0 < s.sliceInterval_ →
      (s.useSliceInterval_ = true ∨ s.sliceTimes_ = []) →
      (tau - s.nextFrameTime_).toNat ≤ d →
      ∃ N, (∀ k, k < N → (setNextTime^[k] s).nextFrameTime_ < tau) ∧
        tau ≤ (setNextTime^[N] s).nextFrameTime_ := by
  intro d
  induction d with
  | zero =>
    intro s _ _ hd
    exact ⟨0, fun k hk => absurd hk (Nat.not_lt_zero k), by simp at hd ⊢; omega⟩
  | succ d ih =>
    intro s hI hf hd
    by_cases hle : tau ≤ s.nextFrameTime_
    · exact ⟨0, fun k hk => absurd hk (Nat.not_lt_zero k), by simpa using hle⟩
    · have hs := setNextTime_fallback hf
      obtain ⟨N, h1, h2⟩ := ih (setNextTime s) (by rw [hs]; exact hI)
        (by rw [hs]; exact hf) (by rw [hs]; simp only; omega)
      refine ⟨N + 1, ?_, ?_⟩
      · intro k hk
        cases k with
        | zero => simpa using lt_of_not_le hle
        | succ k =>
          rw [Function.iterate_succ_apply]
          exact h1 k (Nat.lt_of_succ_lt_succ hk)
      · rw [Function.iterate_succ_apply]; exact h2

/-- With a positive interval the schedule passes every bound, whatever the queue holds. -/
theorem exists_stop (tau : Int) (q : List Int) :
    ∀ s : ApproxReconstructor, 0 < s.sliceInterval_ → s.sliceTimes_ = q →
      ∃ N, (∀ k, k < N → (setNextTime^[k] s).nextFrameTime_ < tau) ∧
        tau ≤ (setNextTime^[N] s).nextFrameTime_ := by
  induction q with
  | nil =>
    intro s hI hq
    exact exists_stop_fallback tau _ s hI (Or.inr hq) (le_refl _)
  | cons a q ih =>
    intro s hI hq
    rcases Bool.eq_false_or_eq_true s.useSliceInterval_ with hb | hb
    · exact exists_stop_fallback tau _ s hI (Or.inl hb) (le_refl _)
    · by_cases hle : tau ≤ s.nextFrameTime_
      · exact ⟨0, fun k hk => absurd hk (Nat.not_lt_zero k), by simpa using hle⟩
      · have hs := setNextTime_cons hb hq
        obtain ⟨N, h1, h2⟩ := ih (setNextTime s) (by rw [hs]; exact hI) (by rw [hs])
        refine ⟨N + 1, ?_, ?_⟩
        · intro k hk
          cases k with
          | zero => simpa using lt_of_not_le hle
          | succ k =>
            rw [Function.iterate_succ_apply]
            exact h1 k (Nat.lt_of_succ_lt_succ hk)
        · rw [Function.iterate_succ_apply]; exact h2

/-- The loop of `eventCD` returns once the fuel covers the number of iterations. -/
theorem eventCDLoop_of_stop (t : Nat) (s : ApproxReconstructor) (N : Nat)
    (h1 : ∀ k, k < N → (setNextTime^[k] s).nextFrameTime_ < toInt64 t + s.timeOffset_)
    (h2 : toInt64 t + s.timeOffset_ ≤ (setNextTime^[N] s).nextFrameTime_)
    (fuel : Nat) (hf : N ≤ fuel) :
    eventCDLoop fuel t s = some (frameStep^[N] s) := by
  apply eventCDLoop_iterate t N fuel s hf
  · intro k hk
    exact (due_iff t k s).2 (h1 k hk)
  · intro hd
    exact absurd ((due_iff t N s).1 hd) (not_lt.2 h2)

/-- A returning loop of `eventCD` in terms of the schedule. -/
theorem eventCDLoop_stop (t : Nat) (fuel : Nat) (s s' : ApproxReconstructor)
    (h : eventCDLoop fuel t s = some s') :
    ∃ N, N ≤ fuel ∧ s' = frameStep^[N] s ∧
      (∀ k, k < N → (setNextTime^[k] s).nextFrameTime_ < toInt64 t + s.timeOffset_) ∧
      toInt64 t + s.timeOffset_ ≤ (setNextTime^[N] s).nextFrameTime_ := by
  obtain ⟨N, hN, hs, h1, h2⟩ := eventCDLoop_some t fuel s s' h
  exact ⟨N, hN, hs, fun k hk => (due_iff t k s).1 (h1 k hk),
    not_lt.1 (fun hd => h2 ((due_iff t N s).2 hd))⟩

/-- More fuel does not change a result. -/
theorem eventCDLoop_mono (t : Nat) (fuel fuel' : Nat) (s s' : ApproxReconstructor)
    (h : eventCDLoop fuel t s = some s') (hf : fuel ≤ fuel') :
    eventCDLoop fuel' t s = some s' := by
  obtain ⟨N, hN, hs, h1, h2⟩ := eventCDLoop_stop t fuel s s' h
  rw [hs]
  exact eventCDLoop_of_stop t s N h1 h2 fuel' (le_trans hN hf)
/-! ## Sequences of callbacks -/

theorem sameSchedule_setNextTime_iterate (k : Nat) {a b : ApproxReconstructor}
    (h : SameSchedule a b) : SameSchedule (setNextTime^[k] a) (setNextTime^[k] b) := by
  induction k with
  | zero => exact h
  | succ k ih =>
    rw [Function.iterate_succ_apply', Function.iterate_succ_apply']
    exact sameSchedule_setNextTime ih

theorem schedule_congr (k : Nat) {a b : ApproxReconstructor} (h : SameSchedule a b) :
    (setNextTime^[k] a).nextFrameTime_ = (setNextTime^[k] b).nextFrameTime_ :=
  (sameSchedule_setNextTime_iterate k h).2.2.2

theorem setNextTime_iterate_mode (k : Nat) (s : ApproxReconstructor) :
    (setNextTime^[k] s).sliceInterval_ = s.sliceInterval_ ∧
    (setNextTime^[k] s).useSliceInterval_ = s.useSliceInterval_ := by
  induction k with
  | zero => simp
  | succ k ih =>
    rw [Function.iterate_succ_apply']
    obtain ⟨_, _, _, _, h5, h6, _⟩ := setNextTime_frame (setNextTime^[k] s)
    exact ⟨h5.trans ih.1, h6.trans ih.2⟩

theorem runsTo_refl (s : ApproxReconstructor) : RunsTo s s [] 0 :=
  ⟨sameSchedule_refl s, by simp, Or.inl rfl, by simp, rfl, rfl, rfl, rfl⟩

theorem runsTo_trans {a b c : ApproxReconstructor} {e1 e2 : List Event} {M1 M2 : Nat}
    (h1 : RunsTo a b e1 M1) (h2 : RunsTo b c e2 M2) : RunsTo a c (e1 ++ e2) (M1 + M2) := by
  have hk : ∀ k, (setNextTime^[k] b).nextFrameTime_ = (setNextTime^[M1 + k] a).nextFrameTime_ := by
    intro k
    rw [schedule_congr k h1.sched, Nat.add_comm, Function.iterate_add_apply]
  refine ⟨?_, ?_, ?_, ?_, h2.inits.trans h1.inits, h2.offset.trans h1.offset,
    h2.t0.trans h1.t0, h2.template.trans h1.template⟩
  · have := sameSchedule_trans h2.sched (sameSchedule_setNextTime_iterate M2 h1.sched)
    rwa [← Function.iterate_add_apply, Nat.add_comm] at this
  · rw [h2.stamps, h1.stamps, List.append_assoc, List.range_add, List.map_append,
      List.map_map]
    congr 2
    apply List.map_congr_left
    intro k _
    simp only [Function.comp, hk]
  · rcases h2.last with h | h
    · subst h
      simpa using h1.last
    · right
      have hM2 : M2 ≠ 0 := by
        rintro rfl
        exact lt_irrefl _ h
      have e : M1 + M2 - 1 = M1 + (M2 - 1) := by omega
      rw [e, ← hk, ← hk]
      exact h
  · rw [h2.events, h1.events, List.append_assoc]

/-- A returning `eventCD`, in terms of the schedule of the state it started in. -/
theorem eventCD_stop (fuel t ex ey polarity : Nat) (s s' : ApproxReconstructor)
    (h : eventCD fuel t ex ey polarity s = some s') :
    ∃ N, N ≤ fuel ∧ RunsTo s s' [⟨t, ex, ey, polarity⟩] N ∧
      (∀ k, k < N → (setNextTime^[k] s).nextFrameTime_ < toInt64 t + s.timeOffset_) ∧
      toInt64 t + s.timeOffset_ ≤ (setNextTime^[N] s).nextFrameTime_ ∧
      s'.frameHandler_ = s.frameHandler_ ++ (List.range N).map (fun k =>
        makeFrame (frameStep^[k]
          { s with simpleReconstructor_ := s.simpleReconstructor_.event t ex ey polarity })) := by
  obtain ⟨N, hN, hs, h1, h2⟩ := eventCDLoop_stop t fuel _ s' h
  have hsame : SameSchedule
      { s with simpleReconstructor_ := s.simpleReconstructor_.event t ex ey polarity } s :=
    ⟨rfl, rfl, rfl, rfl⟩
  have hk := fun k => schedule_congr k hsame
  have h1' : ∀ k, k < N → (setNextTime^[k] s).nextFrameTime_ < toInt64 t + s.timeOffset_ := by
    intro k hk'
    rw [← hk]
    exact h1 k hk'
  have h2' : toInt64 t + s.timeOffset_ ≤ (setNextTime^[N] s).nextFrameTime_ := by
    rw [← hk]
    exact h2
  refine ⟨N, hN, ⟨?_, ?_, ?_, ?_, ?_, ?_, ?_, ?_⟩, h1', h2', ?_⟩
  · rw [hs]
    exact sameSchedule_trans (sameSchedule_iterate N _)
      (sameSchedule_setNextTime_iterate N hsame)
  · rw [hs, frameStep_iterate_stamps]
    simp only [hk]
    rfl
  · rcases Nat.eq_zero_or_pos N with h0 | h0
    · exact Or.inl h0
    · exact Or.inr (lt_of_lt_of_le (h1' (N - 1) (by omega)) h2')
  · rw [hs, (frameStep_iterate_frame N _).2.1]
    rfl
  · rw [hs, (frameStep_iterate_frame N _).2.1]
    rfl
  · rw [hs, (frameStep_iterate_frame N _).1]
  · rw [hs, (frameStep_iterate_frame N _).2.2.1]
  · rw [hs, (frameStep_iterate_frame N _).2.2.2.2.2]
  · rw [hs, frameStep_iterate_frames]

/-- A returning run of callbacks, in terms of the schedule of the state it started in. -/
theorem dispatchAll_runsTo (fuel : Nat) :
    ∀ (cbs : List Callback) (s s' : ApproxReconstructor), dispatchAll fuel cbs s = some s' →
      ∃ M, RunsTo s s' (cdEvents cbs) M := by
  intro cbs
  induction cbs with
  | nil =>
    intro s s' h
    simp only [dispatchAll, Option.some.injEq] at h
    subst h
    exact ⟨0, runsTo_refl s⟩
  | cons cb cbs ih =>
    intro s s' h
    rw [dispatchAll] at h
    cases hd : dispatch fuel cb s with
    | none => rw [hd] at h; cases h
    | some s1 =>
      rw [hd] at h
      obtain ⟨M, hM⟩ := ih s1 s' h
      cases cb with
      | eventCD t ex ey polarity =>
        obtain ⟨N, _, hN, _⟩ := eventCD_stop fuel t ex ey polarity s s1 hd
        exact ⟨N + M, by simpa [cdEvents] using runsTo_trans hN hM⟩
      | eventExtTrigger t edge id =>
        simp only [dispatch, Option.some.injEq] at hd
        subst hd
        exact ⟨M, by simpa [cdEvents] using hM⟩
      | finished =>
        simp only [dispatch, Option.some.injEq] at hd
        subst hd
        exact ⟨M, by simpa [cdEvents] using hM⟩
      | rawData bytes =>
        simp only [dispatch, Option.some.injEq] at hd
        subst hd
        exact ⟨M, by simpa [cdEvents] using hM⟩

/-- With a positive interval `eventCD` returns once the fuel is large enough. -/
theorem eventCD_returns (t ex ey polarity : Nat) (s : ApproxReconstructor)
    (hI : 0 < s.sliceInterval_) :
    ∃ (N : Nat) (s' : ApproxReconstructor),
      ∀ fuel, N ≤ fuel → eventCD fuel t ex ey polarity s = some s' := by
  obtain ⟨N, h1, h2⟩ := exists_stop (toInt64 t + s.timeOffset_) s.sliceTimes_
    { s with simpleReconstructor_ := s.simpleReconstructor_.event t ex ey polarity } hI rfl
  exact ⟨N, _, fun fuel hf => eventCDLoop_of_stop t _ N h1 h2 fuel hf⟩

/-- More fuel does not change the result of a run of callbacks. -/
theorem dispatchAll_mono (fuel fuel' : Nat) (hf : fuel ≤ fuel') :
    ∀ (cbs : List Callback) (s s' : ApproxReconstructor), dispatchAll fuel cbs s = some s' →
      dispatchAll fuel' cbs s = some s' := by
  intro cbs
  induction cbs with
  | nil => intro s s' h; simpa [dispatchAll] using h
  | cons cb cbs ih =>
    intro s s' h
    rw [dispatchAll] at h ⊢
    cases hd : dispatch fuel cb s with
    | none => rw [hd] at h; cases h
    | some s1 =>
      rw [hd] at h
      have hd' : dispatch fuel' cb s = some s1 := by
        cases cb with
        | eventCD t ex ey polarity => exact eventCDLoop_mono t fuel fuel' _ s1 hd hf
        | eventExtTrigger t edge id => exact hd
        | finished => exact hd
        | rawData bytes => exact hd
      rw [hd']
      exact ih s1 s' h

/-- With a positive interval a run of callbacks returns once the fuel is large enough. -/
theorem dispatchAll_returns :
    ∀ (cbs : List Callback) (s : ApproxReconstructor), 0 < s.sliceInterval_ →
      ∃ (N : Nat) (s' : ApproxReconstructor),
        ∀ fuel, N ≤ fuel → dispatchAll fuel cbs s = some s' := by
  intro cbs
  induction cbs with
  | nil => intro s _; exact ⟨0, s, fun fuel _ => rfl⟩
  | cons cb cbs ih =>
    intro s hI
    have hstep : ∃ (N : Nat) (s1 : ApproxReconstructor), s1.sliceInterval_ = s.sliceInterval_ ∧
        ∀ fuel, N ≤ fuel → dispatch fuel cb s = some s1 := by
      cases cb with
      | eventCD t ex ey polarity =>
        obtain ⟨N, s1, h⟩ := eventCD_returns t ex ey polarity s hI
        obtain ⟨_, _, hr, _⟩ := eventCD_stop N t ex ey polarity s s1 (h N (le_refl N))
        exact ⟨N, s1, hr.sched.2.1.trans (setNextTime_iterate_mode _ s).1, h⟩
      | eventExtTrigger t edge id => exact ⟨0, s, rfl, fun _ _ => rfl⟩
      | finished => exact ⟨0, s, rfl, fun _ _ => rfl⟩
      | rawData bytes => exact ⟨0, s, rfl, fun _ _ => rfl⟩
    obtain ⟨N, s1, hI1, h1⟩ := hstep
    obtain ⟨N', s', h'⟩ := ih s1 (by rw [hI1]; exact hI)
    refine ⟨max N N', s', fun fuel hf => ?_⟩
    rw [dispatchAll, h1 fuel (le_trans (le_max_left _ _) hf)]
    exact h' fuel (le_trans (le_max_right _ _) hf)

/-! ## The schedule in explicit-list mode -/

/-- The scheduled time after `k` advances, in explicit-list mode: the current time, then the
queue in order, then steps of the interval from the last queue element. -/
theorem schedule_explicit (q : List Int) :
    ∀ (s : ApproxReconstructor) (k : Nat), s.useSliceInterval_ = false → s.sliceTimes_ = q →
      (setNextTime^[k] s).nextFrameTime_ =
        if k ≤ q.length then (s.nextFrameTime_ :: q).getD k 0
        else q.getLastD s.nextFrameTime_ + ((k - q.length : Nat) : Int) * s.sliceInterval_ := by
  induction q with
  | nil =>
    intro s k hb hq
    rw [schedule_fallback k s (Or.inr hq)]
    cases k with
    | zero => simp
    | succ k => simp
  | cons a q ih =>
    intro s k hb hq
    cases k with
    | zero => simp
    | succ k =>
      rw [Function.iterate_succ_apply, setNextTime_cons hb hq]
      rw [ih { s with nextFrameTime_ := a, sliceTimes_ := q } k hb rfl]
      simp only [List.length_cons, Nat.add_le_add_iff_right, List.getD_cons_succ,
        List.getLastD_cons, Nat.add_sub_add_right]

/-! ## The loop of `setFirstTime` -/

theorem setNextTime_iterate_t0 (k : Nat) (s : ApproxReconstructor) :
    (setNextTime^[k] s).t0_ = s.t0_ := by
  induction k with
  | zero => rfl
  | succ k ih =>
    rw [Function.iterate_succ_apply']
    exact (setNextTime_frame _).2.2.2.1.trans ih

theorem setFirstTimeLoop_of_stop (N : Nat) :
    ∀ (fuel : Nat) (s : ApproxReconstructor), N ≤ fuel →
      (∀ k, k < N → (setNextTime^[k] s).nextFrameTime_ < s.t0_) →
      s.t0_ ≤ (setNextTime^[N] s).nextFrameTime_ →
      setFirstTimeLoop fuel s = some (setNextTime^[N] s) := by
  induction N with
  | zero =>
    intro fuel s _ _ hN
    have hN' : ¬ (s.nextFrameTime_ < s.t0_) := not_lt.2 hN
    cases fuel <;> simp [setFirstTimeLoop, hN']
  | succ N ih =>
    intro fuel s hle hlt hN
    cases fuel with
    | zero => omega
    | succ fuel =>
      have h0 : s.nextFrameTime_ < s.t0_ := hlt 0 (Nat.succ_pos N)
      have ht : (setNextTime s).t0_ = s.t0_ := (setNextTime_frame s).2.2.2.1
      rw [setFirstTimeLoop, if_pos h0, Function.iterate_succ_apply]
      apply ih fuel _ (Nat.le_of_succ_le_succ hle)
      · intro k hk
        have := hlt (k + 1) (Nat.succ_lt_succ hk)
        rw [Function.iterate_succ_apply] at this
        rwa [ht]
      · rw [Function.iterate_succ_apply] at hN
        rwa [ht]

theorem setFirstTimeLoop_some :
    ∀ (fuel : Nat) (s s' : ApproxReconstructor), setFirstTimeLoop fuel s = some s' →
      ∃ N, N ≤ fuel ∧ s' = setNextTime^[N] s ∧
        (∀ k, k < N → (setNextTime^[k] s).nextFrameTime_ < s.t0_) ∧
        s.t0_ ≤ (setNextTime^[N] s).nextFrameTime_ := by
  intro fuel
  induction fuel with
  | zero =>
    intro s s' h
    by_cases hd : s.nextFrameTime_ < s.t0_
    · simp [setFirstTimeLoop, hd] at h
    · simp only [setFirstTimeLoop, if_neg hd, Option.some.injEq] at h
      exact ⟨0, le_refl 0, h.symm, fun k hk => absurd hk (Nat.not_lt_zero k), not_lt.1 hd⟩
  | succ fuel ih =>
    intro s s' h
    by_cases hd : s.nextFrameTime_ < s.t0_
    · rw [setFirstTimeLoop, if_pos hd] at h
      have ht : (setNextTime s).t0_ = s.t0_ := (setNextTime_frame s).2.2.2.1
      obtain ⟨N, hN, hs, hlt, hstop⟩ := ih _ _ h
      refine ⟨N + 1, Nat.succ_le_succ hN, ?_, ?_, ?_⟩
      · rw [Function.iterate_succ_apply]; exact hs
      · intro k hk
        cases k with
        | zero => exact hd
        | succ k =>
          rw [Function.iterate_succ_apply, ← ht]
          exact hlt k (Nat.lt_of_succ_lt_succ hk)
      · rw [Function.iterate_succ_apply, ← ht]; exact hstop
    · simp only [setFirstTimeLoop, if_neg hd, Option.some.injEq] at h
      exact ⟨0, Nat.zero_le _, h.symm, fun k hk => absurd hk (Nat.not_lt_zero k), not_lt.1 hd⟩

/-- The value of `(int64_t)t` never exceeds `t`. -/
theorem toInt64_le (t : Nat) : toInt64 t ≤ (t : Int) := by
  unfold toInt64
  split <;> omega

/-- A timestamp below `2 ^ 63` converts to itself. -/
theorem toInt64_of_lt (t : Nat) (h : t < 2 ^ 63) : toInt64 t = (t : Int) := by
  unfold toInt64
  have : t % 2 ^ 64 = t := Nat.mod_eq_of_lt (by omega)
  rw [this, if_pos h]

/-- Two returning runs of the same callbacks end in the same state. -/
theorem dispatchAll_unique (cbs : List Callback) (s s1 s2 : ApproxReconstructor)
    (f1 f2 : Nat) (h1 : dispatchAll f1 cbs s = some s1) (h2 : dispatchAll f2 cbs s = some s2) :
    s1 = s2 := by
  have a := dispatchAll_mono f1 (max f1 f2) (le_max_left _ _) cbs s s1 h1
  have b := dispatchAll_mono f2 (max f1 f2) (le_max_right _ _) cbs s s2 h2
  rw [a] at b
  exact Option.some.inj b

end ApproxReconstructor
end simple_image_recon

/-! # Claims -/

namespace simple_image_recon
open ApproxReconstructor

/-- C1 (as amended): in periodic mode with interval `I > 0`, `setFirstTime` returns and
sets `nextFrameTime_` to `(t0 / I) * I` with the division truncating toward zero, a
multiple of `I`.  For `t0 ≥ 0` this is the floor, the largest multiple of `I` that is
`≤ t0`; for `t0 < 0` it is the smallest multiple of `I` that is `≥ t0`. -/
theorem C1_setFirstTime_periodic (fuel : Nat) (s : ApproxReconstructor)
    (hm : s.useSliceInterval_ = true) (hI : 0 < s.sliceInterval_) :
    ∃ s', setFirstTime fuel s = some s' ∧
      s' = { s with nextFrameTime_ := Int.tdiv s.t0_ s.sliceInterval_ * s.sliceInterval_ } ∧
      s.sliceInterval_ ∣ s'.nextFrameTime_ ∧
      (0 ≤ s.t0_ → s'.nextFrameTime_ = s.t0_ / s.sliceInterval_ * s.sliceInterval_ ∧
        s'.nextFrameTime_ ≤ s.t0_ ∧ s.t0_ < s'.nextFrameTime_ + s.sliceInterval_) ∧
      (s.t0_ < 0 → s.t0_ ≤ s'.nextFrameTime_ ∧
        s'.nextFrameTime_ < s.t0_ + s.sliceInterval_) := by
  refine ⟨_, by simp [setFirstTime, hm], rfl, Dvd.intro_left _ rfl, ?_, ?_⟩
  · intro h0
    have e : Int.tdiv s.t0_ s.sliceInterval_ = s.t0_ / s.sliceInterval_ :=
      Int.tdiv_eq_ediv h0 (le_of_lt hI)
    simp only [e]
    exact ⟨trivial, Int.ediv_mul_le _ (ne_of_gt hI), Int.lt_ediv_add_one_mul_self _ hI |>.trans_eq
      (by ring)⟩
  · intro h0
    have e : Int.tdiv s.t0_ s.sliceInterval_ = -((-s.t0_) / s.sliceInterval_) := by
      have h1 : Int.tdiv (-s.t0_) s.sliceInterval_ = (-s.t0_) / s.sliceInterval_ :=
        Int.tdiv_eq_ediv (by omega) (le_of_lt hI)
      rw [← h1, Int.neg_tdiv, neg_neg]
    simp only [e]
    have a := Int.ediv_mul_le (-s.t0_) (ne_of_gt hI)
    have b := Int.lt_ediv_add_one_mul_self (-s.t0_) hI
    constructor
    · linarith
    · linarith

/-- Witness for C1: interval 40 ms and anchor 1 s, the scenario of the specification. -/
theorem C1_setFirstTime_periodic_witness :
    ∃ s', setFirstTime 0 { construct "image" 30 40000000 ⟨0⟩ 2 0 [] with t0_ := 1000000000 }
        = some s' ∧
      s' = { construct "image" 30 40000000 ⟨0⟩ 2 0 [] with
              t0_ := 1000000000,
              nextFrameTime_ := Int.tdiv 1000000000 40000000 * 40000000 } ∧
      (40000000 : Int) ∣ s'.nextFrameTime_ ∧
      ((0 : Int) ≤ 1000000000 → s'.nextFrameTime_ = 1000000000 / 40000000 * 40000000 ∧
        s'.nextFrameTime_ ≤ 1000000000 ∧ 1000000000 < s'.nextFrameTime_ + 40000000) ∧
      ((1000000000 : Int) < 0 → 1000000000 ≤ s'.nextFrameTime_ ∧
        s'.nextFrameTime_ < 1000000000 + 40000000) :=
  C1_setFirstTime_periodic 0
    { construct "image" 30 40000000 ⟨0⟩ 2 0 [] with t0_ := 1000000000 } rfl (by decide)

/-- C1 (counterexample): with interval 10 and anchor `t0 = -5` (first timestamp 5, time
offset -10), `setFirstTime` sets `nextFrameTime_` to 0, which is greater than `t0` and is
not `floor(-5 / 10) * 10 = -10`. -/
theorem C1_counterexample :
    Option.map ApproxReconstructor.nextFrameTime_
        (setFirstTime 0 { construct "image" 30 10 ⟨0⟩ 2 (-10) [] with t0_ := 5 + -10 })
      = some 0 ∧
    ¬ ((0 : Int) ≤ 5 + -10) ∧ (0 : Int) ≠ (5 + -10) / 10 * 10 ∧
    ⌊((5 + -10 : Int) : ℚ) / (10 : Int)⌋ * 10 = -10 := by
  refine ⟨by decide, by decide, by decide, ?_⟩
  have : ⌊((5 + -10 : Int) : ℚ) / (10 : Int)⌋ = -1 := by
    rw [Int.floor_eq_iff]
    norm_num
  rw [this]
  norm_num

/-- A run of callbacks from a state whose schedule advances by the interval (periodic
mode, or explicit-list mode with an empty queue) and whose interval is positive: it
returns, and the frames it hands out are stamped `n`, `n + I`, `n + 2 I`, ... -/
theorem fallback_run (s : ApproxReconstructor) (cbs : List Callback)
    (hm : s.useSliceInterval_ = true ∨ s.sliceTimes_ = []) (hI : 0 < s.sliceInterval_) :
    ∃ (N M : Nat) (s' : ApproxReconstructor),
      (∀ fuel, N ≤ fuel → dispatchAll fuel cbs s = some s') ∧
      (∀ fuel s'', dispatchAll fuel cbs s = some s'' → s'' = s') ∧
      s'.stamps = s.stamps ++
        (List.range M).map (fun (k : Nat) => s.nextFrameTime_ + (k : Int) * s.sliceInterval_) ∧
      s'.nextFrameTime_ = s.nextFrameTime_ + (M : Int) * s.sliceInterval_ ∧
      s'.sliceInterval_ = s.sliceInterval_ ∧
      s'.useSliceInterval_ = s.useSliceInterval_ ∧ s'.sliceTimes_ = s.sliceTimes_ := by
  obtain ⟨N, s', h⟩ := dispatchAll_returns cbs s hI
  obtain ⟨M, hM⟩ := dispatchAll_runsTo N cbs s s' (h N (le_refl N))
  refine ⟨N, M, s', h, ?_, ?_, ?_, ?_, ?_, ?_⟩
  · intro fuel s'' h''
    exact dispatchAll_unique cbs s s'' s' fuel N h'' (h N (le_refl N))
  · rw [hM.stamps]
    congr 1
    apply List.map_congr_left
    intro k _
    exact schedule_fallback k s hm
  · rw [hM.sched.2.2.2, schedule_fallback M s hm]
  · rw [hM.sched.2.1, setNextTime_iterate_fallback M s hm]
  · rw [hM.sched.1, setNextTime_iterate_fallback M s hm]
  · rw [hM.sched.2.2.1, setNextTime_iterate_fallback M s hm]

/-- C2: in periodic mode with interval `I > 0`, starting with no frame emitted yet,
`setFirstTime` returns a state with `nextFrameTime_ = n0`, and every sequence of
callbacks handled after it returns (given enough fuel) with the emitted frames stamped,
in emission order, `n0, n0 + I, n0 + 2 I, ...`: the `k`-th frame carries `n0 + k * I`. -/
theorem C2_periodic_spacing (s0 : ApproxReconstructor) (cbs : List Callback)
    (hm : s0.useSliceInterval_ = true) (hI : 0 < s0.sliceInterval_)
    (h0 : s0.frameHandler_ = []) :
    ∃ (s1 : ApproxReconstructor), (∀ fuel, setFirstTime fuel s0 = some s1) ∧
      ∃ (N M : Nat) (s' : ApproxReconstructor),
        (∀ fuel, N ≤ fuel → dispatchAll fuel cbs s1 = some s') ∧
        (∀ fuel s'', dispatchAll fuel cbs s1 = some s'' → s'' = s') ∧
        s'.frameHandler_.length = M ∧
        s'.stamps =
          (List.range M).map (fun (k : Nat) => s1.nextFrameTime_ + (k : Int) * s0.sliceInterval_) := by
  refine ⟨{ s0 with nextFrameTime_ := Int.tdiv s0.t0_ s0.sliceInterval_ * s0.sliceInterval_ },
    fun fuel => by simp [setFirstTime, hm], ?_⟩
  obtain ⟨N, M, s', h1, h2, h3, _⟩ := fallback_run
    { s0 with nextFrameTime_ := Int.tdiv s0.t0_ s0.sliceInterval_ * s0.sliceInterval_ } cbs
    (Or.inl hm) hI
  have hs : ApproxReconstructor.stamps
      { s0 with nextFrameTime_ := Int.tdiv s0.t0_ s0.sliceInterval_ * s0.sliceInterval_ } = [] := by
    simp [ApproxReconstructor.stamps, h0]
  rw [hs, List.nil_append] at h3
  refine ⟨N, M, s', h1, h2, ?_, h3⟩
  have := congrArg List.length h3
  simpa [ApproxReconstructor.stamps] using this

/-- Witness for C2: interval 40 ms, anchor 1 s, events at 1.045 s and 1.2 s. -/
theorem C2_periodic_spacing_witness :
    ∃ (s1 : ApproxReconstructor),
      (∀ fuel, setFirstTime fuel
        { construct "image" 30 40000000 ⟨0⟩ 2 0 [] with t0_ := 1000000000 } = some s1) ∧
      ∃ (N M : Nat) (s' : ApproxReconstructor),
        (∀ fuel, N ≤ fuel → dispatchAll fuel
          [.eventCD 1045000000 3 4 1, .finished, .eventCD 1200000000 5 6 0] s1 = some s') ∧
        (∀ fuel s'', dispatchAll fuel
          [.eventCD 1045000000 3 4 1, .finished, .eventCD 1200000000 5 6 0] s1 = some s'' →
            s'' = s') ∧
        s'.frameHandler_.length = M ∧
        s'.stamps = (List.range M).map (fun (k : Nat) => s1.nextFrameTime_ + (k : Int) * 40000000) :=
  C2_periodic_spacing { construct "image" 30 40000000 ⟨0⟩ 2 0 [] with t0_ := 1000000000 }
    [.eventCD 1045000000 3 4 1, .finished, .eventCD 1200000000 5 6 0] rfl (by decide) rfl

/-- In a strictly ascending list no element exceeds the last one. -/
theorem sorted_le_getLastD :
    ∀ (l : List Int) (d : Int), l.Sorted (· < ·) → ∀ y ∈ l, y ≤ l.getLastD d := by
  intro l
  induction l with
  | nil => intro d _ y hy; cases hy
  | cons a l ih =>
    intro d hs y hy
    rw [List.getLastD_cons]
    rw [List.sorted_cons] at hs
    cases l with
    | nil =>
      simp only [List.mem_singleton] at hy
      simp [List.getLastD, hy]
    | cons b l =>
      rcases List.mem_cons.1 hy with h | h
      · subst h
        exact le_trans (le_of_lt (hs.1 b (List.mem_cons_self _ _)))
          (ih y hs.2 b (List.mem_cons_self _ _))
      · exact ih a hs.2 y h

/-- Explicit-list `setFirstTime` on an ascending queue with an element at or after the
anchor: the loop stops at the first such element and leaves the later ones queued. -/
theorem setFirstTimeLoop_explicit (t0 : Int) :
    ∀ (L : List Int) (s : ApproxReconstructor), L.Sorted (· < ·) → (∃ x ∈ L, t0 ≤ x) →
      s.t0_ = t0 → s.useSliceInterval_ = false → s.sliceTimes_ = L →
      ∃ (a : Int) (post : List Int), L.filter (fun x => decide (t0 ≤ x)) = a :: post ∧
        ∀ fuel, L.length ≤ fuel →
          setFirstTimeLoop fuel (setNextTime s) =
            some { s with nextFrameTime_ := a, sliceTimes_ := post } := by
  intro L
  induction L with
  | nil => intro s _ hex; obtain ⟨x, hx, _⟩ := hex; cases hx
  | cons x xs ih =>
    intro s hs hex ht hb hq
    rw [List.sorted_cons] at hs
    rw [setNextTime_cons hb hq]
    by_cases hx : t0 ≤ x
    · refine ⟨x, xs, ?_, ?_⟩
      · rw [List.filter_cons, if_pos (by simpa using hx)]
        congr 1
        rw [List.filter_eq_self]
        intro y hy
        simpa using le_trans hx (le_of_lt (hs.1 y hy))
      · intro fuel _
        have hn : ¬ (x < s.t0_) := by rw [ht]; exact not_lt.2 hx
        cases fuel <;> simp [setFirstTimeLoop, hn]
    · have hex' : ∃ y ∈ xs, t0 ≤ y := by
        obtain ⟨y, hy, hty⟩ := hex
        rcases List.mem_cons.1 hy with h | h
        · subst h; exact absurd hty hx
        · exact ⟨y, h, hty⟩
      obtain ⟨a, post, hf, hrun⟩ :=
        ih { s with nextFrameTime_ := x, sliceTimes_ := xs } hs.2 hex' ht hb rfl
      refine ⟨a, post, ?_, ?_⟩
      · rw [List.filter_cons, if_neg (by simpa using hx)]
        exact hf
      · intro fuel hfuel
        cases fuel with
        | zero => simp at hfuel
        | succ fuel =>
          have hlt : x < s.t0_ := by rw [ht]; exact lt_of_not_le hx
          rw [setFirstTimeLoop, if_pos hlt]
          exact hrun fuel (by simpa using hfuel)

/-- The stamps of a returning run in explicit-list mode: the current scheduled time, the
queue in order, then steps of the interval; and a run that gets past the queue has a
positive interval. -/
theorem explicit_run_stamps (s s' : ApproxReconstructor) (q : List Int) (fuel : Nat)
    (cbs : List Callback) (hb : s.useSliceInterval_ = false) (hq : s.sliceTimes_ = q)
    (h : dispatchAll fuel cbs s = some s') :
    ∃ M, s'.stamps = s.stamps ++ (List.range M).map (fun (k : Nat) =>
        if k ≤ q.length then (s.nextFrameTime_ :: q).getD k 0
        else q.getLastD s.nextFrameTime_ + ((k - q.length : Nat) : Int) * s.sliceInterval_) ∧
      (M ≤ q.length + 1 ∨ 0 < s.sliceInterval_) := by
  obtain ⟨M, hM⟩ := dispatchAll_runsTo fuel cbs s s' h
  refine ⟨M, ?_, ?_⟩
  · rw [hM.stamps]
    congr 1
    apply List.map_congr_left
    intro k _
    exact schedule_explicit q s k hb hq
  · by_cases hle : M ≤ q.length + 1
    · exact Or.inl hle
    · right
      rcases hM.last with h0 | hlt
      · omega
      · rw [schedule_explicit q s _ hb hq, schedule_explicit q s _ hb hq,
          if_neg (by omega), if_neg (by omega)] at hlt
        have e : ((M - q.length : Nat) : Int) = ((M - 1 - q.length : Nat) : Int) + 1 := by
          omega
        rw [e] at hlt
        nlinarith

/-- Reading a list back through `getD` over its index range gives the list. -/
theorem map_getD_range (l : List Int) (d : Int) :
    (List.range l.length).map (fun k => l.getD k d) = l := by
  apply List.ext_getElem (by simp)
  intro i h1 h2
  simp only [List.getElem_map, List.getElem_range]
  exact List.getD_eq_getElem l d h2

/-- C3: explicit-list mode with a strictly ascending list `L` in the queue and an element
of `L` at or after the anchor `t0`.  `setFirstTime` returns; the scheduled times, namely
`nextFrameTime_` after `setFirstTime` and after each further `setNextTime` while the queue
is non-empty, are exactly the elements of `L` that are `≥ t0`, in order.  Every frame
emitted afterwards is stamped with the next such element in turn and then, once they are
used up, with later times in steps of the interval; so each stamp is an element of `L`
that is `≥ t0` or lies after every element of `L`, and none is an element of `L` below
`t0`.  With a positive interval every run of callbacks returns. -/
theorem C3_explicit_list (s0 : ApproxReconstructor) (L : List Int)
    (hm : s0.useSliceInterval_ = false) (hq : s0.sliceTimes_ = L)
    (hs : L.Sorted (· < ·)) (hex : ∃ x ∈ L, s0.t0_ ≤ x) :
    ∃ s1 : ApproxReconstructor,
      (∀ fuel, L.length ≤ fuel → setFirstTime fuel s0 = some s1) ∧
      s1.stamps = s0.stamps ∧
      (List.range (s1.sliceTimes_.length + 1)).map
          (fun k => (setNextTime^[k] s1).nextFrameTime_) =
        L.filter (fun x => decide (s0.t0_ ≤ x)) ∧
      (setNextTime^[s1.sliceTimes_.length] s1).sliceTimes_ = [] ∧
      (∀ fuel cbs s', dispatchAll fuel cbs s1 = some s' →
        ∃ (M : Nat) (new : List Int), s'.stamps = s0.stamps ++ new ∧
          new = (List.range M).map (fun (k : Nat) =>
            if k < (L.filter (fun x => decide (s0.t0_ ≤ x))).length then
              (L.filter (fun x => decide (s0.t0_ ≤ x))).getD k 0
            else (L.filter (fun x => decide (s0.t0_ ≤ x))).getLastD 0 +
              ((k + 1 - (L.filter (fun x => decide (s0.t0_ ≤ x))).length : Nat) : Int) *
                s0.sliceInterval_) ∧
          (∀ x ∈ new, (x ∈ L ∧ s0.t0_ ≤ x) ∨ (∀ y ∈ L, y < x)) ∧
          (∀ x ∈ new, ¬ (x ∈ L ∧ x < s0.t0_))) ∧
      (0 < s0.sliceInterval_ → ∀ cbs, ∃ (N : Nat) (s' : ApproxReconstructor),
        ∀ fuel, N ≤ fuel → dispatchAll fuel cbs s1 = some s') := by
  obtain ⟨a, post, hF, hrun⟩ := setFirstTimeLoop_explicit s0.t0_ L s0 hs hex rfl hm hq
  have hFs : (a :: post).Sorted (· < ·) := by
    rw [← hF]; exact hs.filter _
  have hlast : ∀ y ∈ L, y ≤ post.getLastD a := by
    intro y hy
    have hle := sorted_le_getLastD (a :: post) 0 hFs
    rw [List.getLastD_cons] at hle
    by_cases hty : s0.t0_ ≤ y
    · apply hle
      rw [← hF, List.mem_filter]
      exact ⟨hy, by simpa using hty⟩
    · have ha : a ∈ L.filter (fun x => decide (s0.t0_ ≤ x)) := by
        rw [hF]; exact List.mem_cons_self _ _
      rw [List.mem_filter] at ha
      have h1 : s0.t0_ ≤ a := by simpa using ha.2
      have h2 := hle a (List.mem_cons_self _ _)
      omega
  have key : ∃ s1 : ApproxReconstructor,
      (∀ fuel, L.length ≤ fuel → setFirstTimeLoop fuel (setNextTime s0) = some s1) ∧
      s1.nextFrameTime_ = a ∧ s1.sliceTimes_ = post ∧ s1.useSliceInterval_ = false ∧
      s1.sliceInterval_ = s0.sliceInterval_ ∧ s1.stamps = s0.stamps :=
    ⟨_, hrun, rfl, rfl, hm, rfl, rfl⟩
  obtain ⟨s1, hrun1, hn1, hq1, hm1, hI1, hst1⟩ := key
  have hsched : ∀ k, k ≤ post.length →
      (setNextTime^[k] s1).nextFrameTime_ = (a :: post).getD k 0 := by
    intro k hk
    rw [schedule_explicit post s1 k hm1 hq1, if_pos hk, hn1]
  refine ⟨s1, ?_, hst1, ?_, ?_, ?_, ?_⟩
  · intro fuel hfuel
    unfold setFirstTime
    rw [if_neg (by simp [hm])]
    exact hrun1 fuel hfuel
  · rw [hF, hq1]
    have e : (List.range (post.length + 1)).map
        (fun k => (setNextTime^[k] s1).nextFrameTime_) =
        (List.range (a :: post).length).map (fun k => (a :: post).getD k 0) := by
      apply List.map_congr_left
      intro k hk
      exact hsched k (by simpa [Nat.lt_succ_iff] using hk)
    exact e.trans (map_getD_range (a :: post) 0)
  · rw [hq1]
    cases post with
    | nil => exact hq1
    | cons b post' =>
      have hsplit : s1.sliceTimes_ =
          (b :: post').dropLast ++ (b :: post').getLast (by simp) :: [] := by
        rw [hq1]
        exact (List.dropLast_append_getLast (by simp)).symm
      have hlen : (b :: post').length = (b :: post').dropLast.length + 1 := by simp
      rw [hlen, setNextTime_iterate_queue _ _ [] s1 hm1 hsplit]
  · intro fuel cbs s' hrun'
    obtain ⟨M, hst, hI⟩ := explicit_run_stamps s1 s' post fuel cbs hm1 hq1 hrun'
    rw [hn1, hI1, hst1] at hst
    rw [hI1] at hI
    have hform : ∀ k : Nat,
        (if k ≤ post.length then (a :: post).getD k 0
          else post.getLastD a + ((k - post.length : Nat) : Int) * s0.sliceInterval_) =
        (if k < (a :: post).length then (a :: post).getD k 0
          else (a :: post).getLastD 0 +
            ((k + 1 - (a :: post).length : Nat) : Int) * s0.sliceInterval_) := by
      intro k
      simp only [List.length_cons, Nat.lt_succ_iff, List.getLastD_cons,
        Nat.add_sub_add_right]
    have hmem : ∀ x ∈ (List.range M).map (fun (k : Nat) =>
          if k ≤ post.length then (a :: post).getD k 0
          else post.getLastD a + ((k - post.length : Nat) : Int) * s0.sliceInterval_),
        (x ∈ L ∧ s0.t0_ ≤ x) ∨ (∀ y ∈ L, y < x) := by
      intro x hx
      obtain ⟨k, hk, rfl⟩ := List.mem_map.1 hx
      have hkM : k < M := List.mem_range.1 hk
      by_cases hle : k ≤ post.length
      · left
        rw [if_pos hle]
        have hin : (a :: post).getD k 0 ∈ L.filter (fun x => decide (s0.t0_ ≤ x)) := by
          rw [hF, List.getD_eq_getElem (a :: post) 0 (by simpa [Nat.lt_succ_iff] using hle)]
          exact List.getElem_mem _
        rw [List.mem_filter] at hin
        exact ⟨hin.1, by simpa using hin.2⟩
      · right
        rw [if_neg hle]
        have hpos : 0 < s0.sliceInterval_ := by
          rcases hI with h | h
          · omega
          · exact h
        have hk1 : (1 : Int) ≤ ((k - post.length : Nat) : Int) := by omega
        intro y hy
        have := hlast y hy
        nlinarith
    refine ⟨M, _, hst, ?_, hmem, ?_⟩
    · rw [hF]
      apply List.map_congr_left
      intro k _
      exact hform k
    · intro x hx hbad
      rcases hmem x hx with h | h
      · omega
      · exact lt_irrefl x (h x hbad.1)
  · intro hI cbs
    exact dispatchAll_returns cbs s1 (by rw [hI1]; exact hI)

/-- Witness for C3, the scenario of the specification: `L = [500, 1500, 2500]` and
`t0 = 1000`.  The scheduled times are 1500 and 2500, and an event at 3000 emits the
frames stamped 1500 and 2500, none stamped 500. -/
theorem C3_explicit_list_witness :
    ∃ s1 : ApproxReconstructor,
      setFirstTime 3 { construct "image" 30 1000 ⟨0⟩ 2 0 [500, 1500, 2500] with t0_ := 1000 }
        = some s1 ∧
      (List.range (s1.sliceTimes_.length + 1)).map
          (fun k => (setNextTime^[k] s1).nextFrameTime_) = [1500, 2500] ∧
      Option.map ApproxReconstructor.stamps (dispatchAll 2 [.eventCD 3000 0 0 1] s1)
        = some [1500, 2500] := by
  obtain ⟨s1, h1, _, h3, _⟩ := C3_explicit_list
    { construct "image" 30 1000 ⟨0⟩ 2 0 [500, 1500, 2500] with t0_ := 1000 }
    [500, 1500, 2500] rfl rfl (by decide) ⟨1500, by decide, by decide⟩
  have hs1 := h1 3 (le_refl 3)
  refine ⟨s1, hs1, h3, ?_⟩
  have hval : setFirstTime 3
      { construct "image" 30 1000 ⟨0⟩ 2 0 [500, 1500, 2500] with t0_ := 1000 } =
      some { construct "image" 30 1000 ⟨0⟩ 2 0 [500, 1500, 2500] with
        t0_ := 1000, nextFrameTime_ := 1500, sliceTimes_ := [2500] } := by
    rfl
  rw [hval] at hs1
  rw [← Option.some.inj hs1]
  decide

/-- Two returning calls of `eventCD` on the same event and state end in the same state. -/
theorem eventCD_unique (t ex ey polarity : Nat) (s s1 s2 : ApproxReconstructor)
    (f1 f2 : Nat) (h1 : eventCD f1 t ex ey polarity s = some s1)
    (h2 : eventCD f2 t ex ey polarity s = some s2) : s1 = s2 := by
  have a := eventCDLoop_mono t f1 (max f1 f2) _ s1 h1 (le_max_left _ _)
  have b := eventCDLoop_mono t f2 (max f1 f2) _ s2 h2 (le_max_right _ _)
  rw [a] at b
  exact Option.some.inj b

/-- The number of terms `n, n + I, n + 2 I, ...` below `tau`, for `I > 0` and `n < tau`. -/
theorem count_below (n tau I : Int) (hI : 0 < I) (hlt : n < tau) :
    1 ≤ (tau - n + I - 1) / I ∧
      ∀ k : Int, n + k * I < tau ↔ k < (tau - n + I - 1) / I := by
  have h1 := Int.ediv_mul_le (tau - n + I - 1) (ne_of_gt hI)
  have h2 := Int.lt_ediv_add_one_mul_self (tau - n + I - 1) hI
  constructor
  · by_contra hc
    have : (tau - n + I - 1) / I + 1 ≤ 1 := by omega
    nlinarith
  · intro k
    constructor
    · intro hk
      by_contra hc
      have : (tau - n + I - 1) / I + 1 ≤ k + 1 := by omega
      nlinarith
    · intro hk
      have : k + 1 ≤ (tau - n + I - 1) / I := by omega
      nlinarith

/-- C4: in periodic mode with interval `I > 0` and `nextFrameTime_ = n`, an event whose
time `tau = (int64_t)t + timeOffset_` exceeds `n` makes `eventCD` return (given fuel `N`)
after emitting exactly `N` frames, where `N = ceil((tau - n) / I) ≥ 1` is the number of
boundaries `n, n + I, ...` below `tau`; the frames are stamped `n, n + I, ..., n + (N-1) I`,
strictly increasing, and `nextFrameTime_` is left at `n + N * I`. -/
theorem C4_burst (s : ApproxReconstructor) (t ex ey polarity : Nat)
    (hm : s.useSliceInterval_ = true) (hI : 0 < s.sliceInterval_)
    (hdue : s.nextFrameTime_ < toInt64 t + s.timeOffset_) :
    ∃ (N : Nat) (s' : ApproxReconstructor),
      (N : Int) = (toInt64 t + s.timeOffset_ - s.nextFrameTime_ + s.sliceInterval_ - 1) /
        s.sliceInterval_ ∧
      (N : Int) = ⌈((toInt64 t + s.timeOffset_ - s.nextFrameTime_ : Int) : ℚ) /
        ((s.sliceInterval_ : Int) : ℚ)⌉ ∧
      1 ≤ N ∧
      (∀ k : Nat, s.nextFrameTime_ + (k : Int) * s.sliceInterval_ <
        toInt64 t + s.timeOffset_ ↔ k < N) ∧
      (∀ fuel, N ≤ fuel → eventCD fuel t ex ey polarity s = some s') ∧
      (∀ fuel s'', eventCD fuel t ex ey polarity s = some s'' → s'' = s') ∧
      s'.frameHandler_.length = s.frameHandler_.length + N ∧
      s'.stamps = s.stamps ++
        (List.range N).map (fun (k : Nat) => s.nextFrameTime_ + (k : Int) * s.sliceInterval_) ∧
      ((List.range N).map
        (fun (k : Nat) => s.nextFrameTime_ + (k : Int) * s.sliceInterval_)).Sorted (· < ·) ∧
      s'.nextFrameTime_ = s.nextFrameTime_ + (N : Int) * s.sliceInterval_ := by
  obtain ⟨hq1, hq⟩ := count_below s.nextFrameTime_ (toInt64 t + s.timeOffset_)
    s.sliceInterval_ hI hdue
  generalize hQ : (toInt64 t + s.timeOffset_ - s.nextFrameTime_ + s.sliceInterval_ - 1) /
    s.sliceInterval_ = Q at hq1 hq
  have hN : ((Q.toNat : Nat) : Int) = Q := Int.toNat_of_nonneg (by omega)
  have hchar : ∀ k : Nat, s.nextFrameTime_ + (k : Int) * s.sliceInterval_ <
      toInt64 t + s.timeOffset_ ↔ k < Q.toNat := by
    intro k
    rw [hq k]
    omega
  have hsa : ∀ k, (setNextTime^[k]
      { s with simpleReconstructor_ := s.simpleReconstructor_.event t ex ey polarity }).nextFrameTime_
        = s.nextFrameTime_ + (k : Int) * s.sliceInterval_ := fun k =>
    schedule_fallback k _ (Or.inl hm)
  have hrun : ∀ fuel, Q.toNat ≤ fuel → eventCD fuel t ex ey polarity s =
      some (frameStep^[Q.toNat]
        { s with simpleReconstructor_ := s.simpleReconstructor_.event t ex ey polarity }) := by
    intro fuel hf
    apply eventCDLoop_of_stop t _ Q.toNat _ _ fuel hf
    · intro k hk
      rw [hsa]
      exact (hchar k).2 hk
    · rw [hsa]
      exact not_lt.1 (fun h => lt_irrefl _ ((hchar Q.toNat).1 h))
  refine ⟨Q.toNat, _, hN, ?_, by omega, hchar, hrun, ?_, ?_, ?_, ?_, ?_⟩
  · symm
    rw [Int.ceil_eq_iff]
    have hIq : (0 : ℚ) < ((s.sliceInterval_ : Int) : ℚ) := by exact_mod_cast hI
    have h1 : s.nextFrameTime_ + ((Q.toNat - 1 : Nat) : Int) * s.sliceInterval_ <
        toInt64 t + s.timeOffset_ := (hchar _).2 (by omega)
    have h2 : toInt64 t + s.timeOffset_ ≤
        s.nextFrameTime_ + ((Q.toNat : Nat) : Int) * s.sliceInterval_ :=
      not_lt.1 (fun h => lt_irrefl _ ((hchar Q.toNat).1 h))
    have e : ((Q.toNat - 1 : Nat) : Int) = (Q.toNat : Int) - 1 := by omega
    rw [e] at h1
    constructor
    · rw [lt_div_iff₀ hIq]
      have : ((Q.toNat : Int) - 1) * s.sliceInterval_ <
          toInt64 t + s.timeOffset_ - s.nextFrameTime_ := by linarith
      exact_mod_cast this
    · rw [div_le_iff₀ hIq]
      have : toInt64 t + s.timeOffset_ - s.nextFrameTime_ ≤
          (Q.toNat : Int) * s.sliceInterval_ := by linarith
      exact_mod_cast this
  · intro fuel s'' h''
    exact eventCD_unique t ex ey polarity s s'' _ fuel Q.toNat h'' (hrun _ (le_refl _))
  · rw [frameStep_iterate_frames]
    simp
  · rw [frameStep_iterate_stamps]
    congr 1
    apply List.map_congr_left
    intro k _
    exact hsa k
  · rw [List.Sorted, List.pairwise_map]
    apply (List.pairwise_lt_range Q.toNat).imp
    intro a b hab
    have : (a : Int) < (b : Int) := by exact_mod_cast hab
    nlinarith
  · rw [(sameSchedule_iterate _ _).2.2.2]
    exact hsa _

/-- Witness for C4, the scenario of the specification: interval 40 ms,
`nextFrameTime_` 1 s, event at 1.045 s: two frames, stamped 1 s and 1.04 s, and
`nextFrameTime_` left at 1.08 s. -/
theorem C4_burst_witness :
    ∃ s' : ApproxReconstructor,
      eventCD 2 1045000000 7 9 1
        { construct "image" 30 40000000 ⟨0⟩ 2 0 [] with nextFrameTime_ := 1000000000 }
          = some s' ∧
      s'.stamps = [1000000000, 1040000000] ∧ s'.nextFrameTime_ = 1080000000 := by
  obtain ⟨N, s', hN, _, _, _, hrun, _, _, hst, _, hnext⟩ := C4_burst
    { construct "image" 30 40000000 ⟨0⟩ 2 0 [] with nextFrameTime_ := 1000000000 }
    1045000000 7 9 1 rfl (by decide) (by decide)
  have h2 : N = 2 := by
    have e : (toInt64 1045000000 + (0 : Int) - 1000000000 + 40000000 - 1) / 40000000 = 2 := by
      decide
    have hN' : (N : Int) = 2 := hN.trans e
    exact_mod_cast hN'
  subst h2
  exact ⟨s', hrun 2 (le_refl 2), hst, hnext⟩

theorem cdEvents_map_callback (es : List Event) : cdEvents (es.map Event.callback) = es := by
  induction es with
  | nil => rfl
  | cons e es ih =>
    simp only [List.map_cons, Event.callback, cdEvents, ih]

/-- C5: for every object state and every sequence of decoded events `es` delivered through
`eventCD`, a run that returns leaves the accumulator log equal to the log before followed
by exactly `es`, in order, each event once with its raw `(t, x, y, polarity)`, whether or
not frames were emitted; other callbacks in between add nothing.  With a positive
interval the run returns once the fuel is large enough. -/
theorem C5_event_forwarding (s : ApproxReconstructor) (es : List Event) :
    (∀ fuel s', dispatchAll fuel (es.map Event.callback) s = some s' →
      s'.simpleReconstructor_.events = s.simpleReconstructor_.events ++ es) ∧
    (∀ fuel cbs s', dispatchAll fuel cbs s = some s' →
      s'.simpleReconstructor_.events = s.simpleReconstructor_.events ++ cdEvents cbs) ∧
    (0 < s.sliceInterval_ → ∃ (N : Nat) (s' : ApproxReconstructor),
      ∀ fuel, N ≤ fuel → dispatchAll fuel (es.map Event.callback) s = some s') := by
  refine ⟨?_, ?_, fun hI => dispatchAll_returns _ s hI⟩
  · intro fuel s' h
    obtain ⟨M, hM⟩ := dispatchAll_runsTo fuel _ s s' h
    rw [hM.events, cdEvents_map_callback]
  · intro fuel cbs s' h
    obtain ⟨M, hM⟩ := dispatchAll_runsTo fuel cbs s s' h
    exact hM.events

/-- Witness for C5: three events, of which the second emits two frames and the others
none; the accumulator log holds the three events in order. -/
theorem C5_event_forwarding_witness :
    ∃ s' : ApproxReconstructor,
      dispatchAll 2 ([⟨990, 1, 2, 1⟩, ⟨1045, 3, 4, 0⟩, ⟨1046, 5, 6, 1⟩].map Event.callback)
        { construct "image" 30 40 ⟨0⟩ 2 0 [] with nextFrameTime_ := 1000 } = some s' ∧
      s'.simpleReconstructor_.events = [⟨990, 1, 2, 1⟩, ⟨1045, 3, 4, 0⟩, ⟨1046, 5, 6, 1⟩] ∧
      s'.stamps = [1000, 1040] :=
  ⟨_, rfl,
    (C5_event_forwarding { construct "image" 30 40 ⟨0⟩ 2 0 [] with nextFrameTime_ := 1000 }
      [⟨990, 1, 2, 1⟩, ⟨1045, 3, 4, 0⟩, ⟨1046, 5, 6, 1⟩]).1 2 _ rfl, rfl⟩

/-- C6 (the code at the failing input): a first buffer with the unknown encoding "bogus".
When both factories know "evt3" only, `processMsg` calls `decode` through the null pointer
that the first factory returned and never reaches the check that throws.  When only the
second factory rejects the encoding, the check throws "invalid encoding!", but after
`setFirstTime` has set `nextFrameTime_` (here to 80) and after the accumulator has been
initialised. -/
theorem C6_unknown_encoding :
    (∃ s, processMsg ⟨exampleFactory, exampleFactory, false⟩ 10
        ⟨⟨"cam", 7⟩, 640, 480, "bogus", [100, 150]⟩ (construct "image" 30 40 ⟨0⟩ 2 0 [])
          = Outcome.nullDecoder s) ∧
    (∃ s, processMsg ⟨lenientFactory, exampleFactory, false⟩ 10
        ⟨⟨"cam", 7⟩, 640, 480, "bogus", [100, 150]⟩ (construct "image" 30 40 ⟨0⟩ 2 0 [])
          = Outcome.runtime_error "invalid encoding!" s ∧
        s.t0_ = 100 ∧ s.nextFrameTime_ = 80 ∧ 80 ≠ (construct "image" 30 40 ⟨0⟩ 2 0 []).nextFrameTime_ ∧
        s.simpleReconstructor_.inits = [⟨640, 480, 30, 2, ⟨0⟩⟩] ∧
        s.simpleReconstructor_.events = [] ∧ s.frameHandler_ = []) :=
  ⟨⟨_, rfl⟩, ⟨_, rfl, rfl, rfl, by decide, rfl, rfl, rfl⟩⟩

/-- C7 (the code at the failing input): a buffer whose first event has timestamp 0 and
whose second event has timestamp 5: `getFirstTimeStamp` returns 5, the timestamp of the
second event, because 0 is also the marker for "nothing captured yet". -/
theorem C7_first_timestamp_zero :
    (FirstMsgProcessor.fresh.dispatchAll
      [.eventCD 0 1 1 1, .eventCD 5 2 2 0]).getFirstTimeStamp = 5 ∧
    cdEvents [.eventCD 0 1 1 1, .eventCD 5 2 2 0] = [⟨0, 1, 1, 1⟩, ⟨5, 2, 2, 0⟩] := by
  decide

/-- C8: every frame that a returning `eventCD` hands out for an event with timestamp `t`
is the frame built from the object state at its emission, so it is stamped with the
value `nextFrameTime_` had then; that stamp is strictly below
`(int64_t)t + timeOffset_`, hence below `t + timeOffset_` and different from the event
time.  With a positive interval `eventCD` returns once the fuel is large enough. -/
theorem C8_frame_stamp (t ex ey polarity : Nat) (s : ApproxReconstructor) :
    (∀ x : ApproxReconstructor, (emitFrame x).frameHandler_ = x.frameHandler_ ++ [makeFrame x] ∧
      (makeFrame x).stamp = x.nextFrameTime_) ∧
    (∀ fuel s', eventCD fuel t ex ey polarity s = some s' →
      ∃ N, N ≤ fuel ∧
        s' = frameStep^[N]
          { s with simpleReconstructor_ := s.simpleReconstructor_.event t ex ey polarity } ∧
        s'.frameHandler_ = s.frameHandler_ ++ (List.range N).map (fun k => makeFrame
          (frameStep^[k]
            { s with simpleReconstructor_ := s.simpleReconstructor_.event t ex ey polarity })) ∧
        ∀ k, k < N →
          (makeFrame (frameStep^[k]
            { s with simpleReconstructor_ :=
                s.simpleReconstructor_.event t ex ey polarity })).stamp =
            (frameStep^[k]
              { s with simpleReconstructor_ :=
                  s.simpleReconstructor_.event t ex ey polarity }).nextFrameTime_ ∧
          (makeFrame (frameStep^[k]
            { s with simpleReconstructor_ :=
                s.simpleReconstructor_.event t ex ey polarity })).stamp <
            toInt64 t + s.timeOffset_ ∧
          (makeFrame (frameStep^[k]
            { s with simpleReconstructor_ :=
                s.simpleReconstructor_.event t ex ey polarity })).stamp <
            (t : Int) + s.timeOffset_ ∧
          (makeFrame (frameStep^[k]
            { s with simpleReconstructor_ :=
                s.simpleReconstructor_.event t ex ey polarity })).stamp ≠
            toInt64 t + s.timeOffset_) ∧
    (0 < s.sliceInterval_ → ∃ (N : Nat) (s' : ApproxReconstructor),
      ∀ fuel, N ≤ fuel → eventCD fuel t ex ey polarity s = some s') := by
  refine ⟨fun x => ⟨rfl, rfl⟩, ?_, fun hI => eventCD_returns t ex ey polarity s hI⟩
  intro fuel s' h
  obtain ⟨N, hN, hs, h1, _⟩ := eventCDLoop_some t fuel _ s' h
  refine ⟨N, hN, hs, ?_, ?_⟩
  · rw [hs, frameStep_iterate_frames]
  · intro k hk
    have hd := h1 k hk
    unfold due at hd
    rw [(frameStep_iterate_frame k _).1] at hd
    have hd' : (frameStep^[k]
        { s with simpleReconstructor_ :=
            s.simpleReconstructor_.event t ex ey polarity }).nextFrameTime_ <
        toInt64 t + s.timeOffset_ := hd
    have hle := toInt64_le t
    refine ⟨rfl, ?_, ?_, ?_⟩
    · exact hd'
    · rw [stamp_makeFrame]; omega
    · rw [stamp_makeFrame]; omega

/-- Witness for C8: interval 100, `nextFrameTime_` 1000, time offset 50, event at raw time
1000: the frames handed out are stamped below the event time 1050. -/
theorem C8_frame_stamp_witness :
    ∃ (s' : ApproxReconstructor) (N : Nat),
      eventCD 1 1000 3 4 1
        { construct "image" 30 100 ⟨0⟩ 2 50 [] with nextFrameTime_ := 1000 } = some s' ∧
      N ≤ 1 ∧
      s'.frameHandler_ = (List.range N).map (fun k => makeFrame
        (frameStep^[k] { construct "image" 30 100 ⟨0⟩ 2 50 [] with
          nextFrameTime_ := 1000,
          simpleReconstructor_ := (SimpleImageReconstructor.mk [] []).event 1000 3 4 1 })) ∧
      ∀ k, k < N →
        (makeFrame (frameStep^[k] { construct "image" 30 100 ⟨0⟩ 2 50 [] with
          nextFrameTime_ := 1000,
          simpleReconstructor_ :=
            (SimpleImageReconstructor.mk [] []).event 1000 3 4 1 })).stamp <
          toInt64 1000 + 50 := by
  have h : eventCD 1 1000 3 4 1
      { construct "image" 30 100 ⟨0⟩ 2 50 [] with nextFrameTime_ := 1000 } =
      some (frameStep^[1] { construct "image" 30 100 ⟨0⟩ 2 50 [] with
        nextFrameTime_ := 1000,
        simpleReconstructor_ := (SimpleImageReconstructor.mk [] []).event 1000 3 4 1 }) := rfl
  obtain ⟨N, hN, _, hf, hk⟩ := (C8_frame_stamp 1000 3 4 1
    { construct "image" 30 100 ⟨0⟩ 2 50 [] with nextFrameTime_ := 1000 }).2.1 1 _ h
  exact ⟨_, N, h, hN, hf, fun k hk' => (hk k hk').2.1⟩

/-- More fuel does not change a result of the loop of `setFirstTime`. -/
theorem setFirstTimeLoop_mono (fuel fuel' : Nat) (s s' : ApproxReconstructor)
    (h : setFirstTimeLoop fuel s = some s') (hf : fuel ≤ fuel') :
    setFirstTimeLoop fuel' s = some s' := by
  obtain ⟨N, hN, hs, h1, h2⟩ := setFirstTimeLoop_some fuel s s' h
  rw [hs]
  exact setFirstTimeLoop_of_stop N fuel' s (le_trans hN hf) h1 h2

/-- Two returning calls of `setFirstTime` on the same state end in the same state. -/
theorem setFirstTime_unique (s s1 s2 : ApproxReconstructor) (f1 f2 : Nat)
    (h1 : setFirstTime f1 s = some s1) (h2 : setFirstTime f2 s = some s2) : s1 = s2 := by
  unfold setFirstTime at h1 h2
  by_cases hm : s.useSliceInterval_ = true
  · rw [if_pos hm] at h1 h2
    rw [h1] at h2
    exact Option.some.inj h2
  · rw [if_neg hm] at h1 h2
    have a := setFirstTimeLoop_mono f1 (max f1 f2) _ s1 h1 (le_max_left _ _)
    have b := setFirstTimeLoop_mono f2 (max f1 f2) _ s2 h2 (le_max_right _ _)
    rw [a] at b
    exact Option.some.inj b

/-- The schedule of an explicit-list state whose queue ends in `e`: the current time,
the queue before `e` in order, `e` itself, and then steps of the interval from `e`. -/
theorem schedule_explicit_last (s : ApproxReconstructor) (q : List Int) (e : Int)
    (hm : s.useSliceInterval_ = false) (hq : s.sliceTimes_ = q ++ [e]) (k : Nat) :
    (setNextTime^[k] s).nextFrameTime_ =
      if k ≤ q.length then (s.nextFrameTime_ :: q).getD k 0
      else e + ((k - (q.length + 1) : Nat) : Int) * s.sliceInterval_ := by
  rw [schedule_explicit (q ++ [e]) s k hm hq, List.getLastD_concat]
  simp only [List.length_append, List.length_singleton]
  by_cases h1 : k ≤ q.length
  · rw [if_pos (by omega), if_pos h1, ← List.cons_append,
      List.getD_append _ _ _ _ (by simpa [Nat.lt_succ_iff] using h1)]
  · rw [if_neg h1]
    by_cases h2 : k ≤ q.length + 1
    · have hk : k = q.length + 1 := by omega
      rw [if_pos h2, hk, ← List.cons_append,
        List.getD_append_right _ _ _ _ (by simp)]
      simp
    · rw [if_neg h2]

/-- C9: explicit-list mode with fallback interval `I > 0`.  With an empty queue
`setNextTime` adds exactly `I` to `nextFrameTime_`.  If the queue ends in `e_last`, then
`e_last` is scheduled by the advance that empties the queue and every later advance adds
`I`; every run of callbacks returns, and the frames it emits after the frame stamped
`e_last` are stamped `e_last + I, e_last + 2 I, ...` in that order (the frames up to
there carry the current scheduled time and the queue elements in order). -/
theorem C9_explicit_exhaustion (s : ApproxReconstructor) (q : List Int) (e_last : Int)
    (cbs : List Callback) (hm : s.useSliceInterval_ = false)
    (hq : s.sliceTimes_ = q ++ [e_last]) (hI : 0 < s.sliceInterval_) :
    (∀ x : ApproxReconstructor, x.useSliceInterval_ = false → x.sliceTimes_ = [] →
      setNextTime x = { x with nextFrameTime_ := x.nextFrameTime_ + x.sliceInterval_ }) ∧
    setNextTime^[q.length + 1] s = { s with nextFrameTime_ := e_last, sliceTimes_ := [] } ∧
    (∀ j : Nat, setNextTime^[q.length + 1 + j] s =
      { s with nextFrameTime_ := e_last + (j : Int) * s.sliceInterval_, sliceTimes_ := [] }) ∧
    ∃ (N M : Nat) (s' : ApproxReconstructor),
      (∀ fuel, N ≤ fuel → dispatchAll fuel cbs s = some s') ∧
      (∀ fuel s'', dispatchAll fuel cbs s = some s'' → s'' = s') ∧
      s'.stamps = s.stamps ++ (List.range M).map (fun (k : Nat) =>
        if k ≤ q.length then (s.nextFrameTime_ :: q).getD k 0
        else e_last + ((k - (q.length + 1) : Nat) : Int) * s.sliceInterval_) := by
  have hpop := setNextTime_iterate_queue q e_last [] s hm hq
  refine ⟨fun x hx hxq => setNextTime_nil hx hxq, hpop, ?_, ?_⟩
  · intro j
    rw [Nat.add_comm, Function.iterate_add_apply, hpop,
      setNextTime_iterate_fallback j _ (Or.inr rfl)]
  · obtain ⟨N, s', h⟩ := dispatchAll_returns cbs s hI
    obtain ⟨M, hM⟩ := dispatchAll_runsTo N cbs s s' (h N (le_refl N))
    refine ⟨N, M, s', h, ?_, ?_⟩
    · intro fuel s'' h''
      exact dispatchAll_unique cbs s s'' s' fuel N h'' (h N (le_refl N))
    · rw [hM.stamps]
      congr 1
      apply List.map_congr_left
      intro k _
      exact schedule_explicit_last s q e_last hm hq k

/-- Witness for C9: queue `[1500, 2500]`, interval 1000, current scheduled time 500 and an
event at 6000: the frames after the one stamped 2500 are stamped 3500, 4500, 5500. -/
theorem C9_explicit_exhaustion_witness :
    setNextTime^[[(1500 : Int)].length + 1]
        { construct "image" 30 1000 ⟨0⟩ 2 0 [1500, 2500] with nextFrameTime_ := 500 } =
      { construct "image" 30 1000 ⟨0⟩ 2 0 [1500, 2500] with
        nextFrameTime_ := 2500, sliceTimes_ := [] } ∧
    (∀ j : Nat, setNextTime^[[(1500 : Int)].length + 1 + j]
        { construct "image" 30 1000 ⟨0⟩ 2 0 [1500, 2500] with nextFrameTime_ := 500 } =
      { construct "image" 30 1000 ⟨0⟩ 2 0 [1500, 2500] with
        nextFrameTime_ := 2500 + (j : Int) * 1000, sliceTimes_ := [] }) ∧
    Option.map ApproxReconstructor.stamps (dispatchAll 6 [.eventCD 6000 0 0 1]
        { construct "image" 30 1000 ⟨0⟩ 2 0 [1500, 2500] with nextFrameTime_ := 500 }) =
      some [500, 1500, 2500, 3500, 4500, 5500] :=
  ⟨(C9_explicit_exhaustion
      { construct "image" 30 1000 ⟨0⟩ 2 0 [1500, 2500] with nextFrameTime_ := 500 }
      [1500] 2500 [.eventCD 6000 0 0 1] rfl rfl (by decide)).2.1,
    (C9_explicit_exhaustion
      { construct "image" 30 1000 ⟨0⟩ 2 0 [1500, 2500] with nextFrameTime_ := 500 }
      [1500] 2500 [.eventCD 6000 0 0 1] rfl rfl (by decide)).2.2.1,
    by decide⟩

/-- C10: explicit-list mode with fallback interval `I > 0` and a non-empty queue `L`
whose elements are all strictly below the anchor `t0`.  `setFirstTime` returns, empties
the queue and leaves `nextFrameTime_ = last(L) + k * I` for the least `k ≥ 1` with
`last(L) + k * I ≥ t0`.  Afterwards every run of callbacks returns and no frame it emits
is stamped with an element of `L`: the stamps are `last(L) + (k + j) * I`, `j = 0, 1, ...` -/
theorem C10_all_before_anchor (s0 : ApproxReconstructor) (L : List Int) (hne : L ≠ [])
    (hm : s0.useSliceInterval_ = false) (hq : s0.sliceTimes_ = L)
    (hall : ∀ x ∈ L, x < s0.t0_) (hI : 0 < s0.sliceInterval_) :
    ∃ (k : Nat) (s1 : ApproxReconstructor),
      1 ≤ k ∧ s0.t0_ ≤ L.getLast hne + (k : Int) * s0.sliceInterval_ ∧
      (∀ j : Nat, 1 ≤ j → s0.t0_ ≤ L.getLast hne + (j : Int) * s0.sliceInterval_ → k ≤ j) ∧
      (∀ fuel, L.length + k ≤ fuel → setFirstTime fuel s0 = some s1) ∧
      (∀ fuel s'', setFirstTime fuel s0 = some s'' → s'' = s1) ∧
      s1 = { s0 with nextFrameTime_ := L.getLast hne + (k : Int) * s0.sliceInterval_,
                     sliceTimes_ := [] } ∧
      ∀ cbs : List Callback, ∃ (N M : Nat) (s' : ApproxReconstructor),
        (∀ fuel, N ≤ fuel → dispatchAll fuel cbs s1 = some s') ∧
        s'.stamps = s0.stamps ++ (List.range M).map (fun (j : Nat) =>
          L.getLast hne + ((k + j : Nat) : Int) * s0.sliceInterval_) ∧
        ∀ x ∈ (List.range M).map (fun (j : Nat) =>
          L.getLast hne + ((k + j : Nat) : Int) * s0.sliceInterval_), x ∉ L := by
  have hsplit : s0.sliceTimes_ = L.dropLast ++ [L.getLast hne] := by
    rw [hq, List.dropLast_append_getLast hne]
  have hlen : L.length = L.dropLast.length + 1 := by
    rw [List.length_dropLast]
    have : 0 < L.length := List.length_pos.2 hne
    omega
  have helast : L.getLast hne < s0.t0_ := hall _ (List.getLast_mem hne)
  -- the schedule of `s0`
  have hsched := schedule_explicit_last s0 L.dropLast (L.getLast hne) hm hsplit
  have hpop : setNextTime^[L.length] s0 =
      { s0 with nextFrameTime_ := L.getLast hne, sliceTimes_ := [] } := by
    rw [hlen]
    exact setNextTime_iterate_queue _ _ [] s0 hm hsplit
  -- the fallback steps from the last element
  obtain ⟨k, hk1, hk2⟩ := exists_stop_fallback s0.t0_ _
    { s0 with nextFrameTime_ := L.getLast hne, sliceTimes_ := [] } hI (Or.inr rfl) (le_refl _)
  have hfb : ∀ j : Nat, (setNextTime^[j]
      { s0 with nextFrameTime_ := L.getLast hne, sliceTimes_ := [] }).nextFrameTime_ =
      L.getLast hne + (j : Int) * s0.sliceInterval_ := fun j =>
    schedule_fallback j _ (Or.inr rfl)
  have hkpos : 1 ≤ k := by
    rcases Nat.eq_zero_or_pos k with h | h
    · subst h
      rw [hfb] at hk2
      simp at hk2
      omega
    · exact h
  have hbelow : ∀ j : Nat, j < k → L.getLast hne + (j : Int) * s0.sliceInterval_ < s0.t0_ := by
    intro j hj
    rw [← hfb]
    exact hk1 j hj
  have hreach : s0.t0_ ≤ L.getLast hne + (k : Int) * s0.sliceInterval_ := by
    rw [← hfb]
    exact hk2
  have hfinal : setNextTime^[L.length - 1 + k] (setNextTime s0) =
      { s0 with nextFrameTime_ := L.getLast hne + (k : Int) * s0.sliceInterval_,
                sliceTimes_ := [] } := by
    rw [← Function.iterate_succ_apply]
    have e : (L.length - 1 + k).succ = k + L.length := by omega
    rw [e, Function.iterate_add_apply, hpop, setNextTime_iterate_fallback k _ (Or.inr rfl)]
  have hloop : ∀ fuel, L.length + k ≤ fuel → setFirstTimeLoop fuel (setNextTime s0) =
      some { s0 with nextFrameTime_ := L.getLast hne + (k : Int) * s0.sliceInterval_,
                     sliceTimes_ := [] } := by
    intro fuel hfuel
    rw [← hfinal]
    have ht : (setNextTime s0).t0_ = s0.t0_ := (setNextTime_frame s0).2.2.2.1
    apply setFirstTimeLoop_of_stop _ fuel _ (by omega)
    · intro j hj
      rw [ht, ← Function.iterate_succ_apply, hsched]
      by_cases hle : j.succ ≤ L.dropLast.length
      · rw [if_pos hle]
        apply hall
        have hlt : j.succ < (s0.nextFrameTime_ :: L.dropLast).length := by
          simpa [Nat.lt_succ_iff] using hle
        rw [List.getD_eq_getElem _ 0 hlt]
        simp only [Nat.succ_eq_add_one, List.getElem_cons_succ]
        exact List.dropLast_subset L (List.getElem_mem _)
      · rw [if_neg hle]
        exact hbelow _ (by omega)
    · rw [ht, hfinal]
      exact hreach
  have hset : ∀ fuel, L.length + k ≤ fuel → setFirstTime fuel s0 =
      some { s0 with nextFrameTime_ := L.getLast hne + (k : Int) * s0.sliceInterval_,
                     sliceTimes_ := [] } := by
    intro fuel hfuel
    unfold setFirstTime
    rw [if_neg (by simp [hm])]
    exact hloop fuel hfuel
  refine ⟨k, _, hkpos, hreach, ?_, hset, ?_, rfl, ?_⟩
  · intro j _ hj
    by_contra hc
    have := hbelow j (by omega)
    omega
  · intro fuel s'' h''
    exact setFirstTime_unique s0 s'' _ fuel (L.length + k) h'' (hset _ (le_refl _))
  · intro cbs
    obtain ⟨N, M, s', h1, _, h3, _⟩ := fallback_run
      { s0 with nextFrameTime_ := L.getLast hne + (k : Int) * s0.sliceInterval_,
                sliceTimes_ := [] } cbs (Or.inr rfl) hI
    have hform : ∀ j : Nat, L.getLast hne + (k : Int) * s0.sliceInterval_ +
        (j : Int) * s0.sliceInterval_ =
        L.getLast hne + ((k + j : Nat) : Int) * s0.sliceInterval_ := by
      intro j
      push_cast
      ring
    refine ⟨N, M, s', h1, ?_, ?_⟩
    · rw [h3]
      congr 1
      apply List.map_congr_left
      intro j _
      exact hform j
    · intro x hx hxL
      obtain ⟨j, _, rfl⟩ := List.mem_map.1 hx
      have h1 := hall _ hxL
      have h2 : (0 : Int) ≤ (j : Int) * s0.sliceInterval_ :=
        mul_nonneg (Int.natCast_nonneg j) (le_of_lt hI)
      rw [← hform j] at h1
      omega

/-- Witness for C10: `L = [100, 200]`, anchor 1000, interval 300: `setFirstTime` leaves
`nextFrameTime_ = 200 + 3 * 300 = 1100`, and an event at 1500 emits frames stamped 1100
and 1400. -/
theorem C10_all_before_anchor_witness :
    Option.map (fun s => (s.nextFrameTime_, s.sliceTimes_))
        (setFirstTime 5 { construct "image" 30 300 ⟨0⟩ 2 0 [100, 200] with t0_ := 1000 })
      = some (1100, []) ∧
    ∃ (k : Nat) (s1 : ApproxReconstructor), 1 ≤ k ∧
      (∀ fuel, [(100 : Int), 200].length + k ≤ fuel →
        setFirstTime fuel { construct "image" 30 300 ⟨0⟩ 2 0 [100, 200] with t0_ := 1000 }
          = some s1) ∧
      s1 = { construct "image" 30 300 ⟨0⟩ 2 0 [100, 200] with
        t0_ := 1000,
        nextFrameTime_ := [(100 : Int), 200].getLast (by decide) + (k : Int) * 300,
        sliceTimes_ := [] } := by
  obtain ⟨k, s1, hk, _, _, hrun, _, hs1, _⟩ := C10_all_before_anchor
    { construct "image" 30 300 ⟨0⟩ 2 0 [100, 200] with t0_ := 1000 } [100, 200] (by decide)
    rfl rfl (by decide) (by decide)
  exact ⟨by decide, k, s1, hk, hrun, hs1⟩

/-- An event that is not due: `eventCD` only logs it in the accumulator, with any fuel. -/
theorem eventCD_not_due (fuel t ex ey polarity : Nat) (s : ApproxReconstructor)
    (h : toInt64 t + s.timeOffset_ ≤ s.nextFrameTime_) :
    eventCD fuel t ex ey polarity s =
      some { s with simpleReconstructor_ := s.simpleReconstructor_.event t ex ey polarity } := by
  have hn : ¬ (toInt64 t + s.timeOffset_ > s.nextFrameTime_) := not_lt.2 h
  cases fuel <;> simp [eventCD, eventCDLoop, hn]

/-- C12: for every object state and every event with `t + timeOffset_ ≤ nextFrameTime_`
(equality included; both with `t` read as the `uint64_t` value and with the converted
`(int64_t)t` that the code compares), `eventCD` returns with any fuel, having only logged
the event in the accumulator: no frame is emitted and `nextFrameTime_` and the queue are
unchanged.  Conversely a returning `eventCD` that emitted a frame had
`t + timeOffset_ > nextFrameTime_`. -/
theorem C12_strict_due (t ex ey polarity : Nat) (s : ApproxReconstructor) :
    (∀ fuel, toInt64 t + s.timeOffset_ ≤ s.nextFrameTime_ →
      ∃ s', eventCD fuel t ex ey polarity s = some s' ∧
        s'.frameHandler_ = s.frameHandler_ ∧ s'.nextFrameTime_ = s.nextFrameTime_ ∧
        s'.sliceTimes_ = s.sliceTimes_) ∧
    (∀ fuel, (t : Int) + s.timeOffset_ ≤ s.nextFrameTime_ →
      ∃ s', eventCD fuel t ex ey polarity s = some s' ∧
        s'.frameHandler_ = s.frameHandler_ ∧ s'.nextFrameTime_ = s.nextFrameTime_ ∧
        s'.sliceTimes_ = s.sliceTimes_) ∧
    (∀ fuel s', eventCD fuel t ex ey polarity s = some s' →
      s'.frameHandler_ ≠ s.frameHandler_ →
        s.nextFrameTime_ < toInt64 t + s.timeOffset_ ∧
        s.nextFrameTime_ < (t : Int) + s.timeOffset_) := by
  have hle := toInt64_le t
  refine ⟨?_, ?_, ?_⟩
  · intro fuel h
    exact ⟨_, eventCD_not_due fuel t ex ey polarity s h, rfl, rfl, rfl⟩
  · intro fuel h
    exact ⟨_, eventCD_not_due fuel t ex ey polarity s (by omega), rfl, rfl, rfl⟩
  · intro fuel s' h hne
    by_cases hd : toInt64 t + s.timeOffset_ ≤ s.nextFrameTime_
    · rw [eventCD_not_due fuel t ex ey polarity s hd] at h
      rw [← Option.some.inj h] at hne
      exact absurd rfl hne
    · constructor <;> omega

/-- Witness for C12: `nextFrameTime_` 1000 and an event at exactly 1000: no frame. -/
theorem C12_strict_due_witness :
    ∃ s', eventCD 0 1000 3 4 1
        { construct "image" 30 40 ⟨0⟩ 2 0 [] with nextFrameTime_ := 1000 } = some s' ∧
      s'.frameHandler_ = [] ∧ s'.nextFrameTime_ = 1000 ∧ s'.sliceTimes_ = [] :=
  (C12_strict_due 1000 3 4 1
    { construct "image" 30 40 ⟨0⟩ 2 0 [] with nextFrameTime_ := 1000 }).1 0 (by decide)

/-- C18: when `eventCD` returns for an event with timestamp `t`, the schedule has caught
up: `nextFrameTime_ ≥ (int64_t)t + timeOffset_` (which is `t + timeOffset_` for
`t < 2 ^ 63`).  Hence a following event whose time is not greater emits no frame:
`eventCD` returns for it with any fuel, leaving frames, `nextFrameTime_` and queue as they
are.  With a positive interval `eventCD` returns once the fuel is large enough. -/
theorem C18_caught_up (t ex ey polarity : Nat) (s : ApproxReconstructor) :
    (∀ fuel s', eventCD fuel t ex ey polarity s = some s' →
      toInt64 t + s.timeOffset_ ≤ s'.nextFrameTime_ ∧
      (t < 2 ^ 63 → (t : Int) + s.timeOffset_ ≤ s'.nextFrameTime_) ∧
      ∀ (fuel2 t2 ex2 ey2 polarity2 : Nat),
        toInt64 t2 + s'.timeOffset_ ≤ toInt64 t + s.timeOffset_ →
        ∃ s'', eventCD fuel2 t2 ex2 ey2 polarity2 s' = some s'' ∧
          s''.frameHandler_ = s'.frameHandler_ ∧ s''.nextFrameTime_ = s'.nextFrameTime_ ∧
          s''.sliceTimes_ = s'.sliceTimes_) ∧
    (0 < s.sliceInterval_ → ∃ (N : Nat) (s' : ApproxReconstructor),
      ∀ fuel, N ≤ fuel → eventCD fuel t ex ey polarity s = some s') := by
  refine ⟨?_, fun hI => eventCD_returns t ex ey polarity s hI⟩
  intro fuel s' h
  obtain ⟨N, _, hr, _, hstop, _⟩ := eventCD_stop fuel t ex ey polarity s s' h
  have hnext : toInt64 t + s.timeOffset_ ≤ s'.nextFrameTime_ := by
    rw [hr.sched.2.2.2]
    exact hstop
  refine ⟨hnext, ?_, ?_⟩
  · intro ht
    rw [← toInt64_of_lt t ht]
    exact hnext
  · intro fuel2 t2 ex2 ey2 polarity2 h2
    exact ⟨_, eventCD_not_due fuel2 t2 ex2 ey2 polarity2 s' (le_trans h2 hnext), rfl, rfl, rfl⟩

/-- Witness for C18: interval 40, `nextFrameTime_` 1000; the event at 1045 leaves
`nextFrameTime_ = 1080 ≥ 1045`, and a following event at 1045 emits nothing. -/
theorem C18_caught_up_witness :
    ∃ s' : ApproxReconstructor,
      eventCD 2 1045 3 4 1
        { construct "image" 30 40 ⟨0⟩ 2 0 [] with nextFrameTime_ := 1000 } = some s' ∧
      toInt64 1045 + 0 ≤ s'.nextFrameTime_ ∧
      ∃ s'', eventCD 0 1045 5 6 0 s' = some s'' ∧ s''.frameHandler_ = s'.frameHandler_ := by
  have h : eventCD 2 1045 3 4 1
      { construct "image" 30 40 ⟨0⟩ 2 0 [] with nextFrameTime_ := 1000 } =
      some (frameStep^[2] { construct "image" 30 40 ⟨0⟩ 2 0 [] with
        nextFrameTime_ := 1000,
        simpleReconstructor_ := (SimpleImageReconstructor.mk [] []).event 1045 3 4 1 }) := rfl
  obtain ⟨h1, _, h3⟩ := (C18_caught_up 1045 3 4 1
    { construct "image" 30 40 ⟨0⟩ 2 0 [] with nextFrameTime_ := 1000 }).1 2 _ h
  obtain ⟨s'', h4, h5, _⟩ := h3 0 1045 5 6 0 (le_refl _)
  exact ⟨_, h, h1, s'', h4, h5⟩

/-- C19: periodic mode, interval `I > 0`, anchor `t0 ≥ 0`, and the event whose time
`(int64_t)t + timeOffset_` equals `t0`, handled right after `setFirstTime`.  If `t0` is a
multiple of `I`, `eventCD` emits no frame; otherwise it emits exactly one frame, stamped
`floor(t0 / I) * I`, which is strictly earlier than `t0`.  In both cases `nextFrameTime_`
afterwards is the smallest multiple of `I` that is `≥ t0`. -/
theorem C19_first_event (s0 : ApproxReconstructor) (t ex ey polarity : Nat)
    (hm : s0.useSliceInterval_ = true) (hI : 0 < s0.sliceInterval_) (h0 : 0 ≤ s0.t0_)
    (ht : toInt64 t + s0.timeOffset_ = s0.t0_) :
    ∃ s1 s' : ApproxReconstructor,
      (∀ fuel, setFirstTime fuel s0 = some s1) ∧
      (∀ fuel, 1 ≤ fuel → eventCD fuel t ex ey polarity s1 = some s') ∧
      (s0.sliceInterval_ ∣ s0.t0_ →
        s'.frameHandler_ = s0.frameHandler_ ∧ s'.nextFrameTime_ = s0.t0_) ∧
      (¬ s0.sliceInterval_ ∣ s0.t0_ →
        s'.frameHandler_.length = s0.frameHandler_.length + 1 ∧
        s'.stamps = s0.stamps ++ [s0.t0_ / s0.sliceInterval_ * s0.sliceInterval_] ∧
        s0.t0_ / s0.sliceInterval_ * s0.sliceInterval_ < s0.t0_ ∧
        s'.nextFrameTime_ = s0.t0_ / s0.sliceInterval_ * s0.sliceInterval_ + s0.sliceInterval_) ∧
      s0.sliceInterval_ ∣ s'.nextFrameTime_ ∧ s0.t0_ ≤ s'.nextFrameTime_ ∧
      s'.nextFrameTime_ < s0.t0_ + s0.sliceInterval_ := by
  have e : Int.tdiv s0.t0_ s0.sliceInterval_ = s0.t0_ / s0.sliceInterval_ :=
    Int.tdiv_eq_ediv h0 (le_of_lt hI)
  have hle := Int.ediv_mul_le s0.t0_ (ne_of_gt hI)
  have hlt := Int.lt_ediv_add_one_mul_self s0.t0_ hI
  have hset : ∀ fuel, setFirstTime fuel s0 =
      some { s0 with nextFrameTime_ := s0.t0_ / s0.sliceInterval_ * s0.sliceInterval_ } := by
    intro fuel
    simp [setFirstTime, hm, e]
  by_cases hd : s0.sliceInterval_ ∣ s0.t0_
  · have hn : s0.t0_ / s0.sliceInterval_ * s0.sliceInterval_ = s0.t0_ :=
      Int.ediv_mul_cancel hd
    refine ⟨_, _, hset, fun fuel _ => eventCD_not_due fuel t ex ey polarity _ ?_, ?_, ?_,
      ?_, ?_, ?_⟩
    · show toInt64 t + s0.timeOffset_ ≤ s0.t0_ / s0.sliceInterval_ * s0.sliceInterval_
      rw [ht, hn]
    · intro _
      exact ⟨rfl, hn⟩
    · intro h
      exact absurd hd h
    · exact Dvd.intro_left _ rfl
    · exact le_of_eq hn.symm
    · show s0.t0_ / s0.sliceInterval_ * s0.sliceInterval_ < s0.t0_ + s0.sliceInterval_
      rw [hn]
      omega
  · have hne : s0.t0_ / s0.sliceInterval_ * s0.sliceInterval_ ≠ s0.t0_ := by
      intro h
      exact hd (Dvd.intro_left _ h)
    have hbelow : s0.t0_ / s0.sliceInterval_ * s0.sliceInterval_ < s0.t0_ :=
      lt_of_le_of_ne hle hne
    have hsched : ∀ k, (setNextTime^[k]
        { s0 with
          nextFrameTime_ := s0.t0_ / s0.sliceInterval_ * s0.sliceInterval_,
          simpleReconstructor_ := s0.simpleReconstructor_.event t ex ey polarity }).nextFrameTime_
        = s0.t0_ / s0.sliceInterval_ * s0.sliceInterval_ + (k : Int) * s0.sliceInterval_ :=
      fun k => schedule_fallback k _ (Or.inl hm)
    have hrun : ∀ fuel, 1 ≤ fuel → eventCD fuel t ex ey polarity
        { s0 with nextFrameTime_ := s0.t0_ / s0.sliceInterval_ * s0.sliceInterval_ } =
        some (frameStep^[1] { s0 with
          nextFrameTime_ := s0.t0_ / s0.sliceInterval_ * s0.sliceInterval_,
          simpleReconstructor_ := s0.simpleReconstructor_.event t ex ey polarity }) := by
      intro fuel hf
      apply eventCDLoop_of_stop t _ 1 _ _ fuel hf
      · intro k hk
        have hk0 : k = 0 := by omega
        subst hk0
        rw [hsched]
        show _ < toInt64 t + s0.timeOffset_
        rw [ht]
        simpa using hbelow
      · rw [hsched]
        show toInt64 t + s0.timeOffset_ ≤ _
        rw [ht]
        have : (s0.t0_ / s0.sliceInterval_ + 1) * s0.sliceInterval_ =
            s0.t0_ / s0.sliceInterval_ * s0.sliceInterval_ + ((1 : Nat) : Int) * s0.sliceInterval_ := by
          push_cast; ring
        rw [← this]
        exact le_of_lt hlt
    have hnext : (frameStep^[1] { s0 with
          nextFrameTime_ := s0.t0_ / s0.sliceInterval_ * s0.sliceInterval_,
          simpleReconstructor_ :=
            s0.simpleReconstructor_.event t ex ey polarity }).nextFrameTime_ =
        s0.t0_ / s0.sliceInterval_ * s0.sliceInterval_ + s0.sliceInterval_ := by
      rw [(sameSchedule_iterate 1 _).2.2.2, hsched]
      simp
    refine ⟨_, _, hset, hrun, ?_, ?_, ?_, ?_, ?_⟩
    · intro h
      exact absurd h hd
    · intro _
      refine ⟨?_, ?_, hbelow, hnext⟩
      · rw [frameStep_iterate_frames]
        simp
      · rw [frameStep_iterate_stamps]
        rfl
    · rw [hnext]
      exact Dvd.dvd.add (Dvd.intro_left _ rfl) (dvd_refl _)
    · rw [hnext]
      have : (s0.t0_ / s0.sliceInterval_ + 1) * s0.sliceInterval_ =
          s0.t0_ / s0.sliceInterval_ * s0.sliceInterval_ + s0.sliceInterval_ := by ring
      omega
    · rw [hnext]
      omega

/-- Witness for C19: interval 40 and anchor 1010, not a multiple of 40: the first event
emits one frame, stamped 1000, and leaves `nextFrameTime_ = 1040`. -/
theorem C19_first_event_witness :
    ∃ s1 s' : ApproxReconstructor,
      setFirstTime 0 { construct "image" 30 40 ⟨0⟩ 2 0 [] with t0_ := 1010 } = some s1 ∧
      eventCD 1 1010 3 4 1 s1 = some s' ∧
      s'.stamps = [1000] ∧ s'.nextFrameTime_ = 1040 := by
  obtain ⟨s1, s', h1, h2, _, h4, _⟩ := C19_first_event
    { construct "image" 30 40 ⟨0⟩ 2 0 [] with t0_ := 1010 } 1010 3 4 1 rfl (by decide)
    (by decide) (by decide)
  obtain ⟨_, hst, _, hn⟩ := h4 (by decide)
  exact ⟨s1, s', h1 0, h2 1 (le_refl 1), hst, hn⟩

/-- With a positive interval `setFirstTime` returns once the fuel is large enough. -/
theorem setFirstTime_returns (s : ApproxReconstructor) (hI : 0 < s.sliceInterval_) :
    ∃ (N : Nat) (s' : ApproxReconstructor),
      ∀ fuel, N ≤ fuel → setFirstTime fuel s = some s' := by
  by_cases hm : s.useSliceInterval_ = true
  · refine ⟨0, { s with nextFrameTime_ := Int.tdiv s.t0_ s.sliceInterval_ * s.sliceInterval_ },
      fun fuel _ => ?_⟩
    unfold setFirstTime
    rw [if_pos hm]
  · have hI' : 0 < (setNextTime s).sliceInterval_ := by
      rw [(setNextTime_frame s).2.2.2.2.1]; exact hI
    obtain ⟨N, h1, h2⟩ := exists_stop (setNextTime s).t0_ _ (setNextTime s) hI' rfl
    refine ⟨N, setNextTime^[N] (setNextTime s), fun fuel hf => ?_⟩
    unfold setFirstTime
    rw [if_neg hm]
    exact setFirstTimeLoop_of_stop N fuel _ hf h1 h2

/-- C17: with a positive interval, whatever the queue holds (any length, any order),
whatever the anchor and the event timestamp, `setFirstTime` and `eventCD` both return
once the fuel is large enough, so their loops stop after finitely many iterations.  The
reason: in explicit-list mode every `setNextTime` on a non-empty queue shortens it by
one, and every other `setNextTime` adds the interval to `nextFrameTime_` and leaves the
queue alone. -/
theorem C17_termination (s : ApproxReconstructor) (hI : 0 < s.sliceInterval_) :
    (∃ (N : Nat) (s' : ApproxReconstructor),
      ∀ fuel, N ≤ fuel → setFirstTime fuel s = some s') ∧
    (∀ t ex ey polarity : Nat, ∃ (N : Nat) (s' : ApproxReconstructor),
      ∀ fuel, N ≤ fuel → eventCD fuel t ex ey polarity s = some s') ∧
    (∀ x : ApproxReconstructor, x.useSliceInterval_ = false → x.sliceTimes_ ≠ [] →
      (setNextTime x).sliceTimes_.length + 1 = x.sliceTimes_.length) ∧
    (∀ x : ApproxReconstructor, x.useSliceInterval_ = true ∨ x.sliceTimes_ = [] →
      (setNextTime x).nextFrameTime_ = x.nextFrameTime_ + x.sliceInterval_ ∧
      (setNextTime x).sliceTimes_ = x.sliceTimes_) := by
  refine ⟨setFirstTime_returns s hI, fun t ex ey polarity => eventCD_returns t ex ey polarity s hI,
    ?_, ?_⟩
  · intro x hx hq
    cases hxq : x.sliceTimes_ with
    | nil => exact absurd hxq hq
    | cons a q => rw [setNextTime_cons hx hxq]; simp
  · intro x hx
    rw [setNextTime_fallback hx]
    exact ⟨rfl, rfl⟩

/-- Witness for C17: an unordered queue `[2000, 500, 700]`, interval 300, anchor 1000
and an event at 3000; both calls return. -/
theorem C17_termination_witness :
    (∃ (N : Nat) (s' : ApproxReconstructor), ∀ fuel, N ≤ fuel →
      setFirstTime fuel
        { construct "image" 30 300 ⟨0⟩ 2 0 [2000, 500, 700] with t0_ := 1000 } = some s') ∧
    (∃ (N : Nat) (s' : ApproxReconstructor), ∀ fuel, N ≤ fuel →
      eventCD fuel 3000 1 2 1
        { construct "image" 30 300 ⟨0⟩ 2 0 [2000, 500, 700] with t0_ := 1000 } = some s') :=
  ⟨(C17_termination
      { construct "image" 30 300 ⟨0⟩ 2 0 [2000, 500, 700] with t0_ := 1000 } (by decide)).1,
    (C17_termination
      { construct "image" 30 300 ⟨0⟩ 2 0 [2000, 500, 700] with t0_ := 1000 }
      (by decide)).2.1 3000 1 2 1⟩

theorem frameStep_iterate_topic (k : Nat) (s : ApproxReconstructor) :
    (frameStep^[k] s).topic_ = s.topic_ := by
  induction k with
  | zero => rfl
  | succ k ih =>
    rw [Function.iterate_succ_apply']
    have h : ∀ x : ApproxReconstructor, (frameStep x).topic_ = x.topic_ := by
      intro x
      unfold frameStep
      rcases Bool.eq_false_or_eq_true (emitFrame x).useSliceInterval_ with hb | hb
      · rw [setNextTime_periodic hb]; rfl
      · cases hq : (emitFrame x).sliceTimes_ with
        | nil => rw [setNextTime_nil hb hq]; rfl
        | cons a q => rw [setNextTime_cons hb hq]; rfl
    exact (h _).trans ih

/-- C16: `eventCD` logs the event in the accumulator before its loop, so every frame that
a returning `eventCD` hands out was read out of the same accumulator state, the one that
already includes the triggering event.  With `getImage` any function of the accumulator
state (and of the buffer size and stride), all frames of the burst carry the same pixel
data; two frames of one burst differ at most in their stamp. -/
theorem C16_burst_content (t ex ey polarity : Nat) (s : ApproxReconstructor) :
    (∀ fuel s', eventCD fuel t ex ey polarity s = some s' →
      ∃ new : List Frame, s'.frameHandler_ = s.frameHandler_ ++ new ∧
        (∀ f ∈ new, f.image = s.simpleReconstructor_.event t ex ey polarity ∧
          f.image.events = s.simpleReconstructor_.events ++ [⟨t, ex, ey, polarity⟩]) ∧
        (∀ f ∈ new, ∀ g ∈ new, f = g.withStamp f.stamp) ∧
        (∀ (getImage : SimpleImageReconstructor → Nat → Nat → List Nat),
          ∀ f ∈ new, ∀ g ∈ new,
            getImage f.image f.dataSize f.stride = getImage g.image g.dataSize g.stride)) ∧
    (0 < s.sliceInterval_ → ∃ (N : Nat) (s' : ApproxReconstructor),
      ∀ fuel, N ≤ fuel → eventCD fuel t ex ey polarity s = some s') := by
  refine ⟨?_, fun hI => eventCD_returns t ex ey polarity s hI⟩
  intro fuel s' h
  obtain ⟨N, _, _, _, _, hf⟩ := eventCD_stop fuel t ex ey polarity s s' h
  have hform : ∀ k, makeFrame (frameStep^[k]
      { s with simpleReconstructor_ := s.simpleReconstructor_.event t ex ey polarity }) =
      (makeFrame
        { s with simpleReconstructor_ :=
            s.simpleReconstructor_.event t ex ey polarity }).withStamp
        (frameStep^[k] { s with simpleReconstructor_ :=
          s.simpleReconstructor_.event t ex ey polarity }).nextFrameTime_ := by
    intro k
    unfold makeFrame Frame.withStamp
    rw [(frameStep_iterate_frame k _).2.2.2.2.2, (frameStep_iterate_frame k _).2.1,
      frameStep_iterate_topic]
  have hall : ∀ f ∈ (List.range N).map (fun k => makeFrame (frameStep^[k]
      { s with simpleReconstructor_ := s.simpleReconstructor_.event t ex ey polarity })),
      ∃ n : Int, f = (makeFrame
        { s with simpleReconstructor_ :=
            s.simpleReconstructor_.event t ex ey polarity }).withStamp n := by
    intro f hfm
    obtain ⟨k, _, rfl⟩ := List.mem_map.1 hfm
    exact ⟨_, hform k⟩
  refine ⟨_, hf, ?_, ?_, ?_⟩
  · intro f hfm
    obtain ⟨n, rfl⟩ := hall f hfm
    exact ⟨rfl, rfl⟩
  · intro f hfm g hgm
    obtain ⟨n, rfl⟩ := hall f hfm
    obtain ⟨m, rfl⟩ := hall g hgm
    rfl
  · intro getImage f hfm g hgm
    obtain ⟨n, rfl⟩ := hall f hfm
    obtain ⟨m, rfl⟩ := hall g hgm
    rfl

/-- Witness for C16: interval 40, `nextFrameTime_` 1000, event at 1045: two frames, both
read out of the accumulator that holds the event. -/
theorem C16_burst_content_witness :
    ∃ new : List Frame,
      (frameStep^[2] { construct "image" 30 40 ⟨0⟩ 2 0 [] with
        nextFrameTime_ := 1000,
        simpleReconstructor_ :=
          (SimpleImageReconstructor.mk [] []).event 1045 3 4 1 }).frameHandler_ = [] ++ new ∧
      ∀ f ∈ new, f.image.events = [] ++ [⟨1045, 3, 4, 1⟩] := by
  have h : eventCD 2 1045 3 4 1
      { construct "image" 30 40 ⟨0⟩ 2 0 [] with nextFrameTime_ := 1000 } =
      some (frameStep^[2] { construct "image" 30 40 ⟨0⟩ 2 0 [] with
        nextFrameTime_ := 1000,
        simpleReconstructor_ := (SimpleImageReconstructor.mk [] []).event 1045 3 4 1 }) := rfl
  obtain ⟨new, h1, h2, _⟩ := (C16_burst_content 1045 3 4 1
    { construct "image" 30 40 ⟨0⟩ 2 0 [] with nextFrameTime_ := 1000 }).1 2 _ h
  exact ⟨new, h1, fun f hf => (h2 f hf).2⟩

/-- An advance keeps the schedule ascending, whatever state it starts from in
explicit-list mode with an ascending queue. -/
theorem scheduleAscending_setNextTime_of_sorted (x : ApproxReconstructor)
    (h : x.useSliceInterval_ = true ∨ x.sliceTimes_.Sorted (· ≤ ·)) :
    ScheduleAscending (setNextTime x) := by
  rcases Bool.eq_false_or_eq_true x.useSliceInterval_ with hb | hb
  · left
    rw [(setNextTime_frame x).2.2.2.2.2.1]
    exact hb
  · rcases h with h | h
    · rw [hb] at h; cases h
    · right
      cases hq : x.sliceTimes_ with
      | nil =>
        rw [setNextTime_nil hb hq]
        simp [hq]
      | cons a q =>
        rw [setNextTime_cons hb hq]
        rw [hq, List.sorted_cons] at h
        exact ⟨h.2, h.1⟩

/-- An advance from an ascending schedule with a non-negative interval does not go back
and keeps the schedule ascending. -/
theorem scheduleAscending_setNextTime (x : ApproxReconstructor) (h : ScheduleAscending x)
    (hI : 0 ≤ x.sliceInterval_) :
    x.nextFrameTime_ ≤ (setNextTime x).nextFrameTime_ ∧ ScheduleAscending (setNextTime x) := by
  refine ⟨?_, scheduleAscending_setNextTime_of_sorted x (h.imp id (fun h => h.1))⟩
  rcases Bool.eq_false_or_eq_true x.useSliceInterval_ with hb | hb
  · rw [setNextTime_periodic hb]
    simp only
    omega
  · cases hq : x.sliceTimes_ with
    | nil =>
      rw [setNextTime_nil hb hq]
      simp only
      omega
    | cons a q =>
      rw [setNextTime_cons hb hq]
      rcases h with h | h
      · rw [hb] at h; cases h
      · exact h.2 a (by rw [hq]; exact List.mem_cons_self _ _)

theorem scheduleAscending_congr {a b : ApproxReconstructor} (h : SameSchedule a b)
    (hb : ScheduleAscending b) : ScheduleAscending a := by
  obtain ⟨h1, _, h3, h4⟩ := h
  unfold ScheduleAscending
  rw [h1, h3, h4]
  exact hb

theorem scheduleAscending_iterate (k : Nat) (x : ApproxReconstructor)
    (h : ScheduleAscending x) (hI : 0 ≤ x.sliceInterval_) :
    ScheduleAscending (setNextTime^[k] x) ∧
      x.nextFrameTime_ ≤ (setNextTime^[k] x).nextFrameTime_ := by
  induction k with
  | zero => exact ⟨h, le_refl _⟩
  | succ k ih =>
    rw [Function.iterate_succ_apply']
    have hI' : 0 ≤ (setNextTime^[k] x).sliceInterval_ := by
      rw [(setNextTime_iterate_mode k x).1]; exact hI
    obtain ⟨h1, h2⟩ := scheduleAscending_setNextTime _ ih.1 hI'
    exact ⟨h2, le_trans ih.2 h1⟩

/-- C13: periodic mode, or explicit-list mode with the queue in ascending order, and
interval `I > 0`.  `setFirstTime` returns, and from then on `nextFrameTime_` never
decreases: the schedule is ascending in every state reached (an invariant kept by
`setNextTime`, by `emitFrame` and by the accumulator update of `eventCD`), every
`setNextTime` on such a state leaves `nextFrameTime_ ≥` its previous value, and a run of
callbacks performs the first `M` advances of that schedule. -/
theorem C13_schedule_monotone (s0 : ApproxReconstructor) (hI : 0 < s0.sliceInterval_)
    (hasc : s0.useSliceInterval_ = true ∨ s0.sliceTimes_.Sorted (· ≤ ·)) :
    ∃ (N : Nat) (s1 : ApproxReconstructor),
      (∀ fuel, N ≤ fuel → setFirstTime fuel s0 = some s1) ∧
      ScheduleAscending s1 ∧ s1.sliceInterval_ = s0.sliceInterval_ ∧
      (∀ x : ApproxReconstructor, ScheduleAscending x → x.sliceInterval_ = s0.sliceInterval_ →
        x.nextFrameTime_ ≤ (setNextTime x).nextFrameTime_ ∧
        ScheduleAscending (setNextTime x) ∧ ScheduleAscending (emitFrame x) ∧
        ∀ t ex ey polarity : Nat, ScheduleAscending
          { x with simpleReconstructor_ := x.simpleReconstructor_.event t ex ey polarity }) ∧
      (∀ k : Nat, (setNextTime^[k] s1).nextFrameTime_ ≤
        (setNextTime^[k + 1] s1).nextFrameTime_) ∧
      (∀ fuel cbs s', dispatchAll fuel cbs s1 = some s' →
        s1.nextFrameTime_ ≤ s'.nextFrameTime_ ∧ ScheduleAscending s' ∧
        ∃ M, SameSchedule s' (setNextTime^[M] s1)) := by
  obtain ⟨N, s1, hset⟩ := setFirstTime_returns s0 hI
  have hs1 : ScheduleAscending s1 ∧ s1.sliceInterval_ = s0.sliceInterval_ := by
    have h := hset N (le_refl N)
    unfold setFirstTime at h
    by_cases hm : s0.useSliceInterval_ = true
    · rw [if_pos hm] at h
      rw [← Option.some.inj h]
      exact ⟨Or.inl hm, rfl⟩
    · rw [if_neg hm] at h
      obtain ⟨K, _, hs, _, _⟩ := setFirstTimeLoop_some N _ s1 h
      have hI1 : (setNextTime s0).sliceInterval_ = s0.sliceInterval_ :=
        (setNextTime_frame s0).2.2.2.2.1
      rw [hs]
      refine ⟨(scheduleAscending_iterate K _
        (scheduleAscending_setNextTime_of_sorted s0 hasc) (by rw [hI1]; exact le_of_lt hI)).1, ?_⟩
      rw [(setNextTime_iterate_mode K _).1, hI1]
  have hI1 : 0 ≤ s1.sliceInterval_ := by rw [hs1.2]; exact le_of_lt hI
  refine ⟨N, s1, hset, hs1.1, hs1.2, ?_, ?_, ?_⟩
  · intro x hx hxI
    obtain ⟨h1, h2⟩ := scheduleAscending_setNextTime x hx (by rw [hxI]; exact le_of_lt hI)
    exact ⟨h1, h2, scheduleAscending_congr (sameSchedule_emitFrame x) hx,
      fun t ex ey polarity => scheduleAscending_congr ⟨rfl, rfl, rfl, rfl⟩ hx⟩
  · intro k
    rw [Function.iterate_succ_apply']
    have hk := scheduleAscending_iterate k s1 hs1.1 hI1
    exact (scheduleAscending_setNextTime _ hk.1
      (by rw [(setNextTime_iterate_mode k s1).1]; exact hI1)).1
  · intro fuel cbs s' h
    obtain ⟨M, hM⟩ := dispatchAll_runsTo fuel cbs s1 s' h
    have hk := scheduleAscending_iterate M s1 hs1.1 hI1
    refine ⟨?_, scheduleAscending_congr hM.sched hk.1, M, hM.sched⟩
    rw [hM.sched.2.2.2]
    exact hk.2

/-- Witness for C13: the ascending queue `[500, 1500, 2500]`, anchor 1000, interval 1000. -/
theorem C13_schedule_monotone_witness :
    ∃ (N : Nat) (s1 : ApproxReconstructor),
      (∀ fuel, N ≤ fuel → setFirstTime fuel
        { construct "image" 30 1000 ⟨0⟩ 2 0 [500, 1500, 2500] with t0_ := 1000 } = some s1) ∧
      ScheduleAscending s1 ∧
      (∀ k : Nat, (setNextTime^[k] s1).nextFrameTime_ ≤
        (setNextTime^[k + 1] s1).nextFrameTime_) := by
  obtain ⟨N, s1, h1, h2, _, _, h5, _⟩ := C13_schedule_monotone
    { construct "image" 30 1000 ⟨0⟩ 2 0 [500, 1500, 2500] with t0_ := 1000 } (by decide)
    (Or.inr (by decide))
  exact ⟨N, s1, h1, h2, h5⟩

/-- The queue after `addFrameTimes`: the given times appended in the given order. -/
theorem addFrameTimes_sliceTimes (ts : List Int) :
    ∀ s : ApproxReconstructor, (addFrameTimes s ts).sliceTimes_ = s.sliceTimes_ ++ ts ∧
      (addFrameTimes s ts).useSliceInterval_ = s.useSliceInterval_ := by
  induction ts with
  | nil => intro s; simp [addFrameTimes]
  | cons a ts ih =>
    intro s
    have h := ih (addFrameTime s a)
    simp only [addFrameTimes, List.foldl_cons] at h ⊢
    rw [h.1, h.2]
    simp [addFrameTime]

/-- C20: the constructor puts the supplied frame times into the queue exactly as given,
in the given order, without sorting or rejecting anything.  For the frame times
`[2000, 500]` with anchor 1000 (default interval 40 ms), `setFirstTime` schedules 2000
and leaves 500 queued, and the event at time 2001 emits a frame stamped 2000 followed by
a frame stamped 500: the schedule goes backwards and a supplied time below the anchor
produces a frame. -/
theorem C20_unordered_list :
    (∀ (topic : String) (cutoff I : Int) (fillRatio : Double) (tileSize offset : Int)
        (L : List Int),
      (construct topic cutoff I fillRatio tileSize offset L).sliceTimes_ = L ∧
      (construct topic cutoff I fillRatio tileSize offset L).useSliceInterval_ = L.isEmpty) ∧
    Option.map (fun s => (s.nextFrameTime_, s.sliceTimes_))
      (setFirstTime 0 { construct "image" 30 40000000 ⟨0⟩ 2 0 [2000, 500] with t0_ := 1000 })
      = some (2000, [500]) ∧
    Option.map ApproxReconstructor.stamps
      ((setFirstTime 0
        { construct "image" 30 40000000 ⟨0⟩ 2 0 [2000, 500] with t0_ := 1000 }).bind
          (eventCD 2 2001 0 0 1)) = some [2000, 500] ∧
    (500 : Int) < 1000 := by
  refine ⟨?_, by decide, by decide, by decide⟩
  intro topic cutoff I fillRatio tileSize offset L
  unfold construct
  cases L with
  | nil => simp
  | cons a L =>
    simp only [List.length_cons, gt_iff_lt, Nat.zero_lt_succ, if_true, List.isEmpty_cons]
    exact ⟨by simpa using (addFrameTimes_sliceTimes (a :: L) _).1,
      (addFrameTimes_sliceTimes (a :: L) _).2⟩

/-- The fields that repeated `setNextTime` leaves alone. -/
theorem setNextTime_iterate_frame (k : Nat) (s : ApproxReconstructor) :
    (setNextTime^[k] s).frameHandler_ = s.frameHandler_ ∧
    (setNextTime^[k] s).timeOffset_ = s.timeOffset_ ∧
    (setNextTime^[k] s).simpleReconstructor_ = s.simpleReconstructor_ ∧
    (setNextTime^[k] s).t0_ = s.t0_ ∧
    (setNextTime^[k] s).sliceInterval_ = s.sliceInterval_ ∧
    (setNextTime^[k] s).useSliceInterval_ = s.useSliceInterval_ ∧
    (setNextTime^[k] s).imageMsgTemplate_ = s.imageMsgTemplate_ := by
  induction k with
  | zero => simp
  | succ k ih =>
    rw [Function.iterate_succ_apply']
    obtain ⟨h1, h2, h3, h4, h5, h6, h7⟩ := setNextTime_frame (setNextTime^[k] s)
    obtain ⟨i1, i2, i3, i4, i5, i6, i7⟩ := ih
    exact ⟨h1.trans i1, h2.trans i2, h3.trans i3, h4.trans i4, h5.trans i5, h6.trans i6,
      h7.trans i7⟩

/-- The fields that a returning `setFirstTime` leaves alone. -/
theorem setFirstTime_frame (fuel : Nat) (s s' : ApproxReconstructor)
    (h : setFirstTime fuel s = some s') :
    s'.frameHandler_ = s.frameHandler_ ∧ s'.timeOffset_ = s.timeOffset_ ∧
    s'.simpleReconstructor_ = s.simpleReconstructor_ ∧ s'.t0_ = s.t0_ ∧
    s'.sliceInterval_ = s.sliceInterval_ ∧ s'.useSliceInterval_ = s.useSliceInterval_ ∧
    s'.imageMsgTemplate_ = s.imageMsgTemplate_ := by
  unfold setFirstTime at h
  by_cases hm : s.useSliceInterval_ = true
  · rw [if_pos hm] at h
    rw [← Option.some.inj h]
    exact ⟨rfl, rfl, rfl, rfl, rfl, rfl, rfl⟩
  · rw [if_neg hm] at h
    obtain ⟨K, _, hs, _, _⟩ := setFirstTimeLoop_some fuel _ s' h
    have := setNextTime_iterate_frame (K + 1) s
    rw [Function.iterate_succ_apply] at this
    rw [hs]
    exact this

theorem frameStep_iterate_decoder (k : Nat) (s : ApproxReconstructor) :
    (frameStep^[k] s).decoder_ = s.decoder_ := by
  induction k with
  | zero => rfl
  | succ k ih =>
    rw [Function.iterate_succ_apply']
    have h : ∀ x : ApproxReconstructor, (frameStep x).decoder_ = x.decoder_ := by
      intro x
      unfold frameStep
      rcases Bool.eq_false_or_eq_true (emitFrame x).useSliceInterval_ with hb | hb
      · rw [setNextTime_periodic hb]; rfl
      · cases hq : (emitFrame x).sliceTimes_ with
        | nil => rw [setNextTime_nil hb hq]; rfl
        | cons a q => rw [setNextTime_cons hb hq]; rfl
    exact (h _).trans ih

/-- A run of callbacks leaves the decoder pointer alone. -/
theorem dispatchAll_decoder (fuel : Nat) :
    ∀ (cbs : List Callback) (s s' : ApproxReconstructor), dispatchAll fuel cbs s = some s' →
      s'.decoder_ = s.decoder_ := by
  intro cbs
  induction cbs with
  | nil =>
    intro s s' h
    simp only [dispatchAll, Option.some.injEq] at h
    rw [← h]
  | cons cb cbs ih =>
    intro s s' h
    rw [dispatchAll] at h
    cases hd : dispatch fuel cb s with
    | none => rw [hd] at h; cases h
    | some s1 =>
      rw [hd] at h
      have h1 : s1.decoder_ = s.decoder_ := by
        cases cb with
        | eventCD t ex ey polarity =>
          obtain ⟨N, _, hs, _, _⟩ := eventCDLoop_some t fuel _ s1 hd
          rw [hs, frameStep_iterate_decoder]
        | eventExtTrigger t edge id =>
          simp only [dispatch, Option.some.injEq] at hd
          rw [← hd]
        | finished =>
          simp only [dispatch, Option.some.injEq] at hd
          rw [← hd]
        | rawData bytes =>
          simp only [dispatch, Option.some.injEq] at hd
          rw [← hd]
      exact (ih s1 s' h).trans h1

/-- A `decode` call that returns: the decoder was there, and the callbacks ran from the
state with the decoder history extended. -/
theorem decodeMsg_ok (fuel : Nat) (msg : EventArray) (s s' : ApproxReconstructor)
    (h : decodeMsg fuel msg s = .ok s') :
    ∃ di : DecoderInst, s.decoder_ = some di ∧
      dispatchAll fuel (di.codec.decode di.history msg.events)
        { s with decoder_ := some { di with history := di.history ++ [msg.events] } }
        = some s' := by
  unfold decodeMsg at h
  cases hd : s.decoder_ with
  | none => rw [hd] at h; simp at h
  | some di =>
    rw [hd] at h
    simp only at h
    cases hr : dispatchAll fuel (di.codec.decode di.history msg.events)
        { s with decoder_ := some { di with history := di.history ++ [msg.events] } } with
    | none => rw [hr] at h; simp at h
    | some s2 =>
      rw [hr] at h
      simp only [Outcome.ok.injEq] at h
      exact ⟨di, rfl, by rw [hr, h]⟩

/-- What a returning `decode` call leaves alone, and what it keeps. -/
theorem decodeMsg_frame (fuel : Nat) (msg : EventArray) (s s' : ApproxReconstructor)
    (h : decodeMsg fuel msg s = .ok s') :
    s'.t0_ = s.t0_ ∧ s'.simpleReconstructor_.inits = s.simpleReconstructor_.inits ∧
    s'.imageMsgTemplate_ = s.imageMsgTemplate_ ∧ s'.timeOffset_ = s.timeOffset_ ∧
    s'.sliceInterval_ = s.sliceInterval_ ∧ s'.decoder_.isSome = true ∧
    ∃ M, SameSchedule s' (setNextTime^[M] s) := by
  obtain ⟨di, _, hrun⟩ := decodeMsg_ok fuel msg s s' h
  obtain ⟨M, hM⟩ := dispatchAll_runsTo fuel _ _ s' hrun
  have hdec := dispatchAll_decoder fuel _ _ s' hrun
  have hsame : SameSchedule
      { s with decoder_ := some { di with history := di.history ++ [msg.events] } } s :=
    ⟨rfl, rfl, rfl, rfl⟩
  have hsch := sameSchedule_trans hM.sched (sameSchedule_setNextTime_iterate M hsame)
  refine ⟨hM.t0, hM.inits, hM.template, hM.offset, ?_, ?_, M, hsch⟩
  · rw [hsch.2.1, (setNextTime_iterate_mode M s).1]
  · rw [hdec]; rfl

/-- A call of `processMsg` on an object whose template height is set only decodes. -/
theorem processMsg_ready (ext : Externals) (fuel : Nat) (msg : EventArray)
    (s : ApproxReconstructor) (h : s.imageMsgTemplate_.height ≠ 0) :
    processMsg ext fuel msg s = decodeMsg fuel msg s := by
  unfold processMsg
  rw [if_neg h]

/-- With a decoder in place and a positive interval a `decode` call returns once the
fuel is large enough. -/
theorem decodeMsg_returns (msg : EventArray) (s : ApproxReconstructor)
    (hd : s.decoder_.isSome = true) (hI : 0 < s.sliceInterval_) :
    ∃ (N : Nat) (s' : ApproxReconstructor), ∀ fuel, N ≤ fuel → decodeMsg fuel msg s = .ok s' := by
  cases hdi : s.decoder_ with
  | none => rw [hdi] at hd; cases hd
  | some di =>
    obtain ⟨N, s', h⟩ := dispatchAll_returns (di.codec.decode di.history msg.events)
      { s with decoder_ := some { di with history := di.history ++ [msg.events] } } hI
    refine ⟨N, s', fun fuel hf => ?_⟩
    unfold decodeMsg
    rw [hdi]
    simp only
    rw [h fuel hf]

/-- The first call of `processMsg`, with both factories returning a decoder: the template
and the anchor are set, then `setFirstTime`, the accumulator initialisation and the
decoder assignment run, and then the buffer is decoded. -/
theorem processMsg_first (ext : Externals) (fuel : Nat) (m : EventArray)
    (s0 : ApproxReconstructor) (fd d : Decoder) (h0 : s0.imageMsgTemplate_.height = 0)
    (hfd : ext.firstFactory m.encoding m.width m.height = some fd)
    (hd : ext.decoderFactory m.encoding m.width m.height = some d) :
    processMsg ext fuel m s0 =
      match setFirstTime fuel
        { s0 with
          imageMsgTemplate_ := ⟨m.header, m.height, m.width, "mono8", ext.isBigEndian, m.width⟩,
          t0_ := (FirstMsgProcessor.fresh.dispatchAll
            (fd.decode [] m.events)).getFirstTimeStamp + s0.timeOffset_ } with
      | none => Outcome.outOfFuel
      | some s3 => decodeMsg fuel m
          { s3 with
            simpleReconstructor_ := s3.simpleReconstructor_.initCall
              ⟨m.width, m.height, s3.cutoffNumEvents_.natAbs % 2 ^ 32, s3.tileSize_,
                s3.fillRatio_⟩,
            decoder_ := some ⟨d, []⟩ } := by
  unfold processMsg
  rw [if_pos h0]
  simp only [hfd, hd, Option.map_some']


/-- The configuration fields that repeated `setNextTime` leaves alone. -/
theorem setNextTime_iterate_config (k : Nat) (s : ApproxReconstructor) :
    (setNextTime^[k] s).cutoffNumEvents_ = s.cutoffNumEvents_ ∧
    (setNextTime^[k] s).tileSize_ = s.tileSize_ ∧
    (setNextTime^[k] s).fillRatio_ = s.fillRatio_ := by
  induction k with
  | zero => exact ⟨rfl, rfl, rfl⟩
  | succ n ih =>
    rw [Function.iterate_succ_apply']
    have hstep : ∀ y : ApproxReconstructor,
        (setNextTime y).cutoffNumEvents_ = y.cutoffNumEvents_ ∧
        (setNextTime y).tileSize_ = y.tileSize_ ∧
        (setNextTime y).fillRatio_ = y.fillRatio_ := by
      intro y
      rcases Bool.eq_false_or_eq_true y.useSliceInterval_ with hb | hb
      · rw [setNextTime_periodic hb]; exact ⟨rfl, rfl, rfl⟩
      · cases hq : y.sliceTimes_ with
        | nil => rw [setNextTime_nil hb hq]; exact ⟨rfl, rfl, rfl⟩
        | cons a q => rw [setNextTime_cons hb hq]; exact ⟨rfl, rfl, rfl⟩
    obtain ⟨a1, a2, a3⟩ := hstep (setNextTime^[n] s)
    exact ⟨a1.trans ih.1, a2.trans ih.2.1, a3.trans ih.2.2⟩

/-- The configuration fields that a returning `setFirstTime` leaves alone. -/
theorem setFirstTime_config (fuel : Nat) (s s' : ApproxReconstructor)
    (h : setFirstTime fuel s = some s') :
    s'.cutoffNumEvents_ = s.cutoffNumEvents_ ∧ s'.tileSize_ = s.tileSize_ ∧
    s'.fillRatio_ = s.fillRatio_ := by
  unfold setFirstTime at h
  by_cases hm : s.useSliceInterval_ = true
  · rw [if_pos hm] at h
    rw [← Option.some.inj h]
    exact ⟨rfl, rfl, rfl⟩
  · rw [if_neg hm] at h
    obtain ⟨K, _, hs, _, _⟩ := setFirstTimeLoop_some fuel _ s' h
    have := setNextTime_iterate_config (K + 1) s
    rw [Function.iterate_succ_apply] at this
    rw [hs]
    exact this

/-- What a returning first call of `processMsg` leaves behind. -/
theorem processMsg_first_ok (ext : Externals) (fuel : Nat) (m : EventArray)
    (s0 s1 : ApproxReconstructor) (fd d : Decoder) (h0 : s0.imageMsgTemplate_.height = 0)
    (hfd : ext.firstFactory m.encoding m.width m.height = some fd)
    (hd : ext.decoderFactory m.encoding m.width m.height = some d)
    (h : processMsg ext fuel m s0 = .ok s1) :
    s1.t0_ = (FirstMsgProcessor.fresh.dispatchAll
        (fd.decode [] m.events)).getFirstTimeStamp + s0.timeOffset_ ∧
    s1.imageMsgTemplate_.height = m.height ∧
    s1.simpleReconstructor_.inits = s0.simpleReconstructor_.inits ++
      [⟨m.width, m.height, s0.cutoffNumEvents_.natAbs % 2 ^ 32, s0.tileSize_, s0.fillRatio_⟩] ∧
    s1.sliceInterval_ = s0.sliceInterval_ ∧ s1.decoder_.isSome = true := by
  rw [processMsg_first ext fuel m s0 fd d h0 hfd hd] at h
  split at h
  · cases h
  · rename_i s3 hs3
    obtain ⟨_, _, h3, h4, h5, _, h7⟩ := setFirstTime_frame fuel _ s3 hs3
    obtain ⟨g1, g2, g3, _, g5, g6, _⟩ := decodeMsg_frame fuel m _ s1 h
    refine ⟨?_, ?_, ?_, ?_, g6⟩
    · rw [g1]; exact h4
    · rw [g3]
      show s3.imageMsgTemplate_.height = m.height
      rw [h7]
    · rw [g2]
      show (s3.simpleReconstructor_.initCall _).inits = _
      unfold SimpleImageReconstructor.initCall
      rw [h3]
      obtain ⟨e1, e2, e3⟩ := setFirstTime_config fuel _ s3 hs3
      simp only [e1, e2, e3]
    · rw [g5]; exact h5

/-- With both factories returning a decoder and a positive interval, the first call of
`processMsg` returns once the fuel is large enough. -/
theorem processMsg_first_returns (ext : Externals) (m : EventArray)
    (s0 : ApproxReconstructor) (fd d : Decoder) (h0 : s0.imageMsgTemplate_.height = 0)
    (hfd : ext.firstFactory m.encoding m.width m.height = some fd)
    (hd : ext.decoderFactory m.encoding m.width m.height = some d)
    (hI : 0 < s0.sliceInterval_) :
    ∃ (N : Nat) (s1 : ApproxReconstructor),
      ∀ fuel, N ≤ fuel → processMsg ext fuel m s0 = .ok s1 := by
  obtain ⟨N1, s3, h3⟩ := setFirstTime_returns
    { s0 with
      imageMsgTemplate_ := ⟨m.header, m.height, m.width, "mono8", ext.isBigEndian, m.width⟩,
      t0_ := (FirstMsgProcessor.fresh.dispatchAll
        (fd.decode [] m.events)).getFirstTimeStamp + s0.timeOffset_ } hI
  have hI3 : s3.sliceInterval_ = s0.sliceInterval_ :=
    (setFirstTime_frame N1 _ s3 (h3 N1 (le_refl _))).2.2.2.2.1
  obtain ⟨N2, s1, h1⟩ := decodeMsg_returns m
    { s3 with
      simpleReconstructor_ := s3.simpleReconstructor_.initCall
        ⟨m.width, m.height, s3.cutoffNumEvents_.natAbs % 2 ^ 32, s3.tileSize_, s3.fillRatio_⟩,
      decoder_ := some ⟨d, []⟩ } rfl (by show 0 < s3.sliceInterval_; rw [hI3]; exact hI)
  refine ⟨max N1 N2, s1, fun fuel hf => ?_⟩
  rw [processMsg_first ext fuel m s0 fd d h0 hfd hd, h3 fuel (le_trans (le_max_left _ _) hf)]
  exact h1 fuel (le_trans (le_max_right _ _) hf)

/-- From an object that is set up (template height set, decoder in place, positive
interval), every sequence of `processMsg` calls returns once the fuel is large enough, and
a returning sequence leaves the anchor, the template and the list of accumulator
initialisations as they were. -/
theorem processMsgs_ready (ext : Externals) :
    ∀ (msgs : List EventArray) (s : ApproxReconstructor),
      s.imageMsgTemplate_.height ≠ 0 →
      (∀ fuel s', processMsgs ext fuel msgs s = .ok s' →
        s'.t0_ = s.t0_ ∧ s'.simpleReconstructor_.inits = s.simpleReconstructor_.inits ∧
        s'.imageMsgTemplate_ = s.imageMsgTemplate_) ∧
      (s.decoder_.isSome = true → 0 < s.sliceInterval_ →
        ∃ (N : Nat) (s' : ApproxReconstructor),
          ∀ fuel, N ≤ fuel → processMsgs ext fuel msgs s = .ok s') := by
  intro msgs
  induction msgs with
  | nil =>
    intro s _
    refine ⟨?_, fun _ _ => ⟨0, s, fun _ _ => rfl⟩⟩
    intro fuel s' h
    simp only [processMsgs, Outcome.ok.injEq] at h
    rw [← h]
    exact ⟨rfl, rfl, rfl⟩
  | cons msg msgs ih =>
    intro s hh
    constructor
    · intro fuel s' h
      rw [processMsgs] at h
      cases hp : processMsg ext fuel msg s with
      | ok s1 =>
        rw [hp] at h
        simp only at h
        rw [processMsg_ready ext fuel msg s hh] at hp
        obtain ⟨g1, g2, g3, _⟩ := decodeMsg_frame fuel msg s s1 hp
        obtain ⟨i1, i2, i3⟩ := (ih s1 (by rw [g3]; exact hh)).1 fuel s' h
        exact ⟨i1.trans g1, i2.trans g2, i3.trans g3⟩
      | runtime_error what s1 => rw [hp] at h; simp at h
      | nullDecoder s1 => rw [hp] at h; simp at h
      | outOfFuel => rw [hp] at h; simp at h
    · intro hd hI
      obtain ⟨N1, s1, h1⟩ := decodeMsg_returns msg s hd hI
      obtain ⟨_, _, g3, _, g5, g6, _⟩ := decodeMsg_frame N1 msg s s1 (h1 N1 (le_refl _))
      obtain ⟨N2, s', h2⟩ := (ih s1 (by rw [g3]; exact hh)).2 g6 (by rw [g5]; exact hI)
      refine ⟨max N1 N2, s', fun fuel hf => ?_⟩
      rw [processMsgs, processMsg_ready ext fuel msg s hh,
        h1 fuel (le_trans (le_max_left _ _) hf)]
      exact h2 fuel (le_trans (le_max_right _ _) hf)

/-- C11: a sequence of buffers handed to `processMsg` on a fresh object (template height
0), the first buffer with a non-zero height and an encoding for which both factories
return a decoder.  After the first call `getT0` is the first timestamp that the
first-message processor reports for that buffer plus `timeOffset_`, and the accumulator
has been initialised once.  A later call only decodes (the bootstrap branch with
`setFirstTime` and `initialize` is not entered again) and leaves `t0_`, the template and
the list of accumulator initialisations unchanged; so after the whole sequence `getT0`
still has the value of the first call and the accumulator was initialised exactly once.
With a positive interval the sequence of calls returns once the fuel is large enough. -/
theorem C11_anchor_once (ext : Externals) (s0 : ApproxReconstructor) (m : EventArray)
    (rest : List EventArray) (fd d : Decoder) (h0 : s0.imageMsgTemplate_.height = 0)
    (hh : m.height ≠ 0)
    (hfd : ext.firstFactory m.encoding m.width m.height = some fd)
    (hd : ext.decoderFactory m.encoding m.width m.height = some d) :
    (∀ fuel s1, processMsg ext fuel m s0 = .ok s1 →
      s1.getT0 = (FirstMsgProcessor.fresh.dispatchAll
        (fd.decode [] m.events)).getFirstTimeStamp + s0.timeOffset_ ∧
      s1.imageMsgTemplate_.height = m.height ∧
      s1.simpleReconstructor_.inits = s0.simpleReconstructor_.inits ++
        [⟨m.width, m.height, s0.cutoffNumEvents_.natAbs % 2 ^ 32, s0.tileSize_,
          s0.fillRatio_⟩]) ∧
    (∀ (s : ApproxReconstructor) (fuel : Nat) (msg : EventArray) (s' : ApproxReconstructor),
      s.imageMsgTemplate_.height ≠ 0 → processMsg ext fuel msg s = .ok s' →
        processMsg ext fuel msg s = decodeMsg fuel msg s ∧
        s'.getT0 = s.getT0 ∧
        s'.simpleReconstructor_.inits = s.simpleReconstructor_.inits ∧
        s'.imageMsgTemplate_ = s.imageMsgTemplate_ ∧
        ∃ M, SameSchedule s' (setNextTime^[M] s)) ∧
    (∀ fuel s', processMsgs ext fuel (m :: rest) s0 = .ok s' →
      s'.getT0 = (FirstMsgProcessor.fresh.dispatchAll
        (fd.decode [] m.events)).getFirstTimeStamp + s0.timeOffset_ ∧
      s'.simpleReconstructor_.inits = s0.simpleReconstructor_.inits ++
        [⟨m.width, m.height, s0.cutoffNumEvents_.natAbs % 2 ^ 32, s0.tileSize_,
          s0.fillRatio_⟩]) ∧
    (0 < s0.sliceInterval_ → ∃ (N : Nat) (s' : ApproxReconstructor),
      ∀ fuel, N ≤ fuel → processMsgs ext fuel (m :: rest) s0 = .ok s') := by
  refine ⟨?_, ?_, ?_, ?_⟩
  · intro fuel s1 h
    obtain ⟨a, b, c, _⟩ := processMsg_first_ok ext fuel m s0 s1 fd d h0 hfd hd h
    exact ⟨a, b, c⟩
  · intro s fuel msg s' hs h
    have e := processMsg_ready ext fuel msg s hs
    rw [e] at h
    obtain ⟨g1, g2, g3, _, _, _, g7⟩ := decodeMsg_frame fuel msg s s' h
    exact ⟨e, g1, g2, g3, g7⟩
  · intro fuel s' h
    rw [processMsgs] at h
    cases hp : processMsg ext fuel m s0 with
    | ok s1 =>
      rw [hp] at h
      simp only at h
      obtain ⟨a, b, c, _⟩ := processMsg_first_ok ext fuel m s0 s1 fd d h0 hfd hd hp
      obtain ⟨i1, i2, _⟩ := (processMsgs_ready ext rest s1 (by rw [b]; exact hh)).1 fuel s' h
      exact ⟨i1.trans a, i2.trans c⟩
    | runtime_error what s1 => rw [hp] at h; simp at h
    | nullDecoder s1 => rw [hp] at h; simp at h
    | outOfFuel => rw [hp] at h; simp at h
  · intro hI
    obtain ⟨N1, s1, h1⟩ := processMsg_first_returns ext m s0 fd d h0 hfd hd hI
    obtain ⟨_, b, _, e, f⟩ := processMsg_first_ok ext N1 m s0 s1 fd d h0 hfd hd
      (h1 N1 (le_refl _))
    obtain ⟨N2, s', h2⟩ := (processMsgs_ready ext rest s1 (by rw [b]; exact hh)).2 f
      (by rw [e]; exact hI)
    refine ⟨max N1 N2, s', fun fuel hf => ?_⟩
    rw [processMsgs, h1 fuel (le_trans (le_max_left _ _) hf)]
    exact h2 fuel (le_trans (le_max_right _ _) hf)

/-- Witness for C11: two buffers with encoding "evt3", first event at 100, time offset 7:
the anchor is 107 after both calls and the accumulator was initialised once. -/
theorem C11_anchor_once_witness :
    ∃ s' : ApproxReconstructor,
      processMsgs ⟨exampleFactory, exampleFactory, false⟩ 5
        [⟨⟨"cam", 0⟩, 640, 480, "evt3", [100, 150]⟩, ⟨⟨"cam", 1⟩, 640, 480, "evt3", [200, 260]⟩]
        (construct "image" 30 40 ⟨0⟩ 2 7 []) = .ok s' ∧
      s'.getT0 = 107 ∧
      s'.simpleReconstructor_.inits = [⟨640, 480, 30, 2, ⟨0⟩⟩] := by
  refine ⟨_, rfl, ?_⟩
  exact (C11_anchor_once ⟨exampleFactory, exampleFactory, false⟩
    (construct "image" 30 40 ⟨0⟩ 2 7 []) ⟨⟨"cam", 0⟩, 640, 480, "evt3", [100, 150]⟩
    [⟨⟨"cam", 1⟩, 640, 480, "evt3", [200, 260]⟩] exampleDecoder exampleDecoder rfl
    (by decide) rfl rfl).2.2.1 5 _ rfl

/-! ## The model of `double` arithmetic -/

theorem log2Fuel_spec : ∀ (fuel n : Nat), 0 < n → n ≤ fuel →
    2 ^ Float64.log2Fuel fuel n ≤ n ∧ n < 2 ^ (Float64.log2Fuel fuel n + 1) := by
  intro fuel
  induction fuel with
  | zero => intro n h0 h; omega
  | succ fuel ih =>
    intro n h0 h
    unfold Float64.log2Fuel
    by_cases h2 : n < 2
    · rw [if_pos h2]
      have : n = 1 := by omega
      subst this
      simp
    · rw [if_neg h2]
      obtain ⟨a, b⟩ := ih (n / 2) (by omega) (by omega)
      constructor
      · rw [pow_succ]
        omega
      · rw [pow_succ]
        omega

/-- The leading-bit position brackets a positive number between two powers of 2. -/
theorem ilog2_spec (n : Nat) (h : 0 < n) :
    2 ^ Float64.ilog2 n ≤ n ∧ n < 2 ^ (Float64.ilog2 n + 1) :=
  log2Fuel_spec n n h (le_refl n)

/-- Rounding to nearest moves a fraction by at most one half. -/
theorem roundHalfEven_spec (num den : Nat) (hd : 0 < den) :
    2 * (Float64.roundHalfEven num den * den) ≤ 2 * num + den ∧
    2 * num ≤ 2 * (Float64.roundHalfEven num den * den) + den := by
  have h1 := Nat.div_add_mod num den
  have h2 := Nat.mod_lt num hd
  rw [Nat.mul_comm] at h1
  unfold Float64.roundHalfEven
  simp only
  split_ifs
  · generalize num / den * den = P at h1 ⊢
    omega
  · rw [Nat.add_mul, one_mul]
    generalize num / den * den = P at h1 ⊢
    omega
  · generalize num / den * den = P at h1 ⊢
    omega
  · rw [Nat.add_mul, one_mul]
    generalize num / den * den = P at h1 ⊢
    omega

/-- The bit pattern of `-d` unpacks to the value of `d` with the other sign. -/
theorem unpack_neg_abs (d : Double) : d.neg.unpack.abs = d.unpack.abs := by
  have h63 : (2 : Nat) ^ 63 = 9223372036854775808 := by norm_num
  have h52 : (2 : Nat) ^ 52 = 4503599627370496 := by norm_num
  have h11 : (2 : Nat) ^ 11 = 2048 := by norm_num
  have he : d.neg.bits / 2 ^ 52 % 2 ^ 11 = d.bits / 2 ^ 52 % 2 ^ 11 := by
    unfold Double.neg
    simp only [h63, h52, h11]
    split <;> omega
  have hf : d.neg.bits % 2 ^ 52 = d.bits % 2 ^ 52 := by
    unfold Double.neg
    simp only [h63, h52]
    split <;> omega
  unfold Double.unpack
  simp only [he, hf]
  split_ifs <;> rfl

/-- The conversion to `int64_t` of a non-negative finite `double` is the floor of its
value. -/
theorem toInt64_finite_nonneg (sig : Nat) (exp : Int) (I : Int)
    (h : Float64.toInt64 (.finite false sig exp) = some I) :
    0 ≤ I ∧ (I : ℚ) ≤ (sig : ℚ) * (2 : ℚ) ^ exp ∧ (sig : ℚ) * (2 : ℚ) ^ exp < (I : ℚ) + 1 := by
  unfold Float64.toInt64 at h
  simp only [Bool.false_eq_true, if_false] at h
  split_ifs at h with he hr
  · -- exp ≥ 0
    have hI : I = ((sig * 2 ^ exp.toNat : Nat) : Int) := (Option.some.inj h).symm
    have hz : (2 : ℚ) ^ exp = (2 : ℚ) ^ exp.toNat := by
      conv_lhs => rw [← Int.toNat_of_nonneg he]
      exact zpow_natCast _ _
    rw [hz, hI]
    push_cast
    refine ⟨by positivity, le_refl _, by linarith⟩
  · -- exp < 0
    have hI : I = ((sig / 2 ^ (-exp).toNat : Nat) : Int) := (Option.some.inj h).symm
    have hk : exp = -((-exp).toNat : Int) := by
      rw [Int.toNat_of_nonneg (by omega)]; ring
    have hz : (2 : ℚ) ^ exp = ((2 : ℚ) ^ (-exp).toNat)⁻¹ := by
      conv_lhs => rw [hk]
      rw [zpow_neg, zpow_natCast]
    have hpos : (0 : ℚ) < (2 : ℚ) ^ (-exp).toNat := by positivity
    have hp : 0 < 2 ^ (-exp).toNat := by positivity
    have h1 := Nat.div_add_mod sig (2 ^ (-exp).toNat)
    have h2 := Nat.mod_lt sig hp
    rw [hz, hI]
    generalize hK : 2 ^ (-exp).toNat = K at h1 h2 hp
    have hKq : (2 : ℚ) ^ (-exp).toNat = (K : ℚ) := by rw [← hK]; push_cast; rfl
    rw [hKq]
    have hKpos : (0 : ℚ) < (K : ℚ) := by exact_mod_cast hp
    have e1 : ((K * (sig / K) + sig % K : Nat) : ℚ) = (sig : ℚ) := by rw [h1]
    push_cast at e1
    have e2 : ((sig % K : Nat) : ℚ) < (K : ℚ) := by exact_mod_cast h2
    have e3 : (0 : ℚ) ≤ ((sig % K : Nat) : ℚ) := by positivity
    refine ⟨by positivity, ?_, ?_⟩
    · rw [Int.cast_natCast, ← div_eq_mul_inv, le_div_iff₀ hKpos]
      nlinarith
    · rw [Int.cast_natCast, ← div_eq_mul_inv, div_lt_iff₀ hKpos]
      nlinarith

theorem round_bound_up (r num den P B : Nat) (hden : 0 < den)
    (h : 2 * (r * (den * P)) ≤ 2 * num + den * P) (hn : num ≤ B * den) :
    r * P ≤ B + P := by
  have h1 : den * (2 * (r * P)) ≤ den * (2 * B + P) := by nlinarith
  have h2 := Nat.le_of_mul_le_mul_left h1 hden
  omega

theorem round_bound_down (r num den W B m : Nat) (hden : 0 < den) (hW : 0 < W)
    (h : 2 * (r * den) ≤ 2 * (num * W) + den) (hn : num ≤ B * den) (hm : m * W ≤ r) :
    m ≤ B := by
  by_contra hc
  have hB : B + 1 ≤ m := by omega
  have h1 : (B + 1) * W ≤ r := le_trans (Nat.mul_le_mul_right W hB) hm
  have h2 : (B + 1) * W * den ≤ r * den := Nat.mul_le_mul_right den h1
  have h3 : num * W ≤ B * den * W := Nat.mul_le_mul_right W hn
  have h4 : 1 * den ≤ W * den := Nat.mul_le_mul_right den hW
  nlinarith

/-- The exponent that `floorLog2` returns is at most 63 when the fraction is at most
`10 ^ 9 * 2 ^ 33`. -/
theorem floorLog2_le (num den : Nat) (hnum : 0 < num) (hden : 0 < den)
    (hn : num ≤ 1000000000 * 2 ^ 33 * den) : Float64.floorLog2 num den ≤ 63 := by
  obtain ⟨a1, _⟩ := ilog2_spec num hnum
  obtain ⟨_, b2⟩ := ilog2_spec den hden
  have hk : (Float64.ilog2 num : Int) - (Float64.ilog2 den : Int) ≤ 63 := by
    by_contra hc
    have hge : Float64.ilog2 den + 64 ≤ Float64.ilog2 num := by omega
    have h1 : 2 ^ (Float64.ilog2 den + 64) ≤ 2 ^ Float64.ilog2 num :=
      Nat.pow_le_pow_right (by decide) hge
    have h2 : 2 ^ (Float64.ilog2 den + 64) = 2 ^ (Float64.ilog2 den + 1) * 2 ^ 63 := by
      rw [← pow_add]
    have h3 : 1000000000 * 2 ^ 33 * den < 1000000000 * 2 ^ 33 * 2 ^ (Float64.ilog2 den + 1) :=
      mul_lt_mul_of_pos_left b2 (by norm_num)
    have h4 : (1000000000 : Nat) * 2 ^ 33 < 2 ^ 63 := by norm_num
    have h5 : 2 ^ (Float64.ilog2 den + 1) * (1000000000 * 2 ^ 33) <
        2 ^ (Float64.ilog2 den + 1) * 2 ^ 63 :=
      mul_lt_mul_of_pos_left h4 (by positivity)
    rw [h2] at h1
    have h6 := le_trans (le_trans h1 a1) hn
    rw [Nat.mul_comm (2 ^ (Float64.ilog2 den + 1)) (1000000000 * 2 ^ 33)] at h5
    omega
  unfold Float64.floorLog2
  simp only
  split_ifs <;> omega

/-- The conversion to `int64_t` of a non-negative finite `double` below `2 ^ 63`. -/
theorem toInt64_finite_of_lt (sig : Nat) (exp : Int) (mag : Nat)
    (hmag : mag = if 0 ≤ exp then sig * 2 ^ exp.toNat else sig / 2 ^ (-exp).toNat)
    (h : mag < 2 ^ 63) : Float64.toInt64 (.finite false sig exp) = some (mag : Int) := by
  unfold Float64.toInt64
  simp only [Bool.false_eq_true, if_false]
  rw [← hmag]
  have h1 : ((mag : Nat) : Int) < 2 ^ 63 := by exact_mod_cast h
  have h0 : (0 : Int) ≤ (mag : Int) := Int.natCast_nonneg _
  rw [if_pos ⟨by omega, h1⟩]

/-- The quotient `(double)1000000000 / x` for a positive finite `x = sig * 2 ^ exp`. -/
theorem quotient_finite (sig : Nat) (exp : Int) (hs : sig ≠ 0) :
    (Float64.ofInt (1 * 1000000000)).div (.finite false sig exp) =
      if 0 ≤ (Float64.roundQuotient (1000000000 * 2 ^ (0 - exp).toNat)
            (sig * 2 ^ (-(0 - exp)).toNat)).2 ∧
          2 ^ 1024 ≤ (Float64.roundQuotient (1000000000 * 2 ^ (0 - exp).toNat)
              (sig * 2 ^ (-(0 - exp)).toNat)).1 *
            2 ^ (Float64.roundQuotient (1000000000 * 2 ^ (0 - exp).toNat)
              (sig * 2 ^ (-(0 - exp)).toNat)).2.toNat
      then .inf false
      else .finite false
        (Float64.roundQuotient (1000000000 * 2 ^ (0 - exp).toNat)
          (sig * 2 ^ (-(0 - exp)).toNat)).1
        (Float64.roundQuotient (1000000000 * 2 ^ (0 - exp).toNat)
          (sig * 2 ^ (-(0 - exp)).toNat)).2 := by
  have h1 : Float64.ofInt (1 * 1000000000) = .finite false 1000000000 0 := by decide
  rw [h1]
  unfold Float64.div
  simp only [hs, if_false, Bool.xor_false]
  rfl

/-- The quotient `(double)1000000000 / x` for a positive finite `x` with
`x ≥ 2 ^ (-33)` converts to an `int64_t`. -/
theorem toInt64_quotient_defined (sig : Nat) (exp : Int) (hs : sig ≠ 0)
    (hv : 2 ^ (0 - exp).toNat ≤ 2 ^ 33 * (sig * 2 ^ (-(0 - exp)).toNat)) :
    ∃ I, ((Float64.ofInt (1 * 1000000000)).div (.finite false sig exp)).toInt64 = some I := by
  rw [quotient_finite sig exp hs]
  generalize hnum : 1000000000 * 2 ^ (0 - exp).toNat = num
  generalize hden : sig * 2 ^ (-(0 - exp)).toNat = den at hv
  have hnum0 : 0 < num := by rw [← hnum]; positivity
  have hden0 : 0 < den := by
    rw [← hden]
    exact Nat.mul_pos (Nat.pos_of_ne_zero hs) (by positivity)
  have hn : num ≤ 1000000000 * 2 ^ 33 * den := by
    rw [← hnum]
    have := Nat.mul_le_mul_left 1000000000 hv
    calc 1000000000 * 2 ^ (0 - exp).toNat ≤ 1000000000 * (2 ^ 33 * den) := this
      _ = 1000000000 * 2 ^ 33 * den := by ring
  have hE := floorLog2_le num den hnum0 hden0 hn
  have hB : (1000000000 : Nat) * 2 ^ 33 + 2 ^ 11 < 2 ^ 63 := by norm_num
  unfold Float64.roundQuotient
  simp only
  generalize hu : max (Float64.floorLog2 num den - 52) (-1074) = u
  have hu11 : u ≤ 11 := by rw [← hu]; omega
  by_cases hneg : u < 0
  · simp only [hneg, if_true]
    rw [if_neg (by omega)]
    have hW : 0 < 2 ^ (-u).toNat := by positivity
    have hr := (roundHalfEven_spec (num * 2 ^ (-u).toNat) den hden0).1
    have hm := Nat.div_mul_le_self
      (Float64.roundHalfEven (num * 2 ^ (-u).toNat) den) (2 ^ (-u).toNat)
    have hb := round_bound_down _ num den _ (1000000000 * 2 ^ 33) _ hden0 hW hr hn hm
    exact ⟨_, toInt64_finite_of_lt _ u _ (by rw [if_neg (by omega)]) (by omega)⟩
  · simp only [hneg, if_false]
    have hP : 2 ^ u.toNat ≤ 2 ^ 11 := Nat.pow_le_pow_right (by decide) (by omega)
    have hr := (roundHalfEven_spec num (den * 2 ^ u.toNat)
      (Nat.mul_pos hden0 (by positivity))).1
    have hb := round_bound_up _ num den _ (1000000000 * 2 ^ 33) hden0 hr hn
    have hlt : Float64.roundHalfEven num (den * 2 ^ u.toNat) * 2 ^ u.toNat < 2 ^ 63 := by
      omega
    have hbig : (2 : Nat) ^ 63 < 2 ^ 1024 := Nat.pow_lt_pow_right (by decide) (by decide)
    rw [if_neg (by
      intro hc
      have := hc.2
      omega)]
    exact ⟨_, toInt64_finite_of_lt _ u _ (by rw [if_pos (by omega)]) hlt⟩

/-- The argument of the division is never negative: `std::abs` clears the sign. -/
theorem abs_cases (x : Float64) :
    x.abs = .nan ∨ x.abs = .inf false ∨ ∃ sig exp, x.abs = .finite false sig exp := by
  cases x with
  | nan => exact Or.inl rfl
  | inf n => exact Or.inr (Or.inl rfl)
  | finite n s e => exact Or.inr (Or.inr ⟨s, e, rfl⟩)

/-- When the interval is defined, the quotient is a non-negative finite `double` and the
interval is its conversion. -/
theorem sliceInterval_quotient (fps : Double) (I : Int)
    (h : sliceIntervalOfFps fps = some I) :
    ∃ (r : Nat) (u : Int),
      (Float64.ofInt (1 * 1000000000)).div fps.unpack.abs = .finite false r u ∧
      Float64.toInt64 (.finite false r u) = some I := by
  unfold sliceIntervalOfFps at h
  have h1 : Float64.ofInt (1 * 1000000000) = .finite false 1000000000 0 := by decide
  rcases abs_cases fps.unpack with hx | hx | ⟨s, e, hx⟩
  · rw [hx, h1] at h
    simp [Float64.div, Float64.toInt64] at h
  · rw [hx, h1] at h ⊢
    exact ⟨0, 0, rfl, h⟩
  · rw [hx] at h ⊢
    by_cases hs : s = 0
    · subst hs
      rw [h1] at h
      simp [Float64.div, Float64.toInt64] at h
    · rw [quotient_finite s e hs] at h ⊢
      split_ifs at h ⊢ with hov
      · simp [Float64.toInt64] at h
      · exact ⟨_, _, rfl, h⟩

/-- The interval is the floor of the value of the quotient. -/
theorem sliceInterval_floor (fps : Double) (I : Int) (h : sliceIntervalOfFps fps = some I) :
    ∃ Q : ℚ, ((Float64.ofInt (1 * 1000000000)).div fps.unpack.abs).toRat = some Q ∧
      0 ≤ I ∧ (I : ℚ) ≤ Q ∧ Q < (I : ℚ) + 1 := by
  obtain ⟨r, u, hq, ht⟩ := sliceInterval_quotient fps I h
  obtain ⟨h0, h1, h2⟩ := toInt64_finite_nonneg r u I ht
  refine ⟨(r : ℚ) * (2 : ℚ) ^ u, ?_, h0, h1, h2⟩
  rw [hq]
  simp [Float64.toRat]

/-- The interval is defined for every finite frame rate of magnitude at least `2 ^ (-33)`. -/
theorem sliceInterval_defined (fps : Double) (v : ℚ) (hv : fps.unpack.toRat = some v)
    (hlow : (2 : ℚ) ^ (-33 : Int) ≤ |v|) : ∃ I, sliceIntervalOfFps fps = some I := by
  cases hx : fps.unpack with
  | nan => rw [hx] at hv; simp [Float64.toRat] at hv
  | inf n => rw [hx] at hv; simp [Float64.toRat] at hv
  | finite n s e =>
    rw [hx] at hv
    simp only [Float64.toRat, Option.some.injEq] at hv
    have habs : |v| = (s : ℚ) * (2 : ℚ) ^ e := by
      rw [← hv]
      have hp : (0 : ℚ) ≤ (s : ℚ) * (2 : ℚ) ^ e := by positivity
      cases n
      · simp only [Bool.false_eq_true, if_false, one_mul]
        exact abs_of_nonneg hp
      · simp only [if_true, neg_mul, one_mul, abs_neg]
        exact abs_of_nonneg hp
    rw [habs] at hlow
    have hs : s ≠ 0 := by
      rintro rfl
      simp at hlow
      have : (0 : ℚ) < (2 ^ 33)⁻¹ := by positivity
      linarith
    unfold sliceIntervalOfFps
    rw [hx]
    show ∃ I, ((Float64.ofInt (1 * 1000000000)).div (.finite false s e)).toInt64 = some I
    apply toInt64_quotient_defined s e hs
    by_cases he : 0 ≤ e
    · have e1 : (0 - e).toNat = 0 := by omega
      rw [e1, pow_zero]
      have : 1 ≤ s := Nat.pos_of_ne_zero hs
      have h2 : 1 ≤ 2 ^ (-(0 - e)).toNat := Nat.one_le_two_pow
      have h3 : 1 ≤ 2 ^ 33 := Nat.one_le_two_pow
      calc 1 = 1 * (1 * 1) := by norm_num
        _ ≤ 2 ^ 33 * (s * 2 ^ (-(0 - e)).toNat) :=
          Nat.mul_le_mul h3 (Nat.mul_le_mul this h2)
    · have e1 : (-(0 - e)).toNat = 0 := by omega
      rw [e1, pow_zero, mul_one]
      have hk : e = -((0 - e).toNat : Int) := by omega
      have hz : (2 : ℚ) ^ e = ((2 : ℚ) ^ (0 - e).toNat)⁻¹ := by
        conv_lhs => rw [hk]
        rw [zpow_neg, zpow_natCast]
      rw [hz] at hlow
      have hpos : (0 : ℚ) < (2 : ℚ) ^ (0 - e).toNat := by positivity
      have h33 : (2 : ℚ) ^ (-33 : Int) = ((2 : ℚ) ^ 33)⁻¹ := by
        rw [zpow_neg]; norm_cast
      rw [h33, ← div_eq_mul_inv, le_div_iff₀ hpos] at hlow
      have hq : (2 : ℚ) ^ (0 - e).toNat ≤ (2 : ℚ) ^ 33 * (s : ℚ) := by
        have h33pos : (0 : ℚ) < (2 : ℚ) ^ 33 := by positivity
        have := mul_le_mul_of_nonneg_left hlow (le_of_lt h33pos)
        rw [← mul_assoc, mul_inv_cancel₀ (ne_of_gt h33pos), one_mul] at this
        exact this
      exact_mod_cast hq

/-- The interval that `constructFps` stores is the one the frame rate gives. -/
theorem constructFps_interval (topic : String) (cutoff : Int) (fps fillRatio : Double)
    (tileSize offset : Int) (L : List Int) :
    Option.map ApproxReconstructor.sliceInterval_
      (constructFps topic cutoff fps fillRatio tileSize offset L) = sliceIntervalOfFps fps := by
  unfold constructFps
  cases sliceIntervalOfFps fps with
  | none => rfl
  | some I => simp [construct]

/-- The exponent that `floorLog2` returns brackets the fraction between two powers of 2. -/
theorem floorLog2_spec (num den : Nat) (hnum : 0 < num) (hden : 0 < den) :
    (2 : ℚ) ^ Float64.floorLog2 num den ≤ (num : ℚ) / (den : ℚ) ∧
    (num : ℚ) / (den : ℚ) < (2 : ℚ) ^ (Float64.floorLog2 num den + 1) := by
  obtain ⟨a1, a2⟩ := ilog2_spec num hnum
  obtain ⟨b1, b2⟩ := ilog2_spec den hden
  generalize ha : Float64.ilog2 num = a at a1 a2
  generalize hb : Float64.ilog2 den = b at b1 b2
  have hdq : (0 : ℚ) < (den : ℚ) := by exact_mod_cast hden
  have a1q : (2 : ℚ) ^ a ≤ (num : ℚ) := by exact_mod_cast a1
  have a2q : (num : ℚ) < (2 : ℚ) ^ a * 2 := by
    have : ((num : Nat) : ℚ) < ((2 ^ (a + 1) : Nat) : ℚ) := by exact_mod_cast a2
    rw [pow_succ] at this
    exact_mod_cast this
  have b1q : (2 : ℚ) ^ b ≤ (den : ℚ) := by exact_mod_cast b1
  have b2q : (den : ℚ) < (2 : ℚ) ^ b * 2 := by
    have : ((den : Nat) : ℚ) < ((2 ^ (b + 1) : Nat) : ℚ) := by exact_mod_cast b2
    rw [pow_succ] at this
    exact_mod_cast this
  have hpa : (0 : ℚ) < (2 : ℚ) ^ a := by positivity
  have hpb : (0 : ℚ) < (2 : ℚ) ^ b := by positivity
  -- X = 2 ^ (a - b)
  have hX : (2 : ℚ) ^ ((a : Int) - (b : Int)) = (2 : ℚ) ^ a / (2 : ℚ) ^ b := by
    rw [zpow_sub₀ (by norm_num), zpow_natCast, zpow_natCast]
  have hXm : (2 : ℚ) ^ ((a : Int) - (b : Int) - 1) = (2 : ℚ) ^ a / (2 : ℚ) ^ b / 2 := by
    rw [zpow_sub₀ (by norm_num), hX]
    simp
  have hXp : (2 : ℚ) ^ ((a : Int) - (b : Int) + 1) = (2 : ℚ) ^ a / (2 : ℚ) ^ b * 2 := by
    rw [zpow_add₀ (by norm_num), hX]
    simp
  have hup : (num : ℚ) / (den : ℚ) < (2 : ℚ) ^ a / (2 : ℚ) ^ b * 2 := by
    rw [div_lt_iff₀ hdq]
    have : (2 : ℚ) ^ a * 2 ≤ (2 : ℚ) ^ a / (2 : ℚ) ^ b * 2 * (den : ℚ) := by
      rw [div_mul_eq_mul_div, div_mul_eq_mul_div, le_div_iff₀ hpb]
      nlinarith
    linarith
  have hlow : (2 : ℚ) ^ a / (2 : ℚ) ^ b / 2 ≤ (num : ℚ) / (den : ℚ) := by
    rw [le_div_iff₀ hdq, div_div, div_mul_eq_mul_div, div_le_iff₀ (by positivity)]
    nlinarith
  -- the test of `floorLog2` compares the fraction with `X`
  have htest : (if 0 ≤ (a : Int) - (b : Int)
        then decide (den * 2 ^ ((a : Int) - (b : Int)).toNat ≤ num)
        else decide (den ≤ num * 2 ^ (-((a : Int) - (b : Int))).toNat)) = true ↔
      (2 : ℚ) ^ a / (2 : ℚ) ^ b ≤ (num : ℚ) / (den : ℚ) := by
    rw [le_div_iff₀ hdq, ← hX]
    by_cases hk : 0 ≤ (a : Int) - (b : Int)
    · rw [if_pos hk, decide_eq_true_iff]
      have hz : (2 : ℚ) ^ ((a : Int) - (b : Int)) =
          (2 : ℚ) ^ ((a : Int) - (b : Int)).toNat := by
        conv_lhs => rw [← Int.toNat_of_nonneg hk]
        exact zpow_natCast _ _
      rw [hz]
      constructor
      · intro h
        have : ((den * 2 ^ ((a : Int) - (b : Int)).toNat : Nat) : ℚ) ≤ (num : ℚ) := by
          exact_mod_cast h
        push_cast at this
        linarith
      · intro h
        have : ((den * 2 ^ ((a : Int) - (b : Int)).toNat : Nat) : ℚ) ≤ (num : ℚ) := by
          push_cast
          linarith
        exact_mod_cast this
    · rw [if_neg hk, decide_eq_true_iff]
      have hkk : (a : Int) - (b : Int) = -((-((a : Int) - (b : Int))).toNat : Int) := by omega
      have hz : (2 : ℚ) ^ ((a : Int) - (b : Int)) =
          ((2 : ℚ) ^ (-((a : Int) - (b : Int))).toNat)⁻¹ := by
        conv_lhs => rw [hkk]
        rw [zpow_neg, zpow_natCast]
      have hW : (0 : ℚ) < (2 : ℚ) ^ (-((a : Int) - (b : Int))).toNat := by positivity
      rw [hz, inv_mul_le_iff₀ hW]
      constructor
      · intro h
        have : ((den : Nat) : ℚ) ≤ ((num * 2 ^ (-((a : Int) - (b : Int))).toNat : Nat) : ℚ) := by
          exact_mod_cast h
        push_cast at this
        linarith
      · intro h
        have : ((den : Nat) : ℚ) ≤ ((num * 2 ^ (-((a : Int) - (b : Int))).toNat : Nat) : ℚ) := by
          push_cast
          linarith
        exact_mod_cast this
  unfold Float64.floorLog2
  simp only [ha, hb]
  by_cases hT : (2 : ℚ) ^ a / (2 : ℚ) ^ b ≤ (num : ℚ) / (den : ℚ)
  · have ht := htest.2 hT
    by_cases hk : 0 ≤ (a : Int) - (b : Int)
    · rw [if_pos hk] at ht ⊢
      rw [if_pos (by simpa using ht), hX, hXp]
      exact ⟨hT, hup⟩
    · rw [if_neg hk] at ht ⊢
      rw [if_pos (by simpa using ht), hX, hXp]
      exact ⟨hT, hup⟩
  · have ht : ¬ _ := fun h => hT (htest.1 h)
    have hT' := lt_of_not_le hT
    have hXm' : (2 : ℚ) ^ ((a : Int) - (b : Int) - 1 + 1) = (2 : ℚ) ^ a / (2 : ℚ) ^ b := by
      rw [sub_add_cancel, hX]
    by_cases hk : 0 ≤ (a : Int) - (b : Int)
    · rw [if_pos hk] at ht ⊢
      rw [if_neg (by simpa using ht), hXm, hXm']
      exact ⟨hlow, hT'⟩
    · rw [if_neg hk] at ht ⊢
      rw [if_neg (by simpa using ht), hXm, hXm']
      exact ⟨hlow, hT'⟩

/-- The rounded quotient is within half a unit in the last place of the fraction, and the
last place is the 53rd significant bit unless the fraction is below `2 ^ (-1021)`. -/
theorem roundQuotient_spec (num den : Nat) (hnum : 0 < num) (hden : 0 < den) :
    |((Float64.roundQuotient num den).1 : ℚ) * (2 : ℚ) ^ (Float64.roundQuotient num den).2 -
        (num : ℚ) / (den : ℚ)| ≤ (2 : ℚ) ^ (Float64.roundQuotient num den).2 / 2 ∧
    (((Float64.roundQuotient num den).2 = -1074 ∧
        (num : ℚ) / (den : ℚ) < (2 : ℚ) ^ (-1021 : Int)) ∨
      ((2 : ℚ) ^ ((Float64.roundQuotient num den).2 + 52) ≤ (num : ℚ) / (den : ℚ) ∧
        (num : ℚ) / (den : ℚ) < (2 : ℚ) ^ ((Float64.roundQuotient num den).2 + 53))) := by
  obtain ⟨hE1, hE2⟩ := floorLog2_spec num den hnum hden
  have hdq : (0 : ℚ) < (den : ℚ) := by exact_mod_cast hden
  unfold Float64.roundQuotient
  simp only
  generalize hu : max (Float64.floorLog2 num den - 52) (-1074) = u
  have hprec : (u = -1074 ∧ (num : ℚ) / (den : ℚ) < (2 : ℚ) ^ (-1021 : Int)) ∨
      ((2 : ℚ) ^ (u + 52) ≤ (num : ℚ) / (den : ℚ) ∧
      (num : ℚ) / (den : ℚ) < (2 : ℚ) ^ (u + 53)) := by
    by_cases hc : Float64.floorLog2 num den - 52 ≤ -1074
    · left
      refine ⟨by rw [← hu]; exact max_eq_right hc, lt_of_lt_of_le hE2 ?_⟩
      exact zpow_le_zpow_right₀ (by norm_num) (by omega)
    · right
      have hue : u = Float64.floorLog2 num den - 52 := by
        rw [← hu]
        exact max_eq_left (by omega)
      have e1 : u + 52 = Float64.floorLog2 num den := by omega
      have e2 : u + 53 = Float64.floorLog2 num den + 1 := by omega
      rw [e1, e2]
      exact ⟨hE1, hE2⟩
  by_cases hneg : u < 0
  · simp only [hneg, if_true]
    refine ⟨?_, hprec⟩
    have hW : (0 : ℚ) < (2 : ℚ) ^ (-u).toNat := by positivity
    have hk : u = -((-u).toNat : Int) := by omega
    have hz : (2 : ℚ) ^ u = ((2 : ℚ) ^ (-u).toNat)⁻¹ := by
      conv_lhs => rw [hk]
      rw [zpow_neg, zpow_natCast]
    obtain ⟨s1, s2⟩ := roundHalfEven_spec (num * 2 ^ (-u).toNat) den hden
    generalize Float64.roundHalfEven (num * 2 ^ (-u).toNat) den = r at s1 s2
    have s1q : 2 * ((r : ℚ) * (den : ℚ)) ≤ 2 * ((num : ℚ) * (2 : ℚ) ^ (-u).toNat) + (den : ℚ) := by
      exact_mod_cast s1
    have s2q : 2 * ((num : ℚ) * (2 : ℚ) ^ (-u).toNat) ≤ 2 * ((r : ℚ) * (den : ℚ)) + (den : ℚ) := by
      exact_mod_cast s2
    rw [hz]
    generalize (2 : ℚ) ^ (-u).toNat = W at hW s1q s2q
    rw [abs_le]
    have e : (r : ℚ) * W⁻¹ - (num : ℚ) / (den : ℚ) =
        ((r : ℚ) * (den : ℚ) - (num : ℚ) * W) / (W * (den : ℚ)) := by
      field_simp
      ring
    have hWd : (0 : ℚ) < W * (den : ℚ) := mul_pos hW hdq
    rw [e]
    constructor
    · rw [le_div_iff₀ hWd]
      have : -(W⁻¹ / 2) * (W * (den : ℚ)) = -(den : ℚ) / 2 := by
        field_simp
        ring
      rw [this]
      linarith
    · rw [div_le_iff₀ hWd]
      have : W⁻¹ / 2 * (W * (den : ℚ)) = (den : ℚ) / 2 := by
        field_simp
        ring
      rw [this]
      linarith
  · simp only [hneg, if_false]
    refine ⟨?_, hprec⟩
    have hP : (0 : ℚ) < (2 : ℚ) ^ u.toNat := by positivity
    have hz : (2 : ℚ) ^ u = (2 : ℚ) ^ u.toNat := by
      conv_lhs => rw [← Int.toNat_of_nonneg (not_lt.1 hneg)]
      exact zpow_natCast _ _
    obtain ⟨s1, s2⟩ := roundHalfEven_spec num (den * 2 ^ u.toNat)
      (Nat.mul_pos hden (by positivity))
    generalize Float64.roundHalfEven num (den * 2 ^ u.toNat) = r at s1 s2
    have s1q : 2 * ((r : ℚ) * ((den : ℚ) * (2 : ℚ) ^ u.toNat)) ≤
        2 * (num : ℚ) + (den : ℚ) * (2 : ℚ) ^ u.toNat := by
      exact_mod_cast s1
    have s2q : 2 * (num : ℚ) ≤
        2 * ((r : ℚ) * ((den : ℚ) * (2 : ℚ) ^ u.toNat)) + (den : ℚ) * (2 : ℚ) ^ u.toNat := by
      exact_mod_cast s2
    rw [hz]
    generalize (2 : ℚ) ^ u.toNat = P at hP s1q s2q
    rw [abs_le]
    have e : (r : ℚ) * P - (num : ℚ) / (den : ℚ) =
        ((r : ℚ) * ((den : ℚ) * P) - (num : ℚ)) / (den : ℚ) := by
      field_simp
      ring
    rw [e]
    constructor
    · rw [le_div_iff₀ hdq]
      linarith
    · rw [div_le_iff₀ hdq]
      linarith

/-- The fields of a finite `double`: a significand below `2 ^ 53` and an exponent between
-1074 and 971. -/
theorem unpack_finite_bounds (d : Double) (n : Bool) (s : Nat) (e : Int)
    (h : d.unpack = .finite n s e) : s < 2 ^ 53 ∧ -1074 ≤ e ∧ e ≤ 971 := by
  have h52 : (2 : Nat) ^ 52 = 4503599627370496 := by norm_num
  have h11 : (2 : Nat) ^ 11 = 2048 := by norm_num
  have h53 : (2 : Nat) ^ 53 = 9007199254740992 := by norm_num
  unfold Double.unpack at h
  simp only [h52, h11] at h
  rw [h53]
  split_ifs at h with h1 h2 h3
  · simp only [Float64.finite.injEq] at h
    obtain ⟨_, hs, he⟩ := h
    rw [← hs, ← he]
    refine ⟨by omega, by omega, by omega⟩
  · simp only [Float64.finite.injEq] at h
    obtain ⟨_, hs, he⟩ := h
    rw [← hs, ← he]
    refine ⟨by omega, by omega, by omega⟩


/-- The fraction that the division rounds is the quotient `10 ^ 9 / (sig * 2 ^ exp)`. -/
theorem quotient_fraction (sig : Nat) (exp : Int) :
    ((1000000000 * 2 ^ (0 - exp).toNat : Nat) : ℚ) / ((sig * 2 ^ (-(0 - exp)).toNat : Nat) : ℚ) =
      1000000000 / ((sig : ℚ) * (2 : ℚ) ^ exp) := by
  by_cases he : 0 ≤ exp
  · have e1 : (0 - exp).toNat = 0 := by omega
    have e2 : (-(0 - exp)).toNat = exp.toNat := by congr 1; omega
    have hz : (2 : ℚ) ^ exp = (2 : ℚ) ^ exp.toNat := by
      conv_lhs => rw [← Int.toNat_of_nonneg he]
      exact zpow_natCast _ _
    rw [e1, e2, hz]
    push_cast
    simp
  · have e1 : (-(0 - exp)).toNat = 0 := by omega
    have hk : exp = -((0 - exp).toNat : Int) := by omega
    have hz : (2 : ℚ) ^ exp = ((2 : ℚ) ^ (0 - exp).toNat)⁻¹ := by
      conv_lhs => rw [hk]
      rw [zpow_neg, zpow_natCast]
    rw [e1, hz]
    push_cast
    have hW : (2 : ℚ) ^ (0 - exp).toNat ≠ 0 := by positivity
    by_cases hs : (sig : ℚ) = 0
    · simp [hs]
    · field_simp

/-- Where the interval is defined for a finite frame rate of value `v`, the quotient `Q`
that is truncated is the exact quotient `10 ^ 9 / |v|` correctly rounded to a `double`:
it differs from the exact quotient by at most the fraction `2 ^ (-53)` of it. -/
theorem quotient_accuracy (fps : Double) (v : ℚ) (I : Int)
    (hv : fps.unpack.toRat = some v) (h : sliceIntervalOfFps fps = some I) :
    ∃ Q : ℚ, ((Float64.ofInt (1 * 1000000000)).div fps.unpack.abs).toRat = some Q ∧
      |Q - 1000000000 / (|v|)| ≤ 1000000000 / (|v|) * (2 : ℚ) ^ (-53 : Int) := by
  cases hx : fps.unpack with
  | nan => rw [hx] at hv; simp [Float64.toRat] at hv
  | inf n => rw [hx] at hv; simp [Float64.toRat] at hv
  | finite n s e =>
    obtain ⟨hs53, _, he971⟩ := unpack_finite_bounds fps n s e hx
    rw [hx] at hv
    simp only [Float64.toRat, Option.some.injEq] at hv
    have habs : |v| = (s : ℚ) * (2 : ℚ) ^ e := by
      rw [← hv]
      have hp : (0 : ℚ) ≤ (s : ℚ) * (2 : ℚ) ^ e := by positivity
      cases n
      · simp only [Bool.false_eq_true, if_false, one_mul]
        exact abs_of_nonneg hp
      · simp only [if_true, neg_mul, one_mul, abs_neg]
        exact abs_of_nonneg hp
    unfold sliceIntervalOfFps at h
    rw [hx] at h
    have hxa : (Float64.finite n s e).abs = .finite false s e := rfl
    rw [hxa] at h ⊢
    have hs : s ≠ 0 := by
      rintro rfl
      have h1 : Float64.ofInt (1 * 1000000000) = .finite false 1000000000 0 := by decide
      rw [h1] at h
      simp [Float64.div, Float64.toInt64] at h
    rw [quotient_finite s e hs] at h ⊢
    have hnum : 0 < 1000000000 * 2 ^ (0 - e).toNat := by positivity
    have hden : 0 < s * 2 ^ (-(0 - e)).toNat :=
      Nat.mul_pos (Nat.pos_of_ne_zero hs) (by positivity)
    obtain ⟨hnear, hprec⟩ := roundQuotient_spec _ _ hnum hden
    rw [quotient_fraction s e, ← habs] at hnear hprec
    split_ifs at h ⊢ with hov
    · simp [Float64.toInt64] at h
    · generalize Float64.roundQuotient (1000000000 * 2 ^ (0 - e).toNat)
        (s * 2 ^ (-(0 - e)).toNat) = p at hnear hprec ⊢
      refine ⟨(p.1 : ℚ) * (2 : ℚ) ^ p.2, by simp [Float64.toRat], ?_⟩
      have hvpos : (0 : ℚ) < |v| := by
        rw [habs]
        have : (0 : ℚ) < (s : ℚ) := by exact_mod_cast Nat.pos_of_ne_zero hs
        positivity
      have hvlt : |v| < (2 : ℚ) ^ (1024 : Int) := by
        rw [habs]
        have h1 : (s : ℚ) < (2 : ℚ) ^ (53 : Int) := by
          have : ((s : Nat) : ℚ) < ((2 ^ 53 : Nat) : ℚ) := by exact_mod_cast hs53
          have h0 : (2 : ℚ) ^ (53 : Int) = ((2 ^ 53 : Nat) : ℚ) := by norm_num
          rw [h0]
          exact this
        have h2 : (2 : ℚ) ^ e ≤ (2 : ℚ) ^ (971 : Int) :=
          zpow_le_zpow_right₀ (by norm_num) he971
        have h3 : (2 : ℚ) ^ (1024 : Int) = (2 : ℚ) ^ (53 : Int) * (2 : ℚ) ^ (971 : Int) := by
          rw [← zpow_add₀ (by norm_num)]
          norm_num
        rw [h3]
        have hp : (0 : ℚ) < (2 : ℚ) ^ e := by positivity
        calc (s : ℚ) * (2 : ℚ) ^ e < (2 : ℚ) ^ (53 : Int) * (2 : ℚ) ^ e :=
              mul_lt_mul_of_pos_right h1 hp
          _ ≤ (2 : ℚ) ^ (53 : Int) * (2 : ℚ) ^ (971 : Int) :=
              mul_le_mul_of_nonneg_left h2 (by positivity)
      have hqlow : (2 : ℚ) ^ (-1021 : Int) ≤ 1000000000 / |v| := by
        rw [le_div_iff₀ hvpos]
        have h4 : (2 : ℚ) ^ (-1021 : Int) * (2 : ℚ) ^ (1024 : Int) = 8 := by
          rw [← zpow_add₀ (by norm_num)]
          norm_num
        have h5 : (0 : ℚ) < (2 : ℚ) ^ (-1021 : Int) := by positivity
        nlinarith
      rcases hprec with ⟨_, hsmall⟩ | ⟨hb1, _⟩
      · exact absurd hsmall (not_lt.2 hqlow)
      · have hhalf : (2 : ℚ) ^ p.2 / 2 = (2 : ℚ) ^ (p.2 + 52) * (2 : ℚ) ^ (-53 : Int) := by
          rw [← zpow_add₀ (by norm_num)]
          have : p.2 + 52 + -53 = p.2 - 1 := by ring
          rw [this, zpow_sub₀ (by norm_num)]
          simp
        rw [hhalf] at hnear
        have hp53 : (0 : ℚ) < (2 : ℚ) ^ (-53 : Int) := by positivity
        exact le_trans hnear (mul_le_mul_of_nonneg_right hb1 (le_of_lt hp53))

/-- A defined conversion to `int64_t` is in the range of `int64_t`. -/
theorem toInt64_range (x : Float64) (I : Int) (h : x.toInt64 = some I) :
    -2 ^ 63 ≤ I ∧ I < 2 ^ 63 := by
  cases x with
  | nan => simp [Float64.toInt64] at h
  | inf n => simp [Float64.toInt64] at h
  | finite n s e =>
    unfold Float64.toInt64 at h
    simp only at h
    split_ifs at h
    all_goals
      cases h
      assumption

/-- A non-negative finite `double` of value below `2 ^ 63` converts to an `int64_t`. -/
theorem toInt64_finite_defined (sig : Nat) (exp : Int)
    (h : (sig : ℚ) * (2 : ℚ) ^ exp < (2 : ℚ) ^ 63) :
    ∃ I, Float64.toInt64 (.finite false sig exp) = some I := by
  by_cases he : 0 ≤ exp
  · refine ⟨_, toInt64_finite_of_lt sig exp (sig * 2 ^ exp.toNat) (by rw [if_pos he]) ?_⟩
    have hz : (2 : ℚ) ^ exp = (2 : ℚ) ^ exp.toNat := by
      rw [← zpow_natCast, Int.toNat_of_nonneg he]
    rw [hz] at h
    exact_mod_cast h
  · refine ⟨_, toInt64_finite_of_lt sig exp (sig / 2 ^ (-exp).toNat) (by rw [if_neg he]) ?_⟩
    have hz : (2 : ℚ) ^ exp = ((2 : ℚ) ^ (-exp).toNat)⁻¹ := by
      rw [← zpow_natCast, Int.toNat_of_nonneg (by omega), zpow_neg, inv_inv]
    rw [hz, ← div_eq_mul_inv] at h
    have hpos : (0 : ℚ) < (2 : ℚ) ^ (-exp).toNat := by positivity
    rw [div_lt_iff₀ hpos] at h
    have h2 : sig < 2 ^ 63 * 2 ^ (-exp).toNat := by exact_mod_cast h
    exact Nat.div_lt_of_lt_mul (by rw [Nat.mul_comm]; exact h2)

/-- The quotient `(double)1000000000 / std::abs(fps)` is never negative. -/
theorem quotient_sign (x : Float64) (n : Bool) (r : Nat) (u : Int)
    (h : (Float64.ofInt (1 * 1000000000)).div x.abs = .finite n r u) : n = false := by
  have h1 : Float64.ofInt (1 * 1000000000) = .finite false 1000000000 0 := by decide
  rw [h1] at h
  rcases abs_cases x with hx | hx | ⟨s, e, hx⟩
  · rw [hx] at h
    simp [Float64.div] at h
  · rw [hx] at h
    simp only [Float64.div, Float64.finite.injEq] at h
    rw [← h.1]
    rfl
  · rw [hx] at h
    unfold Float64.div at h
    simp only at h
    split_ifs at h
    all_goals
      simp only [Float64.finite.injEq] at h
      rw [← h.1]
      rfl

/-- The interval is defined exactly when the quotient is a finite `double` of value below
`2 ^ 63`. -/
theorem sliceInterval_defined_iff (fps : Double) :
    (∃ I, sliceIntervalOfFps fps = some I) ↔
      ∃ Q : ℚ, ((Float64.ofInt (1 * 1000000000)).div fps.unpack.abs).toRat = some Q ∧
        Q < (2 : ℚ) ^ 63 := by
  constructor
  · rintro ⟨I, h⟩
    obtain ⟨Q, hQ, _, _, h2⟩ := sliceInterval_floor fps I h
    refine ⟨Q, hQ, ?_⟩
    have hr := (toInt64_range _ I h).2
    have hr2 : (I : ℚ) + 1 ≤ (2 : ℚ) ^ 63 := by
      have : I + 1 ≤ 2 ^ 63 := by omega
      exact_mod_cast this
    linarith
  · rintro ⟨Q, hQ, hlt⟩
    unfold sliceIntervalOfFps
    cases hq : (Float64.ofInt (1 * 1000000000)).div fps.unpack.abs with
    | nan => rw [hq] at hQ; simp [Float64.toRat] at hQ
    | inf n => rw [hq] at hQ; simp [Float64.toRat] at hQ
    | finite n r u =>
      have hn := quotient_sign _ n r u hq
      subst hn
      rw [hq] at hQ
      simp only [Float64.toRat, Bool.false_eq_true, if_false, one_mul,
        Option.some.injEq] at hQ
      rw [← hQ] at hlt
      exact toInt64_finite_defined r u hlt

set_option maxRecDepth 8000

/-- The quotient that is truncated is the `double` one.  For the frame rate
`2396745142857143 * 2 ^ (-24)` (about 142857142.857, bit pattern `0x41A107A76DB6DB6E`) the
exact quotient lies just below 7, the `double` quotient is 7, and the interval is 7. -/
theorem sliceInterval_double_quotient :
    (Double.unpack ⟨0x41A107A76DB6DB6E⟩).toRat =
      some ((2396745142857143 : ℚ) * (2 : ℚ) ^ (-24 : Int)) ∧
    ⌊(1000000000 : ℚ) / ((2396745142857143 : ℚ) * (2 : ℚ) ^ (-24 : Int))⌋ = 6 ∧
    sliceIntervalOfFps ⟨0x41A107A76DB6DB6E⟩ = some 7 := by
  refine ⟨?_, ?_, by decide⟩
  · have h : Double.unpack ⟨0x41A107A76DB6DB6E⟩ = .finite false 4793490285714286 (-25) := by
      decide
    rw [h]
    simp only [Float64.toRat, Bool.false_eq_true, if_false, one_mul, Option.some.injEq]
    rw [zpow_neg, zpow_neg]
    norm_num
  · rw [Int.floor_eq_iff, zpow_neg]
    norm_num

/-- C14 (as amended): the constructor's interval for a frame rate `fps` is
`static_cast<int64_t>(1000000000 / std::abs(fps))`.  The sign of `fps` is ignored: `fps`
and `-fps` give the same interval.  Where the interval is defined it is the quotient (the
`double` value of the division) truncated toward zero: `0 ≤ I ≤ Q < I + 1`.  It is
defined exactly when the quotient is a finite `double` of value below `2 ^ 63`, which holds
for every finite frame rate of magnitude at least `2 ^ (-33)`.  For a finite frame
rate of value `v` the quotient `Q` is the exact `10 ^ 9 / |v|` correctly rounded to a
`double`, within the fraction `2 ^ (-53)` of it.  For the default
`fps = 25.0` (bit pattern `0x4039000000000000`) the interval is 40,000,000. -/
theorem C14_interval_from_fps :
    (∀ fps : Double, sliceIntervalOfFps fps.neg = sliceIntervalOfFps fps) ∧
    (∀ (fps : Double) (I : Int), sliceIntervalOfFps fps = some I →
      ∃ Q : ℚ, ((Float64.ofInt (1 * 1000000000)).div fps.unpack.abs).toRat = some Q ∧
        0 ≤ I ∧ (I : ℚ) ≤ Q ∧ Q < (I : ℚ) + 1) ∧
    (∀ fps : Double, (∃ I, sliceIntervalOfFps fps = some I) ↔
      ∃ Q : ℚ, ((Float64.ofInt (1 * 1000000000)).div fps.unpack.abs).toRat = some Q ∧
        Q < (2 : ℚ) ^ 63) ∧
    (∀ (fps : Double) (v : ℚ), fps.unpack.toRat = some v → (2 : ℚ) ^ (-33 : Int) ≤ |v| →
      ∃ I, sliceIntervalOfFps fps = some I) ∧
    (∀ (fps : Double) (v : ℚ) (I : Int), fps.unpack.toRat = some v →
      sliceIntervalOfFps fps = some I →
      ∃ Q : ℚ, ((Float64.ofInt (1 * 1000000000)).div fps.unpack.abs).toRat = some Q ∧
        |Q - 1000000000 / (|v|)| ≤ 1000000000 / (|v|) * (2 : ℚ) ^ (-53 : Int)) ∧
    (∀ (topic : String) (cutoff : Int) (fps fillRatio : Double) (tileSize offset : Int)
        (L : List Int),
      Option.map ApproxReconstructor.sliceInterval_
        (constructFps topic cutoff fps fillRatio tileSize offset L) = sliceIntervalOfFps fps) ∧
    (Double.unpack ⟨0x4039000000000000⟩).toRat = some 25 ∧
    sliceIntervalOfFps ⟨0x4039000000000000⟩ = some 40000000 := by
  refine ⟨?_, sliceInterval_floor, sliceInterval_defined_iff, sliceInterval_defined,
    quotient_accuracy, constructFps_interval, ?_, by decide⟩
  · intro fps
    unfold sliceIntervalOfFps
    rw [unpack_neg_abs]
  · have h : Double.unpack ⟨0x4039000000000000⟩ = .finite false 7036874417766400 (-48) := by
      decide
    rw [h]
    simp only [Float64.toRat, Bool.false_eq_true, if_false, one_mul, Option.some.injEq]
    rw [zpow_neg]
    norm_num

/-- Witness for C14: `fps = 60.0` (bit pattern `0x404E000000000000`) and `fps = -60.0`
both give the interval 16,666,666, the floor of the quotient. -/
theorem C14_interval_from_fps_witness :
    sliceIntervalOfFps ⟨0xC04E000000000000⟩ = some 16666666 ∧
    ∃ Q : ℚ, ((Float64.ofInt (1 * 1000000000)).div
        (Double.unpack ⟨0x404E000000000000⟩).abs).toRat = some Q ∧
      (0 : Int) ≤ 16666666 ∧ ((16666666 : Int) : ℚ) ≤ Q ∧ Q < ((16666666 : Int) : ℚ) + 1 :=
  ⟨by decide, C14_interval_from_fps.2.1 ⟨0x404E000000000000⟩ 16666666 (by decide)⟩

/-- C14 (counterexample): the frame rate `2 ^ (-34)` (bit pattern `0x3DD0000000000000`) is
not zero, and `1000000000 / 2 ^ (-34) = 17179869184000000000` is above the largest
`int64_t`, so no interval equals the truncated quotient and the conversion in the
constructor is undefined.  Where the conversion is defined, the quotient that is truncated
is the `double` one: for the frame rate `2396745142857143 * 2 ^ (-24)` (about
142857142.857, bit pattern `0x41A107A76DB6DB6E`) the exact quotient truncates to 6 and the
interval is 7. -/
theorem C14_counterexample :
    (Double.unpack ⟨0x3DD0000000000000⟩).toRat = some ((2 : ℚ) ^ (-34 : Int)) ∧
    (2 : ℚ) ^ (-34 : Int) ≠ 0 ∧
    ⌊(1000000000 : ℚ) / |(2 : ℚ) ^ (-34 : Int)|⌋ = 17179869184000000000 ∧
    (2 : Int) ^ 63 ≤ 17179869184000000000 ∧
    sliceIntervalOfFps ⟨0x3DD0000000000000⟩ = none ∧
    (Double.unpack ⟨0x41A107A76DB6DB6E⟩).toRat =
      some ((2396745142857143 : ℚ) * (2 : ℚ) ^ (-24 : Int)) ∧
    ⌊(1000000000 : ℚ) / |(2396745142857143 : ℚ) * (2 : ℚ) ^ (-24 : Int)|⌋ = 6 ∧
    sliceIntervalOfFps ⟨0x41A107A76DB6DB6E⟩ = some 7 := by
  refine ⟨?_, by positivity, ?_, by decide, by decide, ?_, ?_, by decide⟩
  · have h : Double.unpack ⟨0x3DD0000000000000⟩ = .finite false 4503599627370496 (-86) := by
      decide
    rw [h]
    simp only [Float64.toRat, Bool.false_eq_true, if_false, one_mul, Option.some.injEq]
    rw [zpow_neg, zpow_neg]
    norm_num
  · rw [abs_of_pos (by positivity), Int.floor_eq_iff, zpow_neg]
    norm_num
  · have h : Double.unpack ⟨0x41A107A76DB6DB6E⟩ = .finite false 4793490285714286 (-25) := by
      decide
    rw [h]
    simp only [Float64.toRat, Bool.false_eq_true, if_false, one_mul, Option.some.injEq]
    rw [zpow_neg, zpow_neg]
    norm_num
  · rw [abs_of_pos (by positivity), Int.floor_eq_iff, zpow_neg]
    norm_num

/-- C15 (as amended): where the interval for a frame rate `fps` is defined, it is the
quotient `1e9 / |fps|` (the `double` value `Q` of the division) truncated toward zero,
`I = floor(Q)`, not rounded to nearest.  It coincides with the nearest integer exactly
when the fractional part of `Q` is below one half; otherwise the nearest integer is
`I + 1`. -/
theorem C15_interval_truncated (fps : Double) (I : Int)
    (h : sliceIntervalOfFps fps = some I) :
    ∃ Q : ℚ, ((Float64.ofInt (1 * 1000000000)).div fps.unpack.abs).toRat = some Q ∧
      I = ⌊Q⌋ ∧ (I = round Q ↔ Int.fract Q < 1 / 2) ∧ (I ≠ round Q → round Q = I + 1) := by
  obtain ⟨Q, hQ, _, h1, h2⟩ := sliceInterval_floor fps I h
  have hfl : ⌊Q⌋ = I := Int.floor_eq_iff.2 ⟨h1, h2⟩
  have hfr : Int.fract Q = Q - (I : ℚ) := by
    rw [Int.fract, hfl]
  have hround : round Q = ⌊Q + 1 / 2⌋ := round_eq Q
  have hiff : I = round Q ↔ Int.fract Q < 1 / 2 := by
    rw [hround, hfr]
    constructor
    · intro hI
      have := (Int.floor_eq_iff.1 hI.symm).2
      linarith
    · intro hlt
      exact (Int.floor_eq_iff.2 ⟨by linarith, by linarith⟩).symm
  refine ⟨Q, hQ, hfl.symm, hiff, ?_⟩
  intro hne
  have hge : ¬ Int.fract Q < 1 / 2 := fun hc => hne (hiff.2 hc)
  rw [hfr] at hge
  rw [hround]
  apply Int.floor_eq_iff.2
  push_cast
  constructor <;> linarith

/-- Witness for C15 (as amended): `fps = 25.0`, interval 40,000,000. -/
theorem C15_interval_truncated_witness :
    ∃ Q : ℚ, ((Float64.ofInt (1 * 1000000000)).div
        (Double.unpack ⟨0x4039000000000000⟩).abs).toRat = some Q ∧
      (40000000 : Int) = ⌊Q⌋ ∧ ((40000000 : Int) = round Q ↔ Int.fract Q < 1 / 2) ∧
      ((40000000 : Int) ≠ round Q → round Q = 40000000 + 1) :=
  C15_interval_truncated ⟨0x4039000000000000⟩ 40000000 (by decide)

/-- C15 (counterexample): for `fps = 60.0` (bit pattern `0x404E000000000000`) the
interval is 16,666,666, while `1e9 / 60 = 16,666,666.67` rounded to the nearest integer
is 16,666,667; this holds for the exact quotient and for the `double` quotient
`8947848533333333 * 2 ^ (-29)` alike. -/
theorem C15_counterexample :
    (Double.unpack ⟨0x404E000000000000⟩).toRat = some 60 ∧
    sliceIntervalOfFps ⟨0x404E000000000000⟩ = some 16666666 ∧
    round ((1000000000 : ℚ) / |60|) = 16666667 ∧
    (Float64.ofInt (1 * 1000000000)).div (Double.unpack ⟨0x404E000000000000⟩).abs =
      .finite false 8947848533333333 (-29) ∧
    round ((8947848533333333 : ℚ) * (2 : ℚ) ^ (-29 : Int)) = 16666667 ∧
    (16666666 : Int) ≠ 16666667 := by
  refine ⟨?_, by decide, ?_, by decide, ?_, by decide⟩
  · have h : Double.unpack ⟨0x404E000000000000⟩ = .finite false 8444249301319680 (-47) := by
      decide
    rw [h]
    simp only [Float64.toRat, Bool.false_eq_true, if_false, one_mul, Option.some.injEq]
    rw [zpow_neg]
    norm_num
  · rw [round_eq, Int.floor_eq_iff]
    norm_num
  · rw [round_eq, Int.floor_eq_iff, zpow_neg]
    norm_num

end simple_image_recon
